import Mathlib

/-!
# Verification of the retained-tree reconciliation engine

Shallow embedding of `packages/runtime-core/src/renderer.ts`:
the keyed-children diff (`patchKeyedChildren`), its longest-increasing-
subsequence helper (`getSequence`), the patch dispatcher (`patch`),
the element fast path (`patchElement`), the full prop diff (`patchProps`),
and the text/comment processors.

JavaScript arrays are modelled as `List Nat` with read `getAt` (out-of-bounds
reads yield the default 0; all reads relevant to the theorems are shown or
assumed in bounds).  Mutable in-place updates become `List.set`.
-/

namespace Renderer

/- Compiler patch-flag protocol, bit-exact (PatchFlags of the shared package). -/
namespace PatchFlags

def TEXT : Int := 1
def CLASS : Int := 2
def STYLE : Int := 4
def PROPS : Int := 8
def FULL_PROPS : Int := 16
def HYDRATE_EVENTS : Int := 32
def STABLE_FRAGMENT : Int := 64
def KEYED_FRAGMENT : Int := 128
def UNKEYED_FRAGMENT : Int := 256
def NEED_PATCH : Int := 512
def DYNAMIC_SLOTS : Int := 1024
def DEV_ROOT_FRAGMENT : Int := 2048
def HOISTED : Int := -1
def BAIL : Int := -2

end PatchFlags

/-- JS array read `arr[i]`: entries are numbers, reads out of range are
only ever compared after an in-bounds guard in the embedded code paths,
so the default 0 is unobservable there. -/
def getAt (l : List Nat) (i : Nat) : Nat := l.getD i 0

/-!
## `getSequence` (renderer.ts lines 2762–2801)

The source is an imperative O(n log n) longest-increasing-subsequence
routine over the non-zero entries of `arr`, with predecessor array `p`
and a final backtracking loop.  The inner `while (u < v)` binary search
is embedded with an explicit fuel argument (the loop strictly decreases
`v - u`, so `v - u` fuel suffices; `bsearch` supplies it).
-/

/-- The `while (u < v)` binary search inside `getSequence`: find the
leftmost slot `u` of `result` whose value is not `< arrI`. -/
def bsearchGo (arr result : List Nat) (x : Nat) : Nat → Nat → Nat → Nat
  | 0, u, _ => u
  | fuel + 1, u, v =>
    if u < v then
      let c := (u + v) / 2
      if getAt arr (getAt result c) < x then bsearchGo arr result x fuel (c + 1) v
      else bsearchGo arr result x fuel u c
    else u

def bsearch (arr result : List Nat) (x : Nat) (u v : Nat) : Nat :=
  bsearchGo arr result x (v - u) u v

/-- State of the main loop of `getSequence`: the predecessor array `p`
(initialised to `arr.slice()`) and the candidate-slot array `result`. -/
structure GS where
  p : List Nat
  result : List Nat
deriving DecidableEq

/-- One iteration of the `for (i = 0; i < len; i++)` loop of `getSequence`. -/
def gsStep (arr : List Nat) (s : GS) (i : Nat) : GS :=
  let arrI := getAt arr i
  if arrI ≠ 0 then
    let j := getAt s.result (s.result.length - 1)
    if getAt arr j < arrI then
      { p := s.p.set i j, result := s.result ++ [i] }
    else
      let u := bsearch arr s.result arrI 0 (s.result.length - 1)
      if arrI < getAt arr (getAt s.result u) then
        { p := if 0 < u then s.p.set i (getAt s.result (u - 1)) else s.p,
          result := s.result.set u i }
      else s
  else s

/-- The main loop, started from `p = arr.slice()`, `result = [0]`. -/
def gsLoop (arr : List Nat) : GS :=
  (List.range arr.length).foldl (gsStep arr) ⟨arr, [0]⟩

/-- The final `while (u-- > 0)` backtracking loop: overwrite `result[u]`
with `v`, then follow the predecessor link `v = p[v]`. -/
def btGo (p : List Nat) (res : List Nat) (v : Nat) : Nat → List Nat
  | 0 => res
  | u + 1 => btGo p (res.set u v) (getAt p v) u

/-- `getSequence(arr)` (renderer.ts 2762–2801). -/
def getSequence (arr : List Nat) : List Nat :=
  let s := gsLoop arr
  let u := s.result.length
  let v := getAt s.result (u - 1)
  btGo s.p s.result v u

example : getSequence [3, 1, 2] = [1, 2] := by decide
example : getSequence [0] = [0] := by decide
example : getSequence [] = [0] := by decide
example : getSequence [0, 2, 1] = [0, 2] := by decide
example : getSequence [1, 4, 5, 2] = [0, 1, 2] := by decide
example : getSequence [3, 2] = [1] := by decide
example : getSequence [3, 1, 2] = [1, 2] := by decide
example : getSequence [5, 4, 3, 0] = [2] := by decide
example : getSequence [10, 30, 20, 50, 40, 80, 60] = [0, 2, 4, 6] := by decide

/-!
## The patch dispatcher and the element fast path

Model scope: elements carry text children or no children (`childText`);
array children and nested blocks are exercised through the keyed-children
model further below, which is where the source sends them.  JavaScript
object identity (`===` on vnodes and props objects) is modelled by an
explicit identity field (`vid` / `pid`): equal ids stand for the same
object, distinct ids for distinct objects.
-/

inductive VTag
  | text
  | comment
  | elem (tag : Nat)
deriving DecidableEq

/-- A props object: `pid` is its JS object identity (`EMPTY_OBJ` has
pid 0), `entries` its own enumerable keys in insertion order. -/
structure Props where
  pid : Nat
  entries : List (String × Nat)
deriving DecidableEq

def EMPTY_OBJ : Props := ⟨0, []⟩

def plookup (ps : List (String × Nat)) (k : String) : Option Nat :=
  (ps.find? (fun p => p.1 == k)).map (fun p => p.2)

def phas (ps : List (String × Nat)) (k : String) : Bool :=
  (plookup ps k).isSome

/-- Virtual node (flat element / text / comment slice of the model). -/
structure VN where
  vid : Nat
  tag : VTag
  key : Option Nat
  props : Option Props
  childText : Option String
  patchFlag : Int
  dynamicProps : List String
  dynChildren : Bool
  el : Option Nat
deriving DecidableEq

/-- `isSameVNodeType` (vnode.ts): `n1.type === n2.type && n1.key === n2.key`. -/
def isSameVNodeType (a b : VN) : Bool :=
  a.tag == b.tag && a.key == b.key

/-- Host operations, one constructor per host-interface call that
mutates or creates host state. -/
inductive HostOp
  | insert (el : Nat) (anchor : Option Nat)
  | remove (el : Nat)
  | createElement (tag : Nat) (el : Nat)
  | createText (s : String) (el : Nat)
  | createComment (s : String) (el : Nat)
  | setText (el : Nat) (s : String)
  | setElementText (el : Nat) (s : String)
  | patchProp (el : Nat) (key : String) (prev next : Option Nat)
deriving DecidableEq

def HostOp.isPatchProp : HostOp → Bool
  | .patchProp _ _ _ _ => true
  | _ => false

def HostOp.isPatchPropValue : HostOp → Bool
  | .patchProp _ k _ _ => k == "value"
  | _ => false

/-- `insertBefore el anchor` on the ordered child list of one container:
insert directly before the first occurrence of the anchor (els are kept
distinct by the engine, so the first occurrence is the occurrence). -/
def insBefore : List Nat → Nat → Nat → List Nat
  | [], e, _ => [e]
  | x :: xs, e, a => if x = a then e :: x :: xs else x :: insBefore xs e a

/-- `hostInsert(el, container, anchor)`: DOM `insertBefore` semantics —
a node already in the tree is moved; a null anchor appends. -/
def hostInsert (c : List Nat) (e : Nat) (anchor : Option Nat) : List Nat :=
  let c' := c.erase e
  match anchor with
  | none => c' ++ [e]
  | some a => insBefore c' e a

/-- `hostNextSibling(el)`: the child directly after `el`, if any. -/
def nextSibling : List Nat → Nat → Option Nat
  | [], _ => none
  | x :: xs, e => if x = e then xs.head? else nextSibling xs e

/-- Host-side state threaded through a patch: the container's ordered
child list and the supply of fresh host handles. -/
structure HState where
  container : List Nat
  nextEl : Nat
deriving DecidableEq

/-- Result of one dispatcher-level patch: emitted host calls, the new
host state, and the new vnode with its `el` back-reference written
(the source mutates `n2.el` in place). -/
structure PRes where
  ops : List HostOp
  st : HState
  n2 : VN
deriving DecidableEq

/-- Reserved props skipped by the prop diff (`isReservedProp` of shared). -/
def isReservedProp (k : String) : Bool :=
  k == "" || k == "key" || k == "ref" || k == "ref_for" || k == "ref_key" ||
  k == "onVnodeBeforeMount" || k == "onVnodeMounted" ||
  k == "onVnodeBeforeUpdate" || k == "onVnodeUpdated" ||
  k == "onVnodeBeforeUnmount" || k == "onVnodeUnmounted"

/-- Bit test `flag & bit` of the source, on JS 32-bit two's-complement
integers (`Int.land` has exactly these semantics on ℤ). -/
def hasFlag (f bit : Int) : Bool :=
  f.land bit ≠ 0

/-- `processText` (renderer.ts 474–487). -/
def processText (n1 : Option VN) (n2 : VN) (st : HState) (anchor : Option Nat) :
    PRes :=
  match n1 with
  | none =>
    let e := st.nextEl
    let s := n2.childText.getD ""
    { ops := [.createText s e, .insert e anchor],
      st := { container := hostInsert st.container e anchor, nextEl := e + 1 },
      n2 := { n2 with el := some e } }
  | some o =>
    let e := o.el.getD 0
    if n2.childText ≠ o.childText then
      { ops := [.setText e (n2.childText.getD "")], st := st,
        n2 := { n2 with el := o.el } }
    else
      { ops := [], st := st, n2 := { n2 with el := o.el } }

/-- `processCommentNode` (renderer.ts 489–505); on update the source
only transfers the handle: "there's no support for dynamic comments". -/
def processCommentNode (n1 : Option VN) (n2 : VN) (st : HState)
    (anchor : Option Nat) : PRes :=
  match n1 with
  | none =>
    let e := st.nextEl
    let s := n2.childText.getD ""
    { ops := [.createComment s e, .insert e anchor],
      st := { container := hostInsert st.container e anchor, nextEl := e + 1 },
      n2 := { n2 with el := some e } }
  | some o =>
    { ops := [], st := st, n2 := { n2 with el := o.el } }

/-- The mount-time prop loop of `mountElement` (657–683): every own key
except `value` and reserved keys, then a forced `value` patch. -/
def mountProps (e : Nat) (ps : List (String × Nat)) : List HostOp :=
  (ps.filterMap (fun p =>
    if p.1 ≠ "value" ∧ ¬ isReservedProp p.1 then
      some (HostOp.patchProp e p.1 none (some p.2))
    else none)) ++
  (if phas ps "value" then [HostOp.patchProp e "value" none (plookup ps "value")]
   else [])

/-- `mountElement` (renderer.ts 614–725): create, set text children,
props (value forced last), insert before the anchor. -/
def mountElement (n2 : VN) (st : HState) (anchor : Option Nat) (tag : Nat) :
    PRes :=
  let e := st.nextEl
  let textOps : List HostOp :=
    match n2.childText with
    | some s => [.setElementText e s]
    | none => []
  let propOps := mountProps e (n2.props.getD EMPTY_OBJ).entries
  { ops := [.createElement tag e] ++ textOps ++ propOps ++ [.insert e anchor],
    st := { container := hostInsert st.container e anchor, nextEl := e + 1 },
    n2 := { n2 with el := some e } }

/-- `patchProps` (renderer.ts 1021–1072): removal loop for old keys not
present any more, update loop deferring `value`, then the unconditional
deferred `value` patch.  The outer `oldProps !== newProps` reference
check compares object identities. -/
def patchProps (e : Nat) (oldProps newProps : Props) : List HostOp :=
  if oldProps.pid ≠ newProps.pid then
    (if oldProps.pid ≠ EMPTY_OBJ.pid then
      oldProps.entries.filterMap (fun p =>
        if ¬ isReservedProp p.1 ∧ ¬ phas newProps.entries p.1 then
          some (HostOp.patchProp e p.1 (some p.2) none)
        else none)
     else []) ++
    (newProps.entries.filterMap (fun p =>
      if isReservedProp p.1 then none
      else
        let next := some p.2
        let prev := plookup oldProps.entries p.1
        if next ≠ prev ∧ p.1 ≠ "value" then
          some (HostOp.patchProp e p.1 prev next)
        else none)) ++
    (if phas newProps.entries "value" then
      [HostOp.patchProp e "value" (plookup oldProps.entries "value")
        (plookup newProps.entries "value")]
     else [])
  else []

/-- The `PatchFlags.PROPS` fast path of `patchElement` (921–943): walk
only `dynamicProps`, force-patching `value` (`#1471`). -/
def patchDynamicProps (e : Nat) (dynamicProps : List String)
    (oldProps newProps : Props) : List HostOp :=
  dynamicProps.filterMap (fun k =>
    let prev := plookup oldProps.entries k
    let next := plookup newProps.entries k
    if next ≠ prev ∨ k = "value" then some (HostOp.patchProp e k prev next)
    else none)

/-- `patchChildren` (renderer.ts 1669–1788) restricted to text / absent
children (array children are handled by the keyed-children model below;
an element reaching this model never carries them). -/
def patchChildren (n1 n2 : VN) (e : Nat) : List HostOp :=
  match n2.childText with
  | some s => if n1.childText ≠ some s then [.setElementText e s] else []
  | none =>
    match n1.childText with
    | some _ => [.setElementText e ""]
    | none => []

/-- `patchElement` (renderer.ts 795–972): reuse the handle, patch
children (block fast path / full diff), then the flag-directed prop
section.  In this flat model a block element owns no dynamic child
collection, so `patchBlockChildren` contributes no host call here;
every theorem below that uses this definition has `dynChildren = false`. -/
def patchElement (n1 n2 : VN) (optimized : Bool) : List HostOp × VN :=
  let e := n1.el.getD 0
  let patchFlag := n2.patchFlag.lor (n1.patchFlag.land PatchFlags.FULL_PROPS)
  let oldProps := n1.props.getD EMPTY_OBJ
  let newProps := n2.props.getD EMPTY_OBJ
  let childOps : List HostOp :=
    if n2.dynChildren then []
    else if !optimized then patchChildren n1 n2 e
    else []
  let propOps : List HostOp :=
    if 0 < patchFlag then
      (if hasFlag patchFlag PatchFlags.FULL_PROPS then
        patchProps e oldProps newProps
       else
        (if hasFlag patchFlag PatchFlags.CLASS then
          if plookup oldProps.entries "class" ≠ plookup newProps.entries "class"
          then [.patchProp e "class" none (plookup newProps.entries "class")]
          else []
         else []) ++
        (if hasFlag patchFlag PatchFlags.STYLE then
          [.patchProp e "style" (plookup oldProps.entries "style")
            (plookup newProps.entries "style")]
         else []) ++
        (if hasFlag patchFlag PatchFlags.PROPS then
          patchDynamicProps e n2.dynamicProps oldProps newProps
         else [])) ++
      (if hasFlag patchFlag PatchFlags.TEXT then
        if n1.childText ≠ n2.childText then
          [.setElementText e (n2.childText.getD "")]
        else []
       else [])
    else if !optimized && !n2.dynChildren then
      patchProps e oldProps newProps
    else []
  (childOps ++ propOps, { n2 with el := n1.el })

/-- `processElement` (renderer.ts 577–612). -/
def processElement (n1 : Option VN) (n2 : VN) (st : HState)
    (anchor : Option Nat) (optimized : Bool) (tag : Nat) : PRes :=
  match n1 with
  | none => mountElement n2 st anchor tag
  | some o =>
    let r := patchElement o n2 optimized
    { ops := r.1, st := st, n2 := r.2 }

/-- `unmount` (renderer.ts 2417 ff.) for the flat node kinds: the host
node is removed from its container wholesale. -/
def unmountVN (o : VN) (st : HState) : List HostOp × HState :=
  let e := o.el.getD 0
  ([.remove e], { st with container := st.container.erase e })

/-- `getNextHostNode` (renderer.ts 2667–2675) for flat nodes:
`hostNextSibling(vnode.anchor || vnode.el)`. -/
def getNextHostNode (o : VN) (st : HState) : Option Nat :=
  nextSibling st.container (o.el.getD 0)

/-- Lines 379–382 of `patch`: a BAIL flag disables optimization and
clears the dynamic-children collection of the incoming vnode. -/
def bailNormalize (n2 : VN) : VN :=
  if n2.patchFlag = PatchFlags.BAIL then { n2 with dynChildren := false }
  else n2

/-- `patch` (renderer.ts 354–472), the dispatcher state machine:
identity no-op, unmount-then-mount on type mismatch (anchored at the old
node's next host sibling), BAIL normalization, then dispatch on the
node kind. -/
def patch (n1 : Option VN) (n2 : VN) (st : HState) (anchor : Option Nat)
    (optimized : Bool) : PRes :=
  match n1 with
  | some o =>
    if o.vid = n2.vid then { ops := [], st := st, n2 := n2 }
    else
      let mismatch := !isSameVNodeType o n2
      let anchor' := if mismatch then getNextHostNode o st else anchor
      let (preOps, st₁) := if mismatch then unmountVN o st else ([], st)
      let n1' : Option VN := if mismatch then none else some o
      let optimized' := if n2.patchFlag = PatchFlags.BAIL then false
                        else optimized
      let n2' := bailNormalize n2
      let r :=
        match n2'.tag with
        | .text => processText n1' n2' st₁ anchor'
        | .comment => processCommentNode n1' n2' st₁ anchor'
        | .elem tag => processElement n1' n2' st₁ anchor' optimized' tag
      { r with ops := preOps ++ r.ops }
  | none =>
    let optimized' := if n2.patchFlag = PatchFlags.BAIL then false
                      else optimized
    let n2' := bailNormalize n2
    match n2'.tag with
    | .text => processText none n2' st anchor
    | .comment => processCommentNode none n2' st anchor
    | .elem tag => processElement none n2' st anchor optimized' tag

/-! ## Helper lemmas about the host-list primitives -/

theorem insBefore_eq_append {a : Nat} (xs : List Nat) (h : a ∉ xs) (e : Nat)
    (t : List Nat) : insBefore (xs ++ a :: t) e a = xs ++ e :: a :: t := by
  induction xs with
  | nil => simp [insBefore]
  | cons x xs ih =>
    have hx : x ≠ a := fun hh => h (hh ▸ List.mem_cons_self x xs)
    have h' : a ∉ xs := fun hh => h (List.mem_cons_of_mem _ hh)
    simp only [List.cons_append, insBefore, if_neg hx, List.append_eq, ih h']

theorem nextSibling_append {e : Nat} (xs ys : List Nat) (h : e ∉ xs) :
    nextSibling (xs ++ e :: ys) e = ys.head? := by
  induction xs with
  | nil => simp [nextSibling]
  | cons x xs ih =>
    have hx : x ≠ e := fun hh => h (hh ▸ List.mem_cons_self x xs)
    have h' : e ∉ xs := fun hh => h (List.mem_cons_of_mem _ hh)
    simpa [nextSibling, hx] using ih h'

theorem hostInsert_at_head (xs ys : List Nat) (e : Nat) (h1 : e ∉ xs)
    (h2 : e ∉ ys) (hdisj : ∀ y ∈ ys, y ∉ xs) :
    hostInsert (xs ++ ys) e ys.head? = xs ++ e :: ys := by
  have herase : (xs ++ ys).erase e = xs ++ ys := by
    refine List.erase_of_not_mem ?_
    intro hmem
    rcases List.mem_append.mp hmem with hc | hc
    · exact h1 hc
    · exact h2 hc
  cases ys with
  | nil =>
    have h0 : (xs ++ ([] : List Nat)).erase e = xs := by
      rw [List.append_nil]
      exact List.erase_of_not_mem h1
    simp [hostInsert, h0, h1]
  | cons y t =>
    have hy : y ∉ xs := hdisj y (List.mem_cons_self y t)
    simp only [hostInsert, herase, List.head?_cons]
    exact insBefore_eq_append xs hy e t

theorem int_lor_zero_right (x : Int) : x.lor 0 = x := by
  cases x with
  | ofNat m => simp [Int.lor]
  | negSucc m => simp [Int.lor, Nat.ldiff]

theorem int_lor_bail_neg (y : Int) : ¬ (0 < Int.lor (-2) (Int.land y 16)) := by
  have h2 : (-2 : Int) = Int.negSucc 1 := rfl
  rw [h2]
  cases y with
  | ofNat m =>
    show ¬ (0 < Int.negSucc (Nat.ldiff 1 (m &&& 16)))
    exact of_decide_eq_false rfl
  | negSucc m =>
    show ¬ (0 < Int.negSucc (Nat.ldiff 1 (Nat.ldiff 16 m)))
    exact of_decide_eq_false rfl

/-! ## Claims C4, C5, C6, C7, C8, C10 -/

/-- C5: invoking `patch` with the same vnode as old and new (the
`n1 === n2` identity check, renderer.ts 368–370) performs zero host
operations and leaves the host tree unchanged. -/
theorem patch_identity_noop (n : VN) (st : HState) (anchor : Option Nat)
    (opt : Bool) :
    (patch (some n) n st anchor opt).ops = [] ∧
    (patch (some n) n st anchor opt).st = st := by
  simp [patch]

/-- C4: on a type mismatch (`!isSameVNodeType`, renderer.ts 373–377),
`patch` first emits the unmount of the old node, then mounts the new
node fresh exactly at the host position the old node occupied, using the
old node's next host sibling as the insertion anchor. -/
theorem patch_mismatch_replaces_in_place (o n : VN) (xs ys : List Nat)
    (nextEl : Nat) (anchor : Option Nat) (opt : Bool) (e : Nat)
    (hel : o.el = some e)
    (hvid : o.vid ≠ n.vid)
    (hmt : isSameVNodeType o n = false)
    (hnd : (xs ++ e :: ys).Nodup)
    (hfresh : ∀ x ∈ xs ++ e :: ys, x < nextEl) :
    (patch (some o) n ⟨xs ++ e :: ys, nextEl⟩ anchor opt).st.container =
      xs ++ nextEl :: ys ∧
    (∃ rest, (patch (some o) n ⟨xs ++ e :: ys, nextEl⟩ anchor opt).ops =
      HostOp.remove e :: rest) ∧
    (patch (some o) n ⟨xs ++ e :: ys, nextEl⟩ anchor opt).n2.el =
      some nextEl := by
  have hnd' := List.nodup_append.mp hnd
  have hex : e ∉ xs := fun hc => hnd'.2.2 hc (List.mem_cons_self e ys)
  have hey : e ∉ ys := by
    have := hnd'.2.1
    simp only [List.nodup_cons] at this
    exact this.1
  have hdisj : ∀ y ∈ ys, y ∉ xs :=
    fun y hy hc => hnd'.2.2 hc (List.mem_cons_of_mem _ hy)
  have hfx : nextEl ∉ xs := fun hc =>
    absurd rfl (Nat.ne_of_lt (hfresh _ (List.mem_append_left _ hc)))
  have hfy : nextEl ∉ ys := fun hc =>
    absurd rfl (Nat.ne_of_lt
      (hfresh _ (List.mem_append_right _ (List.mem_cons_of_mem _ hc))))
  have hera : (xs ++ e :: ys).erase e = xs ++ ys := by
    rw [List.erase_append_right _ hex, List.erase_cons_head]
  have hns : nextSibling (xs ++ e :: ys) e = ys.head? := nextSibling_append xs ys hex
  have hins : hostInsert (xs ++ ys) nextEl ys.head? = xs ++ nextEl :: ys :=
    hostInsert_at_head xs ys nextEl hfx hfy hdisj
  simp only [patch, if_neg hvid, hmt, Bool.not_false, if_true, getNextHostNode,
    unmountVN, hel, Option.getD_some, hera, hns]
  cases hbt : (bailNormalize n).tag with
  | text =>
    simp only [processText, hins]
    exact ⟨trivial, ⟨_, rfl⟩, trivial⟩
  | comment =>
    simp only [processCommentNode, hins]
    exact ⟨trivial, ⟨_, rfl⟩, trivial⟩
  | elem t =>
    simp only [processElement, mountElement, hins]
    exact ⟨trivial, ⟨_, rfl⟩, trivial⟩

/-- Closed instance discharging the hypotheses of
`patch_mismatch_replaces_in_place`: replacing the element with handle 5
sitting between 3 and 4 by a text node yields container `[3, 6, 4]`. -/
theorem patch_mismatch_witness :
    (patch (some ⟨0, .elem 1, none, none, none, 0, [], false, some 5⟩)
      ⟨1, .text, none, none, some "hi", 0, [], false, none⟩
      ⟨[3, 5, 4], 6⟩ none false).st.container = [3, 6, 4] :=
  (patch_mismatch_replaces_in_place
    ⟨0, .elem 1, none, none, none, 0, [], false, some 5⟩
    ⟨1, .text, none, none, some "hi", 0, [], false, none⟩
    [3] [4] 6 none false 5 rfl (by decide) (by decide) (by decide)
    (by decide)).1

theorem bailNormalize_tag (n : VN) : (bailNormalize n).tag = n.tag := by
  unfold bailNormalize
  split <;> rfl

theorem bailNormalize_childText (n : VN) :
    (bailNormalize n).childText = n.childText := by
  unfold bailNormalize
  split <;> rfl

theorem bailNormalize_el (n : VN) : (bailNormalize n).el = n.el := by
  unfold bailNormalize
  split <;> rfl

theorem bailNormalize_props (n : VN) : (bailNormalize n).props = n.props := by
  unfold bailNormalize
  split <;> rfl

theorem bailNormalize_patchFlag (n : VN) :
    (bailNormalize n).patchFlag = n.patchFlag := by
  unfold bailNormalize
  split <;> rfl

/-- C8 (amended): on a same-type update, Text and Comment vnodes reuse
the old host handle and never recreate it; a Text node's content is
updated via `setText` exactly when the strings differ, while a Comment
node's content is never updated (renderer.ts 502: "there's no support
for dynamic comments"). -/
theorem text_comment_update_reuses_handle (o n : VN) (st : HState)
    (anchor : Option Nat) (opt : Bool)
    (hvid : o.vid ≠ n.vid) (hkey : o.key = n.key) :
    (o.tag = VTag.text → n.tag = VTag.text →
      (patch (some o) n st anchor opt).n2.el = o.el ∧
      (patch (some o) n st anchor opt).st = st ∧
      (patch (some o) n st anchor opt).ops =
        (if n.childText ≠ o.childText
         then [HostOp.setText (o.el.getD 0) (n.childText.getD "")] else [])) ∧
    (o.tag = VTag.comment → n.tag = VTag.comment →
      (patch (some o) n st anchor opt).n2.el = o.el ∧
      (patch (some o) n st anchor opt).st = st ∧
      (patch (some o) n st anchor opt).ops = []) := by
  constructor
  · intro hot hnt
    have hsame : isSameVNodeType o n = true := by
      simp [isSameVNodeType, hot, hnt, hkey]
    have hbt : (bailNormalize n).tag = VTag.text := by
      rw [bailNormalize_tag, hnt]
    simp only [patch, if_neg hvid, hsame, Bool.not_true, Bool.false_eq_true,
      if_false, hbt, processText, bailNormalize_childText]
    split
    · refine ⟨by trivial, by trivial, by simp⟩
    · refine ⟨by trivial, by trivial, by simp⟩
  · intro hot hnt
    have hsame : isSameVNodeType o n = true := by
      simp [isSameVNodeType, hot, hnt, hkey]
    have hbt : (bailNormalize n).tag = VTag.comment := by
      rw [bailNormalize_tag, hnt]
    simp only [patch, if_neg hvid, hsame, Bool.not_true, Bool.false_eq_true,
      if_false, hbt, processCommentNode]
    refine ⟨by trivial, by trivial, by trivial⟩

/-- C8 counterexample: a same-type Comment pair whose contents differ is
patched with zero host operations — the content is not updated even
though it changed, refuting the "likewise for Comment nodes" reading. -/
theorem comment_content_not_updated :
    (patch (some ⟨0, VTag.comment, none, none, some "a", 0, [], false, some 5⟩)
      ⟨1, VTag.comment, none, none, some "b", 0, [], false, none⟩
      ⟨[5], 6⟩ none false).ops = [] ∧
    (some "a" : Option String) ≠ some "b" := by decide

/-- Closed instance of `text_comment_update_reuses_handle`: a Text pair
with children "a" / "b" issues exactly one `setText`. -/
theorem text_comment_update_witness :
    (patch (some ⟨0, VTag.text, none, none, some "a", 0, [], false, some 5⟩)
      ⟨1, VTag.text, none, none, some "b", 0, [], false, none⟩
      ⟨[5], 6⟩ none false).ops = [HostOp.setText 5 "b"] := by
  have h := (text_comment_update_reuses_handle
    ⟨0, VTag.text, none, none, some "a", 0, [], false, some 5⟩
    ⟨1, VTag.text, none, none, some "b", 0, [], false, none⟩
    ⟨[5], 6⟩ none false (by decide) rfl).1 rfl rfl
  rw [h.2.2, if_pos (by decide)]
  rfl

/-- C6 (amended): an element patch whose effective flag has the TEXT bit
and none of CLASS/STYLE/PROPS/FULL_PROPS performs no prop-diffing host
call and reuses the handle; the text is set exactly when it changed —
once on the optimized path, but twice on the unoptimized path (once by
the children fast path of `patchChildren`, once by the TEXT branch). -/
theorem text_flag_only_patch (n1 n2 : VN) (s0 s : String)
    (h1 : n1.childText = some s0) (h2 : n2.childText = some s)
    (hdc : n2.dynChildren = false)
    (hpos : 0 < n2.patchFlag)
    (hT : hasFlag n2.patchFlag PatchFlags.TEXT = true)
    (hC : hasFlag n2.patchFlag PatchFlags.CLASS = false)
    (hS : hasFlag n2.patchFlag PatchFlags.STYLE = false)
    (hP : hasFlag n2.patchFlag PatchFlags.PROPS = false)
    (hF : hasFlag n2.patchFlag PatchFlags.FULL_PROPS = false)
    (hold : n1.patchFlag.land PatchFlags.FULL_PROPS = 0) :
    ((patchElement n1 n2 true).1 =
      (if s0 ≠ s then [HostOp.setElementText (n1.el.getD 0) s] else [])) ∧
    ((patchElement n1 n2 false).1 =
      (if s0 ≠ s then [HostOp.setElementText (n1.el.getD 0) s,
                       HostOp.setElementText (n1.el.getD 0) s] else [])) ∧
    (∀ op ∈ (patchElement n1 n2 false).1, op.isPatchProp = false) ∧
    (patchElement n1 n2 true).2.el = n1.el := by
  have hflag : n2.patchFlag.lor (n1.patchFlag.land PatchFlags.FULL_PROPS) =
      n2.patchFlag := by
    rw [hold, int_lor_zero_right]
  have hcond2 : (n1.childText ≠ some s) = (s0 ≠ s) := by
    rw [h1]
    simp
  have hchildren : patchChildren n1 n2 (n1.el.getD 0) =
      (if s0 ≠ s then [HostOp.setElementText (n1.el.getD 0) s] else []) := by
    simp only [patchChildren, h2, hcond2]
  have hopt : (patchElement n1 n2 true).1 =
      (if s0 ≠ s then [HostOp.setElementText (n1.el.getD 0) s] else []) := by
    simp only [patchElement, hflag, if_pos hpos, hF, hC, hS, hP, hT,
      Bool.false_eq_true, if_false, if_true, hdc, Bool.not_true, h2,
      Option.getD_some, hcond2, List.nil_append, List.append_nil]
  have hunopt : (patchElement n1 n2 false).1 =
      (if s0 ≠ s then [HostOp.setElementText (n1.el.getD 0) s,
                       HostOp.setElementText (n1.el.getD 0) s] else []) := by
    simp only [patchElement, hflag, if_pos hpos, hF, hC, hS, hP, hT,
      Bool.false_eq_true, if_false, if_true, hdc, Bool.not_false, h2,
      Option.getD_some, hcond2, hchildren, List.nil_append, List.append_nil]
    split <;> rename_i hx <;> simp [hx]
  refine ⟨hopt, hunopt, ?_, ?_⟩
  · intro op hop
    rw [hunopt] at hop
    by_cases hss : s0 ≠ s
    · rw [if_pos hss] at hop
      simp only [List.mem_cons, List.not_mem_nil, or_false] at hop
      rcases hop with h | h
      · rw [h]
        rfl
      · rw [h]
        rfl
    · rw [if_neg hss] at hop
      cases hop
  · simp [patchElement]

/-- C6 counterexample: the same TEXT-only element pair patched on the
unoptimized path issues the `setElementText` twice, not once. -/
theorem text_flag_double_setText :
    (patchElement ⟨0, VTag.elem 1, none, none, some "a", 1, [], false, some 7⟩
      ⟨1, VTag.elem 1, none, none, some "b", 1, [], false, none⟩ false).1 =
      [HostOp.setElementText 7 "b", HostOp.setElementText 7 "b"] := by decide

/-- Closed instance of `text_flag_only_patch`: on the optimized path the
TEXT-only element patch issues a single `setElementText`. -/
theorem text_flag_only_patch_witness :
    (patchElement ⟨0, VTag.elem 1, none, none, some "a", 1, [], false, some 7⟩
      ⟨1, VTag.elem 1, none, none, some "b", 1, [], false, none⟩ true).1 =
      [HostOp.setElementText 7 "b"] := by
  have h := (text_flag_only_patch
    ⟨0, VTag.elem 1, none, none, some "a", 1, [], false, some 7⟩
    ⟨1, VTag.elem 1, none, none, some "b", 1, [], false, none⟩
    "a" "b" rfl rfl rfl (by decide) (by decide) (by decide) (by decide)
    (by decide) (by decide) (by decide)).1
  rw [h, if_pos (by decide)]
  rfl

/-- C7: a BAIL patch flag makes the dispatcher distrust all hints:
`patch` clears the new vnode's `dynamicChildren` (renderer.ts 379–382)
and the element path falls back to the full children diff followed by
the full prop diff. -/
theorem bail_forces_full_diff (o n : VN) (st : HState) (anchor : Option Nat)
    (opt : Bool) (t : Nat)
    (hvid : o.vid ≠ n.vid) (hkey : o.key = n.key)
    (hot : o.tag = VTag.elem t) (hnt : n.tag = VTag.elem t)
    (hbail : n.patchFlag = PatchFlags.BAIL) :
    (bailNormalize n).dynChildren = false ∧
    (patch (some o) n st anchor opt).ops =
      patchChildren o n (o.el.getD 0) ++
        patchProps (o.el.getD 0) (o.props.getD EMPTY_OBJ)
          (n.props.getD EMPTY_OBJ) ∧
    (patch (some o) n st anchor opt).st = st := by
  have hdyn : (bailNormalize n).dynChildren = false := by
    unfold bailNormalize
    rw [if_pos hbail]
  have hsame : isSameVNodeType o n = true := by
    simp [isSameVNodeType, hot, hnt, hkey]
  have hbt : (bailNormalize n).tag = VTag.elem t := by
    rw [bailNormalize_tag, hnt]
  have hneg : ¬ (0 < ((bailNormalize n).patchFlag.lor
      (o.patchFlag.land PatchFlags.FULL_PROPS))) := by
    rw [bailNormalize_patchFlag, hbail]
    exact int_lor_bail_neg o.patchFlag
  have hchild : patchChildren o (bailNormalize n) (o.el.getD 0) =
      patchChildren o n (o.el.getD 0) := by
    simp only [patchChildren, bailNormalize_childText]
  refine ⟨hdyn, ?_, ?_⟩
  · simp only [patch, if_neg hvid, hsame, Bool.not_true, Bool.false_eq_true,
      if_false, if_pos hbail, hbt, processElement, patchElement, if_neg hneg,
      hdyn, Bool.not_false, Bool.and_self, if_true, hchild,
      bailNormalize_props]
    simp
  · simp only [patch, if_neg hvid, hsame, Bool.not_true, Bool.false_eq_true,
      if_false, if_pos hbail, hbt, processElement]

/-- Closed instance of `bail_forces_full_diff`: a BAIL vnode with a
dynamic-children collection has it cleared and gets the full diff. -/
theorem bail_forces_full_diff_witness :
    (bailNormalize ⟨1, VTag.elem 1, none, some ⟨2, [("id", 2)]⟩, some "y",
      -2, [], true, none⟩).dynChildren = false ∧
    (patch (some ⟨0, VTag.elem 1, none, some ⟨1, [("id", 1)]⟩, some "x",
        0, [], false, some 4⟩)
      ⟨1, VTag.elem 1, none, some ⟨2, [("id", 2)]⟩, some "y", -2, [], true,
        none⟩ ⟨[4], 9⟩ none true).ops =
      [HostOp.setElementText 4 "y", HostOp.patchProp 4 "id" (some 1) (some 2)]
      := by
  have h := bail_forces_full_diff
    ⟨0, VTag.elem 1, none, some ⟨1, [("id", 1)]⟩, some "x", 0, [], false,
      some 4⟩
    ⟨1, VTag.elem 1, none, some ⟨2, [("id", 2)]⟩, some "y", -2, [], true,
      none⟩ ⟨[4], 9⟩ none true 1 (by decide) rfl rfl rfl rfl
  refine ⟨h.1, ?_⟩
  rw [h.2.1]
  decide

/-- C10 (amended): in a full prop diff with distinct old/new props
objects, the `value` patch is deferred after every other prop and issued
unconditionally; in the `dynamicProps` fast path a listed `value` key is
force-patched even when unchanged.  (When old and new are the same props
object, `patchProps` exits before any host call.) -/
theorem value_prop_forced_last (e : Nat) :
    (∀ oldProps newProps : Props, oldProps.pid ≠ newProps.pid →
      phas newProps.entries "value" = true →
      ∃ pre, patchProps e oldProps newProps =
        pre ++ [HostOp.patchProp e "value" (plookup oldProps.entries "value")
          (plookup newProps.entries "value")] ∧
        ∀ op ∈ pre, op.isPatchPropValue = false) ∧
    (∀ (dyn : List String) (oldProps newProps : Props), "value" ∈ dyn →
      HostOp.patchProp e "value" (plookup oldProps.entries "value")
        (plookup newProps.entries "value") ∈
        patchDynamicProps e dyn oldProps newProps) := by
  constructor
  · intro oldProps newProps hpid hval
    unfold patchProps
    rw [if_pos hpid]
    simp only [hval, if_true]
    refine ⟨_, rfl, ?_⟩
    intro op hop
    rcases List.mem_append.mp hop with hA | hB
    · split at hA
      · rcases List.mem_filterMap.mp hA with ⟨p, _, hf⟩
        split at hf
        · rename_i hg
          cases hf
          simp only [HostOp.isPatchPropValue, beq_eq_false_iff_ne, ne_eq]
          intro hkv
          rw [hkv] at hg
          rw [hval] at hg
          simp at hg
        · cases hf
      · cases hA
    · rcases List.mem_filterMap.mp hB with ⟨p, _, hf⟩
      split at hf
      · cases hf
      · split at hf
        · rename_i hg
          cases hf
          simp only [HostOp.isPatchPropValue, beq_eq_false_iff_ne, ne_eq]
          exact hg.2
        · cases hf
  · intro dyn oldProps newProps hmem
    refine List.mem_filterMap.mpr ⟨"value", hmem, ?_⟩
    rw [if_pos (Or.inr rfl)]

/-- C10 counterexample: a full prop diff where old and new are the same
props object (`oldProps === newProps`) performs no host call at all, so
the `value` patch is not issued even though `value` is present. -/
theorem same_props_object_skips_value :
    patchProps 7 ⟨3, [("value", 1)]⟩ ⟨3, [("value", 1)]⟩ = [] ∧
    phas [("value", 1)] "value" = true := by decide

/-- Closed instance of `value_prop_forced_last`: both the full diff and
the fast path issue the `value` patch even though old and new agree. -/
theorem value_prop_forced_last_witness :
    (∃ pre, patchProps 7 ⟨1, [("value", 5)]⟩ ⟨2, [("value", 5)]⟩ =
      pre ++ [HostOp.patchProp 7 "value" (some 5) (some 5)] ∧
      ∀ op ∈ pre, op.isPatchPropValue = false) ∧
    HostOp.patchProp 7 "value" (some 5) (some 5) ∈
      patchDynamicProps 7 ["value"] ⟨1, [("value", 5)]⟩ ⟨2, [("value", 5)]⟩
      := by
  have h := value_prop_forced_last 7
  exact ⟨h.1 ⟨1, [("value", 5)]⟩ ⟨2, [("value", 5)]⟩ (by decide) (by decide),
    h.2 ["value"] ⟨1, [("value", 5)]⟩ ⟨2, [("value", 5)]⟩ (by decide)⟩

/-!
## Correctness of `getSequence`

Specification: a valid chain is a strictly increasing list of in-bounds
positions whose entries are non-zero and strictly increasing —
the position set of a strictly increasing subsequence of the non-zero
entries of `arr`.  `getSequence` is shown to return a chain of maximal
length (for arrays whose first entry is non-zero; position 0 is seeded
into the result unconditionally by the source).
-/

def IsNZChain (arr c : List Nat) : Prop :=
  c.Pairwise (· < ·) ∧ (∀ i ∈ c, i < arr.length ∧ getAt arr i ≠ 0) ∧
  c.Pairwise (fun a b => getAt arr a < getAt arr b)

instance (arr c : List Nat) : Decidable (IsNZChain arr c) := by
  unfold IsNZChain
  infer_instance

/-- Like `IsNZChain` but allowing the seeded position 0 to carry a zero
entry (the general shape of what `getSequence` returns). -/
def ChainOK (arr c : List Nat) : Prop :=
  c.Pairwise (· < ·) ∧
  (∀ i ∈ c, i < arr.length ∧ (i = 0 ∨ getAt arr i ≠ 0)) ∧
  c.Pairwise (fun a b => getAt arr a < getAt arr b)

/-- The backtracked predecessor chain of length `u` ending at `v`. -/
def btChain (p : List Nat) (v : Nat) : Nat → List Nat
  | 0 => []
  | u + 1 => btChain p (getAt p v) u ++ [v]

theorem getAt_eq_getElem (l : List Nat) (i : Nat) (h : i < l.length) :
    getAt l i = l[i] := by
  unfold getAt
  rw [List.getD_eq_getElem?_getD, List.getElem?_eq_getElem h]
  rfl

theorem getAt_append_lt (l t : List Nat) (i : Nat) (h : i < l.length) :
    getAt (l ++ t) i = getAt l i := by
  unfold getAt
  rw [List.getD_eq_getElem?_getD, List.getD_eq_getElem?_getD,
    List.getElem?_append, if_pos h]

theorem getAt_append_len (l : List Nat) (x : Nat) :
    getAt (l ++ [x]) l.length = x := by
  unfold getAt
  rw [List.getD_eq_getElem?_getD, List.getElem?_concat_length]
  rfl

theorem getAt_set_self (l : List Nat) (i w : Nat) (h : i < l.length) :
    getAt (l.set i w) i = w := by
  unfold getAt
  rw [List.getD_eq_getElem?_getD, List.getElem?_set_self]
  · rfl
  · exact h

theorem getAt_set_ne (l : List Nat) (i x w : Nat) (h : x ≠ i) :
    getAt (l.set i w) x = getAt l x := by
  unfold getAt
  rw [List.getD_eq_getElem?_getD, List.getD_eq_getElem?_getD,
    List.getElem?_set_ne (Ne.symm h)]

theorem getAt_mem (l : List Nat) (i : Nat) (h : i < l.length) :
    getAt l i ∈ l := by
  rw [getAt_eq_getElem l i h]
  exact List.getElem_mem h

theorem list_concat_cases (l : List Nat) : l = [] ∨ ∃ L b, l = L ++ [b] := by
  rcases List.eq_nil_or_concat l with h | ⟨L, b, h⟩
  · exact Or.inl h
  · exact Or.inr ⟨L, b, by simpa using h⟩

theorem btChain_length (p : List Nat) (u : Nat) :
    ∀ v, (btChain p v u).length = u := by
  induction u with
  | zero => intro v; rfl
  | succ u ih =>
    intro v
    simp only [btChain, List.length_append, ih, List.length_singleton]

theorem btChain_set_ne (p : List Nat) (i w : Nat) :
    ∀ (u : Nat) (v : Nat), (∀ x ∈ btChain p v u, x ≠ i) →
    btChain (p.set i w) v u = btChain p v u := by
  intro u
  induction u with
  | zero => intro v _; rfl
  | succ u ih =>
    intro v hall
    have hv : v ≠ i := hall v (by simp [btChain])
    simp only [btChain, getAt_set_ne p i v w hv]
    rw [ih (getAt p v) (fun x hx => hall x (by simp [btChain, hx]))]

theorem drop_set_eq_cons (l : List Nat) :
    ∀ (u : Nat) (v : Nat), u < l.length →
    (l.set u v).drop u = v :: l.drop (u + 1) := by
  induction l with
  | nil => intro u v h; simp at h
  | cons x t ih =>
    intro u v h
    cases u with
    | zero => simp
    | succ u =>
      simp only [List.set_cons_succ, List.drop_succ_cons]
      exact ih u v (by simpa using h)

theorem btGo_eq (p : List Nat) :
    ∀ (u : Nat) (res : List Nat) (v : Nat), u ≤ res.length →
    btGo p res v u = btChain p v u ++ res.drop u := by
  intro u
  induction u with
  | zero => intro res v _; simp [btGo, btChain]
  | succ u ih =>
    intro res v h
    have hlt : u < res.length := h
    simp only [btGo, btChain]
    rw [ih (res.set u v) (getAt p v) (by rw [List.length_set]; omega)]
    rw [drop_set_eq_cons res u v hlt, List.append_assoc]
    rfl

theorem getSequence_eq_btChain (arr : List Nat) :
    getSequence arr = btChain (gsLoop arr).p
      (getAt (gsLoop arr).result ((gsLoop arr).result.length - 1))
      (gsLoop arr).result.length := by
  unfold getSequence
  rw [btGo_eq _ _ _ _ (le_refl _), List.drop_length, List.append_nil]

/-- Specification of the embedded binary search: it lands on the
leftmost slot whose entry is not below `x`, assuming the top slot is
not below `x`. -/
theorem bsearchGo_spec (arr result : List Nat) (x : Nat) :
    ∀ (fuel u v : Nat), v - u ≤ fuel → u ≤ v →
    (0 < u → getAt arr (getAt result (u - 1)) < x) →
    ¬ (getAt arr (getAt result v) < x) →
    (u ≤ bsearchGo arr result x fuel u v ∧
     bsearchGo arr result x fuel u v ≤ v ∧
     ¬ (getAt arr (getAt result (bsearchGo arr result x fuel u v)) < x) ∧
     (0 < bsearchGo arr result x fuel u v →
       getAt arr (getAt result (bsearchGo arr result x fuel u v - 1)) < x))
    := by
  intro fuel
  induction fuel with
  | zero =>
    intro u v hf hu hlow hhigh
    have huv : u = v := by omega
    subst huv
    exact ⟨le_refl u, le_refl u, hhigh, hlow⟩
  | succ fuel ih =>
    intro u v hf hu hlow hhigh
    by_cases hlt : u < v
    · have hc1 : u ≤ (u + v) / 2 := by omega
      have hc2 : (u + v) / 2 < v := by omega
      simp only [bsearchGo, if_pos hlt]
      by_cases hP : getAt arr (getAt result ((u + v) / 2)) < x
      · rw [if_pos hP]
        have h := ih ((u + v) / 2 + 1) v (by omega) (by omega)
          (fun _ => by simpa using hP) hhigh
        exact ⟨by omega, h.2.1, h.2.2.1, h.2.2.2⟩
      · rw [if_neg hP]
        have h := ih u ((u + v) / 2) (by omega) hc1 hlow hP
        exact ⟨h.1, by omega, h.2.2.1, h.2.2.2⟩
    · have huv : u = v := by omega
      subst huv
      simp only [bsearchGo, if_neg hlt]
      exact ⟨le_refl u, le_refl u, hhigh, hlow⟩

/-- Every entry of a value-sorted chain ending in `v` is at most the
entry at `v`. -/
theorem chainok_le_last (arr : List Nat) (c : List Nat) (v : Nat)
    (hps : (c ++ [v]).Pairwise (fun a b => getAt arr a < getAt arr b)) :
    ∀ a ∈ c ++ [v], getAt arr a ≤ getAt arr v := by
  intro a ha
  rcases List.mem_append.mp ha with hc | hv
  · have := (List.pairwise_append.mp hps).2.2 a hc v (List.mem_singleton.mpr rfl)
    exact le_of_lt this
  · rw [List.mem_singleton.mp hv]

theorem pos_le_last (c : List Nat) (v : Nat)
    (hps : (c ++ [v]).Pairwise (· < ·)) :
    ∀ a ∈ c ++ [v], a ≤ v := by
  intro a ha
  rcases List.mem_append.mp ha with hc | hv
  · exact le_of_lt ((List.pairwise_append.mp hps).2.2 a hc v
      (List.mem_singleton.mpr rfl))
  · rw [List.mem_singleton.mp hv]

theorem isNZChain_append_left (arr c : List Nat) (x : Nat)
    (h : IsNZChain arr (c ++ [x])) : IsNZChain arr c := by
  refine ⟨h.1.sublist (List.sublist_append_left c [x]), ?_,
    h.2.2.sublist (List.sublist_append_left c [x])⟩
  intro i hi
  exact h.2.1 i (List.mem_append_left _ hi)

theorem chain_last_eq (c : List Nat) (x k : Nat)
    (hps : (c ++ [x]).Pairwise (· < ·)) (hmem : k ∈ c ++ [x])
    (hub : ∀ i ∈ c ++ [x], i < k + 1) : x = k := by
  rcases List.mem_append.mp hmem with hc | hx
  · have h1 : k < x := (List.pairwise_append.mp hps).2.2 k hc x
      (List.mem_singleton.mpr rfl)
    have h2 : x < k + 1 := hub x (List.mem_append_right _
      (List.mem_singleton.mpr rfl))
    omega
  · exact (List.mem_singleton.mp hx).symm

/-- The loop invariant of `getSequence` after the first `k` iterations. -/
structure GSInv (arr : List Nat) (k : Nat) (s : GS) : Prop where
  plen : s.p.length = arr.length
  rne : s.result ≠ []
  rbound : ∀ x ∈ s.result, x < arr.length ∧ x < max k 1
  rzero : ∀ x ∈ s.result, x = 0 ∨ getAt arr x ≠ 0
  rsorted : ∀ a b, a < b → b < s.result.length →
    getAt arr (getAt s.result a) < getAt arr (getAt s.result b)
  rmin : ∀ (c : List Nat) (x : Nat), IsNZChain arr (c ++ [x]) →
    (∀ i ∈ c ++ [x], i < k) →
    c.length + 1 ≤ s.result.length ∧
      getAt arr (getAt s.result c.length) ≤ getAt arr x
  rchain : ∀ u, u < s.result.length →
    ChainOK arr (btChain s.p (getAt s.result u) (u + 1)) ∧
    ∀ x ∈ btChain s.p (getAt s.result u) (u + 1), x < max k 1

theorem gsInv_step_zero (arr : List Nat) (k : Nat) (s : GS)
    (h0 : getAt arr k = 0) (inv : GSInv arr k s) : GSInv arr (k + 1) s := by
  refine ⟨inv.plen, inv.rne, ?_, inv.rzero, inv.rsorted, ?_, ?_⟩
  · intro x hx
    have h := inv.rbound x hx
    omega
  · intro c x hc hlt
    refine inv.rmin c x hc ?_
    intro i hi
    have hik : i < k + 1 := hlt i hi
    have hnz := (hc.2.1 i hi).2
    by_cases hik' : i = k
    · rw [hik'] at hnz
      exact absurd h0 hnz
    · omega
  · intro u hu
    have h := inv.rchain u hu
    refine ⟨h.1, ?_⟩
    intro x hx
    have := h.2 x hx
    omega

theorem gsInv_step_push (arr : List Nat) (k : Nat) (s : GS)
    (hk1 : 1 ≤ k) (hklen : k < arr.length)
    (h0 : getAt arr k ≠ 0)
    (hpush : getAt arr (getAt s.result (s.result.length - 1)) < getAt arr k)
    (inv : GSInv arr k s) :
    GSInv arr (k + 1)
      ⟨s.p.set k (getAt s.result (s.result.length - 1)),
       s.result ++ [k]⟩ := by
  have hlenpos : 0 < s.result.length := List.length_pos.mpr inv.rne
  have hjmem : getAt s.result (s.result.length - 1) ∈ s.result :=
    getAt_mem s.result _ (by omega)
  have hjk : getAt s.result (s.result.length - 1) < k := by
    have := (inv.rbound _ hjmem).2
    omega
  have hmemlt : ∀ x ∈ s.result, x < k := by
    intro x hx
    have := (inv.rbound x hx).2
    omega
  have hle : ∀ a, a < s.result.length →
      getAt arr (getAt s.result a) ≤
        getAt arr (getAt s.result (s.result.length - 1)) := by
    intro a ha
    by_cases haa : a = s.result.length - 1
    · rw [haa]
    · exact le_of_lt (inv.rsorted a (s.result.length - 1) (by omega) (by omega))
  refine ⟨?_, ?_, ?_, ?_, ?_, ?_, ?_⟩
  · rw [List.length_set]
    exact inv.plen
  · simp
  · intro x hx
    rcases List.mem_append.mp hx with hx | hx
    · have := inv.rbound x hx
      omega
    · rw [List.mem_singleton.mp hx]
      exact ⟨hklen, by omega⟩
  · intro x hx
    rcases List.mem_append.mp hx with hx | hx
    · exact inv.rzero x hx
    · rw [List.mem_singleton.mp hx]
      exact Or.inr h0
  · intro a b hab hb
    simp only [List.length_append, List.length_singleton] at hb
    by_cases hbl : b < s.result.length
    · rw [getAt_append_lt _ _ a (by omega), getAt_append_lt _ _ b hbl]
      exact inv.rsorted a b hab hbl
    · have hbe : b = s.result.length := by omega
      rw [hbe, getAt_append_len, getAt_append_lt _ _ a (by omega)]
      have := hle a (by omega)
      omega
  · intro c x hc hlt
    by_cases hkmem : k ∈ c ++ [x]
    · have hxk : x = k := chain_last_eq c x k hc.1 hkmem hlt
      subst hxk
      have hcchain : IsNZChain arr c := isNZChain_append_left arr c x hc
      have hclt : ∀ i ∈ c, i < x :=
        fun i hi => (List.pairwise_append.mp hc.1).2.2 i hi x
          (List.mem_singleton.mpr rfl)
      rcases list_concat_cases c with hcn | ⟨c₀, y, hcc⟩
      · subst hcn
        refine ⟨by simp, ?_⟩
        simp only [List.length_nil]
        rw [getAt_append_lt _ _ 0 hlenpos]
        have := hle 0 hlenpos
        omega
      · subst hcc
        have hold := inv.rmin c₀ y hcchain
          (fun i hi => hclt i (by simpa using List.mem_append.mp hi))
        have hylt : getAt arr y < getAt arr x := by
          have := (List.pairwise_append.mp hc.2.2).2.2 y
            (List.mem_append_right _ (List.mem_singleton.mpr rfl)) x
            (List.mem_singleton.mpr rfl)
          exact this
        constructor
        · simp only [List.length_append, List.length_singleton]
          omega
        · have hlc : (c₀ ++ [y]).length = c₀.length + 1 := by simp
          rw [hlc]
          by_cases hsl : c₀.length + 1 = s.result.length
          · rw [hsl, getAt_append_len]
          · have hsl' : c₀.length + 1 < s.result.length := by omega
            rw [getAt_append_lt _ _ _ hsl']
            have := hle (c₀.length + 1) hsl'
            omega
    · have hold := inv.rmin c x hc (by
        intro i hi
        have h1 := hlt i hi
        have h2 : i ≠ k := fun hik => hkmem (hik ▸ hi)
        omega)
      constructor
      · simp only [List.length_append, List.length_singleton]
        omega
      · rw [getAt_append_lt _ _ c.length (by omega)]
        exact hold.2
  · intro u hu
    simp only [List.length_append, List.length_singleton] at hu
    by_cases huo : u < s.result.length
    · have hold := inv.rchain u huo
      have hst : btChain (s.p.set k (getAt s.result (s.result.length - 1)))
          (getAt (s.result ++ [k]) u) (u + 1) =
          btChain s.p (getAt s.result u) (u + 1) := by
        rw [getAt_append_lt _ _ u huo]
        exact btChain_set_ne s.p k _ (u + 1) (getAt s.result u)
          (fun x hx => by have := hold.2 x hx; omega)
      rw [hst]
      exact ⟨hold.1, fun x hx => by have := hold.2 x hx; omega⟩
    · have huu : u = s.result.length := by omega
      subst huu
      rw [getAt_append_len]
      have hpk : getAt (s.p.set k (getAt s.result (s.result.length - 1))) k =
          getAt s.result (s.result.length - 1) :=
        getAt_set_self s.p k _ (by rw [inv.plen]; exact hklen)
      have holdlast := inv.rchain (s.result.length - 1) (by omega)
      have hshape : btChain
          (s.p.set k (getAt s.result (s.result.length - 1))) k
          (s.result.length + 1) =
          btChain s.p (getAt s.result (s.result.length - 1))
            (s.result.length - 1 + 1) ++ [k] := by
        show btChain (s.p.set k (getAt s.result (s.result.length - 1)))
            (getAt (s.p.set k (getAt s.result (s.result.length - 1))) k)
            s.result.length ++ [k] = _
        rw [hpk, btChain_set_ne s.p k _ s.result.length _
          (fun x hx => by
            have hx' : x ∈ btChain s.p
                (getAt s.result (s.result.length - 1))
                (s.result.length - 1 + 1) := by
              rw [show s.result.length - 1 + 1 = s.result.length from by omega]
              exact hx
            have := (inv.rchain (s.result.length - 1) (by omega)).2 x hx'
            omega)]
        rw [show s.result.length - 1 + 1 = s.result.length from by omega]
      rw [hshape]
      have hcold := holdlast.1
      have hboldin : ∀ x ∈ btChain s.p (getAt s.result (s.result.length - 1))
          (s.result.length - 1 + 1), x < k := by
        intro x hx
        have := holdlast.2 x hx
        omega
      -- decompose the old chain to expose its last element
      have hdec : btChain s.p (getAt s.result (s.result.length - 1))
          (s.result.length - 1 + 1) =
          btChain s.p
            (getAt s.p (getAt s.result (s.result.length - 1)))
            (s.result.length - 1) ++
            [getAt s.result (s.result.length - 1)] := rfl
      have hvle : ∀ a ∈ btChain s.p (getAt s.result (s.result.length - 1))
          (s.result.length - 1 + 1),
          getAt arr a ≤ getAt arr (getAt s.result (s.result.length - 1)) := by
        rw [hdec]
        exact chainok_le_last arr _ _ (by rw [← hdec]; exact hcold.2.2)
      refine ⟨⟨?_, ?_, ?_⟩, ?_⟩
      · rw [List.pairwise_append]
        refine ⟨hcold.1, by simp, ?_⟩
        intro a ha b hb
        rw [List.mem_singleton.mp hb]
        exact hboldin a ha
      · intro i hi
        rcases List.mem_append.mp hi with hi | hi
        · exact hcold.2.1 i hi
        · rw [List.mem_singleton.mp hi]
          exact ⟨hklen, Or.inr h0⟩
      · rw [List.pairwise_append]
        refine ⟨hcold.2.2, by simp, ?_⟩
        intro a ha b hb
        rw [List.mem_singleton.mp hb]
        have := hvle a ha
        omega
      · intro x hx
        rcases List.mem_append.mp hx with hx | hx
        · have := hboldin x hx
          omega
        · rw [List.mem_singleton.mp hx]
          omega

theorem gs_rsorted_le (arr : List Nat) (k : Nat) (s : GS) (inv : GSInv arr k s)
    (a b : Nat) (hab : a ≤ b) (hb : b < s.result.length) :
    getAt arr (getAt s.result a) ≤ getAt arr (getAt s.result b) := by
  by_cases h : a = b
  · rw [h]
  · exact le_of_lt (inv.rsorted a b (by omega) hb)

theorem gsInv_step_stay (arr : List Nat) (k : Nat) (s : GS) (w : Nat)
    (hk1 : 1 ≤ k) (hklen : k < arr.length) (h0 : getAt arr k ≠ 0)
    (hwlen : w < s.result.length)
    (hwge : ¬ (getAt arr (getAt s.result w) < getAt arr k))
    (hwle : ¬ (getAt arr k < getAt arr (getAt s.result w)))
    (inv : GSInv arr k s) : GSInv arr (k + 1) s := by
  have hwv : getAt arr (getAt s.result w) = getAt arr k := by omega
  refine ⟨inv.plen, inv.rne, ?_, inv.rzero, inv.rsorted, ?_, ?_⟩
  · intro x hx
    have := inv.rbound x hx
    omega
  · intro c x hc hlt
    by_cases hkmem : k ∈ c ++ [x]
    · have hxk : x = k := chain_last_eq c x k hc.1 hkmem hlt
      have hvx : getAt arr x = getAt arr k := by rw [hxk]
      have hcchain : IsNZChain arr c := isNZChain_append_left arr c x hc
      have hclt : ∀ i ∈ c, i < k :=
        fun i hi => hxk ▸ (List.pairwise_append.mp hc.1).2.2 i hi x
          (List.mem_singleton.mpr rfl)
      rcases list_concat_cases c with hcn | ⟨c₀, y, hcc⟩
      · subst hcn
        refine ⟨by simpa using List.length_pos.mpr inv.rne, ?_⟩
        simp only [List.length_nil]
        have := gs_rsorted_le arr k s inv 0 w (by omega) hwlen
        omega
      · subst hcc
        have hold := inv.rmin c₀ y hcchain
          (fun i hi => hclt i (by simpa using List.mem_append.mp hi))
        have hylt : getAt arr y < getAt arr x :=
          (List.pairwise_append.mp hc.2.2).2.2 y
            (List.mem_append_right _ (List.mem_singleton.mpr rfl)) x
            (List.mem_singleton.mpr rfl)
        have hcw : c₀.length + 1 ≤ w := by
          by_contra hcon
          have hge : w ≤ c₀.length := by omega
          have := gs_rsorted_le arr k s inv w c₀.length hge (by omega)
          omega
        constructor
        · simp only [List.length_append, List.length_singleton]
          omega
        · rw [show (c₀ ++ [y]).length = c₀.length + 1 from by simp]
          have := gs_rsorted_le arr k s inv (c₀.length + 1) w hcw hwlen
          omega
    · exact inv.rmin c x hc (by
        intro i hi
        have h1 := hlt i hi
        have h2 : i ≠ k := fun hik => hkmem (hik ▸ hi)
        omega)
  · intro u hu
    have h := inv.rchain u hu
    exact ⟨h.1, fun x hx => by have := h.2 x hx; omega⟩

/-- Extending a backtrack chain by the freshly processed index `k`,
whose predecessor link is written into `p`. -/
theorem chain_extend (arr p : List Nat) (k v : Nat) (u : Nat)
    (hklen : k < arr.length) (h0 : getAt arr k ≠ 0)
    (hplen : p.length = arr.length)
    (hchain : ChainOK arr (btChain p v (u + 1)))
    (hbound : ∀ x ∈ btChain p v (u + 1), x < k)
    (hlast : (btChain p v (u + 1)) =
      btChain p (getAt p v) u ++ [v])
    (hval : getAt arr v < getAt arr k) :
    ChainOK arr (btChain (p.set k v) k (u + 1 + 1)) ∧
    ∀ x ∈ btChain (p.set k v) k (u + 1 + 1), x < k + 1 := by
  have hpk : getAt (p.set k v) k = v := getAt_set_self p k v (by omega)
  have hshape : btChain (p.set k v) k (u + 1 + 1) =
      btChain p v (u + 1) ++ [k] := by
    show btChain (p.set k v) (getAt (p.set k v) k) (u + 1) ++ [k] = _
    rw [hpk, btChain_set_ne p k v (u + 1) v
      (fun x hx => by have := hbound x hx; omega)]
  rw [hshape]
  have hvle : ∀ a ∈ btChain p v (u + 1), getAt arr a ≤ getAt arr v := by
    rw [hlast]
    exact chainok_le_last arr _ _ (by rw [← hlast]; exact hchain.2.2)
  refine ⟨⟨?_, ?_, ?_⟩, ?_⟩
  · rw [List.pairwise_append]
    refine ⟨hchain.1, by simp, ?_⟩
    intro a ha b hb
    rw [List.mem_singleton.mp hb]
    exact hbound a ha
  · intro i hi
    rcases List.mem_append.mp hi with hi | hi
    · exact hchain.2.1 i hi
    · rw [List.mem_singleton.mp hi]
      exact ⟨hklen, Or.inr h0⟩
  · rw [List.pairwise_append]
    refine ⟨hchain.2.2, by simp, ?_⟩
    intro a ha b hb
    rw [List.mem_singleton.mp hb]
    have := hvle a ha
    omega
  · intro x hx
    rcases List.mem_append.mp hx with hx | hx
    · have := hbound x hx
      omega
    · rw [List.mem_singleton.mp hx]
      omega

theorem gsInv_step_replace (arr : List Nat) (k : Nat) (s : GS) (w : Nat)
    (hk1 : 1 ≤ k) (hklen : k < arr.length) (h0 : getAt arr k ≠ 0)
    (hwlen : w < s.result.length)
    (hwlow : 0 < w → getAt arr (getAt s.result (w - 1)) < getAt arr k)
    (hrep : getAt arr k < getAt arr (getAt s.result w))
    (inv : GSInv arr k s) :
    GSInv arr (k + 1)
      ⟨if 0 < w then s.p.set k (getAt s.result (w - 1)) else s.p,
       s.result.set w k⟩ := by
  have hlenpos : 0 < s.result.length := List.length_pos.mpr inv.rne
  have hmemlt : ∀ x ∈ s.result, x < k := by
    intro x hx
    have := (inv.rbound x hx).2
    omega
  have hgw : getAt (s.result.set w k) w = k := getAt_set_self s.result w k hwlen
  have hgo : ∀ t, t ≠ w → getAt (s.result.set w k) t = getAt s.result t :=
    fun t ht => getAt_set_ne s.result w t k ht
  refine ⟨?_, ?_, ?_, ?_, ?_, ?_, ?_⟩
  · split <;> simp [inv.plen]
  · show s.result.set w k ≠ []
    intro hcon
    have hl : (s.result.set w k).length = 0 := by rw [hcon]; rfl
    rw [List.length_set] at hl
    omega
  · intro x hx
    rcases List.mem_or_eq_of_mem_set hx with hx | hx
    · have := inv.rbound x hx
      omega
    · subst hx
      exact ⟨hklen, by omega⟩
  · intro x hx
    rcases List.mem_or_eq_of_mem_set hx with hx | hx
    · exact inv.rzero x hx
    · subst hx
      exact Or.inr h0
  · intro a b hab hb
    rw [List.length_set] at hb
    by_cases haw : a = w
    · subst haw
      rw [hgw, hgo b (by omega)]
      have h1 : getAt arr (getAt s.result a) < getAt arr (getAt s.result b) :=
        inv.rsorted a b hab hb
      omega
    · by_cases hbw : b = w
      · subst hbw
        rw [hgw, hgo a haw]
        have h1 := hwlow (by omega)
        have h2 := gs_rsorted_le arr k s inv a (b - 1) (by omega) (by omega)
        omega
      · rw [hgo a haw, hgo b hbw]
        exact inv.rsorted a b hab hb
  · intro c x hc hlt
    rw [List.length_set]
    by_cases hkmem : k ∈ c ++ [x]
    · have hxk : x = k := chain_last_eq c x k hc.1 hkmem hlt
      have hvx : getAt arr x = getAt arr k := by rw [hxk]
      have hcchain : IsNZChain arr c := isNZChain_append_left arr c x hc
      have hclt : ∀ i ∈ c, i < k :=
        fun i hi => hxk ▸ (List.pairwise_append.mp hc.1).2.2 i hi x
          (List.mem_singleton.mpr rfl)
      rcases list_concat_cases c with hcn | ⟨c₀, y, hcc⟩
      · subst hcn
        refine ⟨by simpa using hlenpos, ?_⟩
        simp only [List.length_nil]
        by_cases hw0 : w = 0
        · subst hw0
          rw [hgw]
          omega
        · rw [hgo 0 (by omega)]
          have h1 := hwlow (by omega)
          have h2 := gs_rsorted_le arr k s inv 0 (w - 1) (by omega) (by omega)
          omega
      · subst hcc
        have hold := inv.rmin c₀ y hcchain
          (fun i hi => hclt i (by simpa using List.mem_append.mp hi))
        have hylt : getAt arr y < getAt arr x :=
          (List.pairwise_append.mp hc.2.2).2.2 y
            (List.mem_append_right _ (List.mem_singleton.mpr rfl)) x
            (List.mem_singleton.mpr rfl)
        have hcw : c₀.length + 1 ≤ w := by
          by_contra hcon
          have hge : w ≤ c₀.length := by omega
          have := gs_rsorted_le arr k s inv w c₀.length hge (by omega)
          omega
        refine ⟨by simp only [List.length_append, List.length_singleton]; omega,
          ?_⟩
        rw [show (c₀ ++ [y]).length = c₀.length + 1 from by simp]
        by_cases hsw : c₀.length + 1 = w
        · rw [hsw, hgw]
          omega
        · rw [hgo (c₀.length + 1) hsw]
          have h1 := hwlow (by omega)
          have h2 := gs_rsorted_le arr k s inv (c₀.length + 1) (w - 1)
            (by omega) (by omega)
          omega
    · have hold := inv.rmin c x hc (by
        intro i hi
        have h1 := hlt i hi
        have h2 : i ≠ k := fun hik => hkmem (hik ▸ hi)
        omega)
      refine ⟨hold.1, ?_⟩
      by_cases hsw : c.length = w
      · rw [hsw, hgw]
        have := hold.2
        rw [hsw] at this
        omega
      · rw [hgo c.length hsw]
        exact hold.2
  · intro u hu
    rw [List.length_set] at hu
    by_cases huw : u = w
    · subst huw
      rw [hgw]
      by_cases hw0 : u = 0
      · subst hw0
        have hsing : ∀ (q : List Nat), btChain q k 1 = [k] := by
          intro q
          show btChain q (getAt q k) 0 ++ [k] = [k]
          rfl
        split
        · rename_i hcon
          omega
        · rw [hsing]
          refine ⟨⟨by simp, ?_, by simp⟩, ?_⟩
          · intro i hi
            rw [List.mem_singleton.mp hi]
            exact ⟨hklen, Or.inr h0⟩
          · intro x hx
            rw [List.mem_singleton.mp hx]
            omega
      · have hw0' : 0 < u := by omega
        have holdp := inv.rchain (u - 1) (by omega)
        have hcext := chain_extend arr s.p k
          (getAt s.result (u - 1)) (u - 1) hklen h0 inv.plen
          (by rw [show u - 1 + 1 = u from by omega] at holdp ⊢
              exact holdp.1)
          (by rw [show u - 1 + 1 = u from by omega] at holdp ⊢
              intro x hx
              have := holdp.2 x hx
              omega)
          rfl
          (hwlow hw0')
        rw [if_pos hw0']
        rw [show u - 1 + 1 + 1 = u + 1 from by omega] at hcext
        refine ⟨hcext.1, fun x hx => ?_⟩
        have := hcext.2 x hx
        omega
    · have hold := inv.rchain u hu
      rw [hgo u huw]
      have hres : btChain (if 0 < w then s.p.set k (getAt s.result (w - 1))
          else s.p) (getAt s.result u) (u + 1) =
          btChain s.p (getAt s.result u) (u + 1) := by
        split
        · exact btChain_set_ne s.p k _ (u + 1) (getAt s.result u)
            (fun x hx => by have := hold.2 x hx; omega)
        · rfl
      rw [hres]
      exact ⟨hold.1, fun x hx => by have := hold.2 x hx; omega⟩

theorem gsStep_inv (arr : List Nat) (k : Nat) (s : GS) (hk1 : 1 ≤ k)
    (hklen : k < arr.length) (inv : GSInv arr k s) :
    GSInv arr (k + 1) (gsStep arr s k) := by
  by_cases h0 : getAt arr k = 0
  · have heq : gsStep arr s k = s := by
      unfold gsStep
      rw [if_neg (not_not_intro h0)]
    rw [heq]
    exact gsInv_step_zero arr k s h0 inv
  · have hlenpos : 0 < s.result.length := List.length_pos.mpr inv.rne
    by_cases hpush :
        getAt arr (getAt s.result (s.result.length - 1)) < getAt arr k
    · have heq : gsStep arr s k =
          ⟨s.p.set k (getAt s.result (s.result.length - 1)),
           s.result ++ [k]⟩ := by
        unfold gsStep
        rw [if_pos h0, if_pos hpush]
      rw [heq]
      exact gsInv_step_push arr k s hk1 hklen h0 hpush inv
    · have hspec := bsearchGo_spec arr s.result (getAt arr k)
        (s.result.length - 1) 0 (s.result.length - 1) (by omega) (by omega)
        (by intro hcon; exact absurd hcon (lt_irrefl 0)) hpush
      have hwb : bsearch arr s.result (getAt arr k) 0 (s.result.length - 1) =
          bsearchGo arr s.result (getAt arr k) (s.result.length - 1) 0
            (s.result.length - 1) := by
        unfold bsearch
        rw [Nat.sub_zero]
      rw [← hwb] at hspec
      rcases hspec with ⟨_, hw2, hw3, hw4⟩
      by_cases hrep : getAt arr k < getAt arr (getAt s.result
          (bsearch arr s.result (getAt arr k) 0 (s.result.length - 1)))
      · have heq : gsStep arr s k =
            ⟨if 0 < bsearch arr s.result (getAt arr k) 0
                (s.result.length - 1) then
              s.p.set k (getAt s.result
                (bsearch arr s.result (getAt arr k) 0
                  (s.result.length - 1) - 1))
             else s.p,
             s.result.set
               (bsearch arr s.result (getAt arr k) 0 (s.result.length - 1))
               k⟩ := by
          unfold gsStep
          rw [if_pos h0, if_neg hpush, if_pos hrep]
        rw [heq]
        exact gsInv_step_replace arr k s _ hk1 hklen h0 (by omega) hw4 hrep inv
      · have heq : gsStep arr s k = s := by
          unfold gsStep
          rw [if_pos h0, if_neg hpush, if_neg hrep]
        rw [heq]
        exact gsInv_step_stay arr k s
          (bsearch arr s.result (getAt arr k) 0 (s.result.length - 1))
          hk1 hklen h0 (by omega) hw3 hrep inv

theorem gsStep_zero_init (arr : List Nat) :
    gsStep arr ⟨arr, [0]⟩ 0 = ⟨arr, [0]⟩ := by
  by_cases h0 : getAt arr 0 = 0
  · simp [gsStep, h0]
  · simp [gsStep, h0, getAt, bsearch, bsearchGo]

/-- The state of `gsLoop` after its first `k` iterations. -/
def gsIter (arr : List Nat) (k : Nat) : GS :=
  (List.range k).foldl (gsStep arr) ⟨arr, [0]⟩

theorem gsIter_succ (arr : List Nat) (k : Nat) :
    gsIter arr (k + 1) = gsStep arr (gsIter arr k) k := by
  unfold gsIter
  rw [List.range_succ, List.foldl_append]
  rfl

theorem gsInv_init (arr : List Nat) (hne : arr ≠ []) :
    GSInv arr 1 ⟨arr, [0]⟩ := by
  have hlen : 0 < arr.length := List.length_pos.mpr hne
  refine ⟨rfl, by simp, ?_, ?_, ?_, ?_, ?_⟩
  · intro x hx
    rw [List.mem_singleton.mp hx]
    exact ⟨hlen, by omega⟩
  · intro x hx
    rw [List.mem_singleton.mp hx]
    exact Or.inl rfl
  · intro a b hab hb
    simp only [List.length_singleton] at hb
    omega
  · intro c x hc hlt
    have hx0 : x = 0 := by
      have := hlt x (List.mem_append_right _ (List.mem_singleton.mpr rfl))
      omega
    have hc0 : c = [] := by
      rcases c with _ | ⟨a, t⟩
      · rfl
      · exfalso
        have ha := hlt a (by simp)
        have hax : a < x := (List.pairwise_append.mp hc.1).2.2 a (by simp) x
          (by simp)
        omega
    subst hc0
    refine ⟨by simp, ?_⟩
    rw [hx0]
    exact le_of_eq rfl
  · intro u hu
    have hu0 : u = 0 := by
      simp only [List.length_singleton] at hu
      omega
    subst hu0
    have hshape : btChain arr (getAt ([0] : List Nat) 0) 1 = [0] := rfl
    rw [show (⟨arr, [0]⟩ : GS).p = arr from rfl,
      show (⟨arr, [0]⟩ : GS).result = [0] from rfl, hshape]
    refine ⟨⟨by simp, ?_, by simp⟩, ?_⟩
    · intro i hi
      rw [List.mem_singleton.mp hi]
      exact ⟨hlen, Or.inl rfl⟩
    · intro x hx
      rw [List.mem_singleton.mp hx]
      omega

theorem gsIter_inv (arr : List Nat) (hne : arr ≠ []) :
    ∀ k, k ≤ arr.length → GSInv arr (max k 1) (gsIter arr k) := by
  intro k
  induction k with
  | zero => intro _; exact gsInv_init arr hne
  | succ k ih =>
    intro hk
    rw [gsIter_succ]
    by_cases hk0 : k = 0
    · subst hk0
      rw [show gsIter arr 0 = ⟨arr, [0]⟩ from rfl, gsStep_zero_init]
      exact gsInv_init arr hne
    · have hk1 : 1 ≤ k := by omega
      have hinv := ih (by omega)
      rw [show max k 1 = k from by omega] at hinv
      have h := gsStep_inv arr k (gsIter arr k) hk1 (by omega) hinv
      rw [show max (k + 1) 1 = k + 1 from by omega]
      exact h

theorem gsLoop_inv (arr : List Nat) (hne : arr ≠ []) :
    GSInv arr (max arr.length 1) (gsLoop arr) :=
  gsIter_inv arr hne arr.length (le_refl _)

theorem getSequence_length (arr : List Nat) :
    (getSequence arr).length = (gsLoop arr).result.length := by
  rw [getSequence_eq_btChain, btChain_length]

/-- `getSequence` always returns a strictly increasing list of in-bounds
positions with strictly increasing values; every returned position other
than the seeded position 0 carries a non-zero entry. -/
theorem getSequence_chainOK (arr : List Nat) (hne : arr ≠ []) :
    ChainOK arr (getSequence arr) := by
  have hinv := gsLoop_inv arr hne
  have hlenpos : 0 < (gsLoop arr).result.length := List.length_pos.mpr hinv.rne
  rw [getSequence_eq_btChain]
  have h := hinv.rchain ((gsLoop arr).result.length - 1) (by omega)
  rw [show (gsLoop arr).result.length - 1 + 1 = (gsLoop arr).result.length
    from by omega] at h
  exact h.1

/-- No strictly increasing subsequence of the non-zero entries is longer
than the list `getSequence` returns. -/
theorem getSequence_maximal (arr : List Nat) (hne : arr ≠ []) :
    ∀ c, IsNZChain arr c → c.length ≤ (getSequence arr).length := by
  intro c hc
  rcases list_concat_cases c with h | ⟨c₀, y, h⟩
  · subst h
    simp
  · subst h
    have hinv := gsLoop_inv arr hne
    have hbd : ∀ i ∈ c₀ ++ [y], i < max arr.length 1 := by
      intro i hi
      have := (hc.2.1 i hi).1
      omega
    have h := hinv.rmin c₀ y hc hbd
    rw [getSequence_length]
    simpa using h.1

theorem getSequence_isNZChain (arr : List Nat) (hne : arr ≠ [])
    (h0 : getAt arr 0 ≠ 0) : IsNZChain arr (getSequence arr) := by
  have h := getSequence_chainOK arr hne
  refine ⟨h.1, ?_, h.2.2⟩
  intro i hi
  refine ⟨(h.2.1 i hi).1, ?_⟩
  rcases (h.2.1 i hi).2 with h' | h'
  · rw [h']
    exact h0
  · exact h'

/-- C2 (amended): for every non-empty array whose first entry is
non-zero, `getSequence` returns a strictly increasing list of positions
into the array whose values are strictly increasing and non-zero, and no
strictly increasing subsequence of the non-zero entries is longer — the
result is the position set of a longest strictly increasing subsequence
of the non-zero entries.  (The restriction on the first entry is forced:
the source seeds `result` with position 0 before the loop.) -/
theorem getSequence_is_lis (arr : List Nat) (hne : arr ≠ [])
    (h0 : getAt arr 0 ≠ 0) :
    IsNZChain arr (getSequence arr) ∧
    ∀ c, IsNZChain arr c → c.length ≤ (getSequence arr).length :=
  ⟨getSequence_isNZChain arr hne h0, getSequence_maximal arr hne⟩

/-- C2 counterexample: `getSequence [0] = [0]`, yet every increasing
subsequence of the non-zero entries of `[0]` is empty — the zero entry
at position 0 is not excluded from the computed subsequence. -/
theorem getSequence_zero_entry :
    getSequence [0] = [0] ∧ (∀ c, IsNZChain [0] c → c = []) ∧
    ([0] : List Nat) ≠ [] := by
  refine ⟨by decide, ?_, by decide⟩
  intro c hc
  match c with
  | [] => rfl
  | i :: t =>
    exfalso
    have h := hc.2.1 i (List.mem_cons_self i t)
    have hi : i < 1 := by simpa using h.1
    have hi0 : i = 0 := by omega
    rw [hi0] at h
    exact h.2 (by decide)

/-- Closed instance of `getSequence_is_lis` at a concrete array. -/
theorem getSequence_is_lis_witness :
    IsNZChain [10, 30, 20, 50, 40, 80, 60]
      (getSequence [10, 30, 20, 50, 40, 80, 60]) ∧
    getSequence [10, 30, 20, 50, 40, 80, 60] = [0, 2, 4, 6] :=
  ⟨(getSequence_is_lis [10, 30, 20, 50, 40, 80, 60] (by decide)
    (by decide)).1, by decide⟩

/-!
## `patchKeyedChildren` (renderer.ts 1858–2348)

Keyed-list model: a child is a `KNode` (type discriminator plus optional
key); mounted children own a host handle (`Nat`).  The container is the
ordered list of host handles.  Patching a same-type pair in place reuses
the old handle and performs no container operation (children here are
flat leaves), exactly as the inner `patch` call does at the list level.
The five phases of the source are embedded one to one: head sync, tail
sync, mount-remainder, unmount-remainder, and the unknown-middle pass
with `keyToNewIndexMap`, `newIndexToOldIndexMap`, the `moved` /
`maxNewIndexSoFar` scan, and the backwards `getSequence`-guided loop.
-/

structure KNode where
  typ : Nat
  key : Option Nat
deriving DecidableEq

def sameK (a b : KNode) : Bool := a.typ == b.typ && a.key == b.key

/-- Length of the head sync (phase 1): pairs patched in place while
`isSameVNodeType` holds. -/
def syncLen : List (KNode × Nat) → List KNode → Nat
  | o :: os, n :: ns => if sameK o.1 n then syncLen os ns + 1 else 0
  | _, _ => 0

def kmapGet (m : List (Nat × Nat)) (k : Nat) : Option Nat :=
  (m.find? (fun p => p.1 == k)).map (fun p => p.2)

/-- Phase 5.1: build `keyToNewIndexMap` over the new middle (absolute
indices starting at `s2`), collecting the dev-mode duplicate-key
warnings.  Later `set`s shadow earlier ones, as for a JS `Map`. -/
def buildKeyMapGo (dev : Bool) (idx : Nat) (acc : List (Nat × Nat))
    (warns : List Nat) : List KNode → List (Nat × Nat) × List Nat
  | [] => (acc, warns)
  | n :: ns =>
    match n.key with
    | none => buildKeyMapGo dev (idx + 1) acc warns ns
    | some k =>
      let warns' := if dev ∧ (kmapGet acc k).isSome then warns ++ [k]
                    else warns
      buildKeyMapGo dev (idx + 1) ((k, idx) :: acc) warns' ns

def buildKeyMap (dev : Bool) (s2 : Nat) (ns : List KNode) :
    List (Nat × Nat) × List Nat :=
  buildKeyMapGo dev s2 [] [] ns

/-- The key-less fallback scan of phase 5.2: locate an unclaimed
same-type slot in the new middle (relative index). -/
def findKeylessGo (prev : KNode) (map : List Nat) (rel : Nat) :
    List KNode → Option Nat
  | [] => none
  | n :: ns =>
    if getAt map rel = 0 ∧ sameK prev n then some rel
    else findKeylessGo prev map (rel + 1) ns

def findKeyless (prev : KNode) (map : List Nat) (mid2 : List KNode) :
    Option Nat :=
  findKeylessGo prev map 0 mid2

/-- State of the phase-5.2 scan over the old middle. -/
structure S52 where
  map : List Nat
  newEls : List (Option Nat)
  moved : Bool
  maxNew : Nat
  patched : Nat
  container : List Nat
  unmounts : Nat
deriving DecidableEq

/-- One iteration of phase 5.2 for the old child at absolute index `i`. -/
def step52 (s2 : Nat) (toBePatched : Nat) (km : List (Nat × Nat))
    (mid2 : List KNode) (st : S52) (i : Nat) (prev : KNode × Nat) : S52 :=
  if toBePatched ≤ st.patched then
    { st with container := st.container.erase prev.2,
              unmounts := st.unmounts + 1 }
  else
    let newIndex : Option Nat :=
      match prev.1.key with
      | some k => kmapGet km k
      | none => (findKeyless prev.1 st.map mid2).map (fun rel => rel + s2)
    match newIndex with
    | none =>
      { st with container := st.container.erase prev.2,
                unmounts := st.unmounts + 1 }
    | some ni =>
      { map := st.map.set (ni - s2) (i + 1),
        newEls := st.newEls.set (ni - s2) (some prev.2),
        moved := if st.maxNew ≤ ni then st.moved else true,
        maxNew := if st.maxNew ≤ ni then ni else st.maxNew,
        patched := st.patched + 1,
        container := st.container,
        unmounts := st.unmounts }

def run52 (s1 : Nat) (toBePatched : Nat) (km : List (Nat × Nat))
    (mid1 : List (KNode × Nat)) (mid2 : List KNode)
    (container : List Nat) : S52 :=
  (List.enumFrom s1 mid1).foldl
    (fun st p => step52 s1 toBePatched km mid2 st p.1 p.2)
    { map := List.replicate toBePatched 0,
      newEls := List.replicate toBePatched none,
      moved := false, maxNew := 0, patched := 0,
      container := container, unmounts := 0 }

/-- State of the backwards phase-5.3 loop. -/
structure S53 where
  container : List Nat
  newEls : List (Option Nat)
  nextEl : Nat
  moves : Nat
  mounts : Nat
deriving DecidableEq

/-- Phase 5.3, walking the new middle right to left (the counter `i + 1`
processes relative index `i`); `j` indexes into the stable sequence. -/
def step53 (moved : Bool) (seq : List Nat) (map : List Nat) (m : Nat)
    (afterAnchor : Option Nat) : Nat → Int → S53 → S53
  | 0, _, st => st
  | i + 1, j, st =>
    let anchor := if i + 1 < m then st.newEls.getD (i + 1) none
                  else afterAnchor
    if getAt map i = 0 then
      let e := st.nextEl
      step53 moved seq map m afterAnchor i j
        { container := hostInsert st.container e anchor,
          newEls := st.newEls.set i (some e),
          nextEl := e + 1, moves := st.moves, mounts := st.mounts + 1 }
    else if moved then
      if j < 0 ∨ i ≠ getAt seq j.toNat then
        let mel := (st.newEls.getD i none).getD 0
        step53 moved seq map m afterAnchor i j
          { st with
            container := hostInsert st.container mel anchor,
            moves := st.moves + 1 }
      else
        step53 moved seq map m afterAnchor i (j - 1) st
    else
      step53 moved seq map m afterAnchor i j st

/-- Phase 3: mount each remaining new child before the fixed anchor. -/
def mountRun (anchor : Option Nat) :
    List KNode → List Nat → Nat → List Nat × Nat × List (Option Nat)
  | [], cont, next => (cont, next, [])
  | _ :: ns, cont, next =>
    let r := mountRun anchor ns (hostInsert cont next anchor) (next + 1)
    (r.1, r.2.1, some next :: r.2.2)

/-- Result of a keyed-children diff over the container. -/
structure KDiff where
  container : List Nat
  newEls : List (Option Nat)
  nextEl : Nat
  moves : Nat
  mounts : Nat
  unmounts : Nat
  map : List Nat
  warnings : List Nat
deriving DecidableEq

/-- `patchKeyedChildren(c1, c2, container, parentAnchor, ...)`. -/
def patchKeyedChildren (dev : Bool) (c1 : List (KNode × Nat))
    (c2 : List KNode) (container : List Nat) (parentAnchor : Option Nat)
    (nextEl : Nat) : KDiff :=
  let l1 := c1.length
  let l2 := c2.length
  let i := syncLen c1 c2
  let s := syncLen ((c1.drop i).reverse) ((c2.drop i).reverse)
  let mid1 := (c1.drop i).take (l1 - i - s)
  let mid2 := (c2.drop i).take (l2 - i - s)
  let prefixEls : List (Option Nat) := (c1.take i).map (fun o => some o.2)
  let suffixEls : List (Option Nat) := (c1.drop (l1 - s)).map
    (fun o => some o.2)
  let afterAnchor : Option Nat := suffixEls.headD parentAnchor
  if mid1.isEmpty then
    let r := mountRun afterAnchor mid2 container nextEl
    { container := r.1, newEls := prefixEls ++ r.2.2 ++ suffixEls,
      nextEl := r.2.1, moves := 0, mounts := mid2.length, unmounts := 0,
      map := [], warnings := [] }
  else if mid2.isEmpty then
    { container := mid1.foldl (fun c o => c.erase o.2) container,
      newEls := prefixEls ++ suffixEls, nextEl := nextEl, moves := 0,
      mounts := 0, unmounts := mid1.length, map := [], warnings := [] }
  else
    let kmw := buildKeyMap dev i mid2
    let toBePatched := mid2.length
    let st52 := run52 i toBePatched kmw.1 mid1 mid2 container
    let seq := if st52.moved then getSequence st52.map else []
    let st53 := step53 st52.moved seq st52.map toBePatched afterAnchor
      toBePatched ((seq.length : Int) - 1)
      ⟨st52.container, st52.newEls, nextEl, 0, 0⟩
    { container := st53.container,
      newEls := prefixEls ++ st53.newEls ++ suffixEls,
      nextEl := st53.nextEl, moves := st53.moves, mounts := st53.mounts,
      unmounts := st52.unmounts, map := st52.map, warnings := kmw.2 }

example :
    patchKeyedChildren true
      [(⟨0, some 1⟩, 10), (⟨0, some 2⟩, 11), (⟨0, some 3⟩, 12)]
      [⟨0, some 3⟩, ⟨0, some 1⟩, ⟨0, some 2⟩]
      [10, 11, 12] none 13 =
    { container := [12, 10, 11], newEls := [some 12, some 10, some 11],
      nextEl := 13, moves := 1, mounts := 0, unmounts := 0,
      map := [3, 1, 2], warnings := [] } := by decide

example :
    (patchKeyedChildren true
      [(⟨0, some 1⟩, 10), (⟨0, some 2⟩, 11), (⟨0, some 3⟩, 12)]
      [⟨0, some 1⟩, ⟨0, some 3⟩, ⟨0, some 2⟩]
      [10, 11, 12] none 13).container = [10, 12, 11] ∧
    (patchKeyedChildren true
      [(⟨0, some 1⟩, 10), (⟨0, some 2⟩, 11), (⟨0, some 3⟩, 12)]
      [⟨0, some 1⟩, ⟨0, some 3⟩, ⟨0, some 2⟩]
      [10, 11, 12] none 13).moves = 1 ∧
    (patchKeyedChildren true
      [(⟨0, some 1⟩, 10), (⟨0, some 2⟩, 11), (⟨0, some 3⟩, 12)]
      [⟨0, some 1⟩, ⟨0, some 3⟩, ⟨0, some 2⟩]
      [10, 11, 12] none 13).map = [3, 2] := by decide

example :
    (patchKeyedChildren true
      [(⟨0, some 1⟩, 10), (⟨0, some 2⟩, 11), (⟨0, some 3⟩, 12)]
      [⟨0, some 1⟩, ⟨0, some 9⟩, ⟨0, some 2⟩, ⟨0, some 3⟩]
      [10, 11, 12] none 13).container = [10, 13, 11, 12] ∧
    (patchKeyedChildren true
      [(⟨0, some 1⟩, 10), (⟨0, some 2⟩, 11), (⟨0, some 3⟩, 12)]
      [⟨0, some 1⟩, ⟨0, some 9⟩, ⟨0, some 2⟩, ⟨0, some 3⟩]
      [10, 11, 12] none 13).mounts = 1 := by decide

example :
    (patchKeyedChildren true
      [(⟨0, some 1⟩, 10), (⟨0, some 2⟩, 11), (⟨0, some 3⟩, 12),
       (⟨0, some 4⟩, 13)]
      [⟨0, some 4⟩, ⟨0, some 3⟩, ⟨0, some 2⟩]
      [10, 11, 12, 13] none 14).container = [13, 12, 11] ∧
    (patchKeyedChildren true
      [(⟨0, some 1⟩, 10), (⟨0, some 2⟩, 11), (⟨0, some 3⟩, 12),
       (⟨0, some 4⟩, 13)]
      [⟨0, some 4⟩, ⟨0, some 3⟩, ⟨0, some 2⟩]
      [10, 11, 12, 13] none 14).moves = 2 ∧
    (patchKeyedChildren true
      [(⟨0, some 1⟩, 10), (⟨0, some 2⟩, 11), (⟨0, some 3⟩, 12),
       (⟨0, some 4⟩, 13)]
      [⟨0, some 4⟩, ⟨0, some 3⟩, ⟨0, some 2⟩]
      [10, 11, 12, 13] none 14).unmounts = 1 := by decide

example :
    (patchKeyedChildren true
      [(⟨0, some 3⟩, 12), (⟨0, some 1⟩, 10), (⟨0, some 2⟩, 11)]
      [⟨0, some 1⟩, ⟨0, some 2⟩, ⟨0, some 3⟩]
      [12, 10, 11] none 13).container = [10, 11, 12] := by decide

example :
    (patchKeyedChildren true
      [(⟨0, some 1⟩, 10), (⟨0, some 3⟩, 11)]
      [⟨0, some 2⟩, ⟨0, some 9⟩, ⟨0, some 2⟩]
      [10, 11] none 13).warnings = [2] := by decide

/-- The keys of the keyed entries of a child list, in order. -/
def keyedKeys (ns : List KNode) : List Nat := ns.filterMap (fun n => n.key)

theorem kmapGet_isSome (acc : List (Nat × Nat)) (k : Nat) :
    (kmapGet acc k).isSome ↔ ∃ p ∈ acc, p.1 = k := by
  unfold kmapGet
  simp [List.find?_isSome]

theorem buildKeyMapGo_false :
    ∀ (ns : List KNode) (idx : Nat) (acc : List (Nat × Nat)) (w : List Nat),
    (buildKeyMapGo false idx acc w ns).2 = w := by
  intro ns
  induction ns with
  | nil => intro idx acc w; rfl
  | cons n rest ih =>
    intro idx acc w
    cases hk : n.key with
    | none =>
      simp only [buildKeyMapGo, hk]
      exact ih _ _ _
    | some k =>
      simp only [buildKeyMapGo, hk, false_and, if_false]
      exact ih _ _ _

theorem buildKeyMapGo_fst (dev dev' : Bool) :
    ∀ (ns : List KNode) (idx : Nat) (acc : List (Nat × Nat))
    (w w' : List Nat),
    (buildKeyMapGo dev idx acc w ns).1 =
      (buildKeyMapGo dev' idx acc w' ns).1 := by
  intro ns
  induction ns with
  | nil => intro idx acc w w'; rfl
  | cons n rest ih =>
    intro idx acc w w'
    cases hk : n.key with
    | none =>
      simp only [buildKeyMapGo, hk]
      exact ih _ _ _ _
    | some k =>
      simp only [buildKeyMapGo, hk]
      exact ih _ _ _ _

theorem buildKeyMap_fst (dev dev' : Bool) (s2 : Nat) (ns : List KNode) :
    (buildKeyMap dev s2 ns).1 = (buildKeyMap dev' s2 ns).1 :=
  buildKeyMapGo_fst dev dev' ns s2 [] [] []

theorem buildKeyMapGo_warns_append (dev : Bool) :
    ∀ (ns : List KNode) (idx : Nat) (acc : List (Nat × Nat)) (w : List Nat),
    (buildKeyMapGo dev idx acc w ns).2 =
      w ++ (buildKeyMapGo dev idx acc [] ns).2 := by
  intro ns
  induction ns with
  | nil => intro idx acc w; simp [buildKeyMapGo]
  | cons n rest ih =>
    intro idx acc w
    cases hk : n.key with
    | none =>
      simp only [buildKeyMapGo, hk]
      exact ih _ _ _
    | some k =>
      simp only [buildKeyMapGo, hk]
      by_cases hhit : dev = true ∧ (kmapGet acc k).isSome = true
      · rw [if_pos hhit, if_pos hhit, ih (idx + 1) _ (w ++ [k]),
          ih (idx + 1) _ ([] ++ [k])]
        simp
      · rw [if_neg hhit, if_neg hhit, ih (idx + 1) _ w]

theorem buildKeyMapGo_warns_iff :
    ∀ (ns : List KNode) (idx : Nat) (acc : List (Nat × Nat)),
    ((buildKeyMapGo true idx acc [] ns).2 ≠ [] ↔
      (∃ k ∈ keyedKeys ns, ∃ p ∈ acc, p.1 = k) ∨
        ¬ (keyedKeys ns).Nodup) := by
  intro ns
  induction ns with
  | nil =>
    intro idx acc
    simp [buildKeyMapGo, keyedKeys]
  | cons n rest ih =>
    intro idx acc
    cases hk : n.key with
    | none =>
      have hkeys : keyedKeys (n :: rest) = keyedKeys rest := by
        simp [keyedKeys, hk]
      simp only [buildKeyMapGo, hk, hkeys]
      exact ih (idx + 1) acc
    | some k =>
      have hkeys : keyedKeys (n :: rest) = k :: keyedKeys rest := by
        simp [keyedKeys, hk]
      simp only [buildKeyMapGo, hk, hkeys]
      by_cases hhit : (kmapGet acc k).isSome = true
      · rw [if_pos ⟨by trivial, hhit⟩]
        rw [buildKeyMapGo_warns_append true rest (idx + 1) _ ([] ++ [k])]
        constructor
        · intro _
          left
          exact ⟨k, List.mem_cons_self k _, (kmapGet_isSome acc k).mp hhit⟩
        · intro _
          simp
      · rw [if_neg (fun h => hhit h.2)]
        rw [ih (idx + 1) ((k, idx) :: acc)]
        have hnacc : ¬ ∃ p ∈ acc, p.1 = k :=
          fun h => hhit ((kmapGet_isSome acc k).mpr h)
        constructor
        · intro h
          rcases h with ⟨k', hk', p, hp, hpk⟩ | hnd
          · rcases List.mem_cons.mp hp with hp | hp
            · right
              rw [List.nodup_cons]
              intro hcon
              rw [hp] at hpk
              simp only at hpk
              exact hcon.1 (hpk ▸ hk')
            · left
              exact ⟨k', List.mem_cons_of_mem _ hk', p, hp, hpk⟩
          · right
            rw [List.nodup_cons]
            intro hcon
            exact hnd hcon.2
        · intro h
          rcases h with ⟨k', hk', p, hp, hpk⟩ | hnd
          · rcases List.mem_cons.mp hk' with hk' | hk'
            · exact absurd ⟨p, hp, hk' ▸ hpk⟩ hnacc
            · left
              exact ⟨k', hk', p, List.mem_cons_of_mem _ hp, hpk⟩
          · rw [List.nodup_cons] at hnd
            rw [not_and_or] at hnd
            rcases hnd with hnd | hnd
            · rw [not_not] at hnd
              left
              exact ⟨k, hnd, (k, idx), List.mem_cons_self _ _, rfl⟩
            · right
              exact hnd

/-- C9: duplicate keys in the diffed new list are detected by the
dev-mode instrumentation of phase 5.1 and reported via the warning
channel — never as an exception (the diff is a total function), and the
diff proceeds identically with or without dev instrumentation. -/
theorem duplicate_keys_warn_only (c1 : List (KNode × Nat))
    (c2 : List KNode) (container : List Nat) (pa : Option Nat) (ne : Nat) :
    ((patchKeyedChildren false c1 c2 container pa ne).warnings = []) ∧
    (∀ dev dev' : Bool,
      (patchKeyedChildren dev c1 c2 container pa ne).container =
        (patchKeyedChildren dev' c1 c2 container pa ne).container ∧
      (patchKeyedChildren dev c1 c2 container pa ne).newEls =
        (patchKeyedChildren dev' c1 c2 container pa ne).newEls ∧
      (patchKeyedChildren dev c1 c2 container pa ne).moves =
        (patchKeyedChildren dev' c1 c2 container pa ne).moves ∧
      (patchKeyedChildren dev c1 c2 container pa ne).mounts =
        (patchKeyedChildren dev' c1 c2 container pa ne).mounts ∧
      (patchKeyedChildren dev c1 c2 container pa ne).unmounts =
        (patchKeyedChildren dev' c1 c2 container pa ne).unmounts ∧
      (patchKeyedChildren dev c1 c2 container pa ne).map =
        (patchKeyedChildren dev' c1 c2 container pa ne).map) ∧
    (∀ (s2 : Nat) (ns : List KNode),
      (buildKeyMap true s2 ns).2 ≠ [] ↔ ¬ (keyedKeys ns).Nodup) := by
  refine ⟨?_, ?_, ?_⟩
  · simp only [patchKeyedChildren]
    split
    · rfl
    · split
      · rfl
      · exact buildKeyMapGo_false _ _ _ _
  · intro dev dev'
    simp only [patchKeyedChildren]
    split
    · exact ⟨rfl, rfl, rfl, rfl, rfl, rfl⟩
    · split
      · exact ⟨rfl, rfl, rfl, rfl, rfl, rfl⟩
      · rw [buildKeyMap_fst dev dev']
        exact ⟨rfl, rfl, rfl, rfl, rfl, rfl⟩
  · intro s2 ns
    rw [show (buildKeyMap true s2 ns).2 =
      (buildKeyMapGo true s2 [] [] ns).2 from rfl]
    rw [buildKeyMapGo_warns_iff ns s2 []]
    simp

/-- Closed instance of `duplicate_keys_warn_only`: the duplicate key 2
in the new middle is warned about and the dev run changes nothing else. -/
theorem duplicate_keys_warn_only_witness :
    (buildKeyMap true 0 [⟨0, some 2⟩, ⟨0, some 9⟩, ⟨0, some 2⟩]).2 ≠ [] ∧
    (patchKeyedChildren true [(⟨0, some 1⟩, 10), (⟨0, some 3⟩, 11)]
      [⟨0, some 2⟩, ⟨0, some 9⟩, ⟨0, some 2⟩] [10, 11] none 13).container =
    (patchKeyedChildren false [(⟨0, some 1⟩, 10), (⟨0, some 3⟩, 11)]
      [⟨0, some 2⟩, ⟨0, some 9⟩, ⟨0, some 2⟩] [10, 11] none 13).container
    := by
  have h := duplicate_keys_warn_only [(⟨0, some 1⟩, 10), (⟨0, some 3⟩, 11)]
    [⟨0, some 2⟩, ⟨0, some 9⟩, ⟨0, some 2⟩] [10, 11] none 13
  exact ⟨(h.2.2 0 [⟨0, some 2⟩, ⟨0, some 9⟩, ⟨0, some 2⟩]).mpr (by decide),
    (h.2.1 true false).1⟩

/-!
## C1: move counting for keyed permutations

The scan of phase 5.2 is characterised by key lookups: with distinct
keys, `keyToNewIndexMap` sends a key to the position of its (unique)
carrier in the new middle, and `newIndexToOldIndexMap` ends up holding
`oldIndex + 1` at each matched new slot.  The backwards loop of phase
5.3 then performs exactly `length(map) − length(seq)` moves.
-/

/-- First index in a new-children list whose node carries key `k`. -/
def idxOfKeyN (k : Nat) : List KNode → Option Nat
  | [] => none
  | n :: ns =>
    if n.key = some k then some 0 else (idxOfKeyN k ns).map (fun t => t + 1)

/-- First index in an old-children list whose node carries key `k`. -/
def idxOfKeyO (k : Nat) : List (KNode × Nat) → Option Nat
  | [] => none
  | o :: os =>
    if o.1.key = some k then some 0 else (idxOfKeyO k os).map (fun t => t + 1)

/-- Keys of the keyed entries of an old (mounted) child list. -/
def keyedKeysO (os : List (KNode × Nat)) : List Nat :=
  os.filterMap (fun o => o.1.key)

/-- Bounds-defaulted indexing into a new-children list. -/
def getK (ns : List KNode) (t : Nat) : KNode := ns.getD t ⟨0, none⟩

theorem sameK_iff_eq (a b : KNode) : sameK a b = true ↔ a = b := by
  cases a with
  | mk t1 k1 =>
    cases b with
    | mk t2 k2 =>
      simp [sameK, KNode.mk.injEq]

theorem getK_mem (ns : List KNode) (t : Nat) (h : t < ns.length) :
    getK ns t ∈ ns := by
  unfold getK
  rw [List.getD_eq_getElem?_getD, List.getElem?_eq_getElem h]
  exact List.getElem_mem h

theorem getK_cons_succ (n : KNode) (ns : List KNode) (t : Nat) :
    getK (n :: ns) (t + 1) = getK ns t := rfl

theorem mem_keyedKeys (ns : List KNode) (k : Nat) :
    k ∈ keyedKeys ns ↔ ∃ n ∈ ns, n.key = some k := by
  unfold keyedKeys
  simp [List.mem_filterMap]

theorem mem_keyedKeysO (os : List (KNode × Nat)) (k : Nat) :
    k ∈ keyedKeysO os ↔ ∃ o ∈ os, o.1.key = some k := by
  unfold keyedKeysO
  simp [List.mem_filterMap]

theorem keyedKeysO_eq (os : List (KNode × Nat)) :
    keyedKeysO os = keyedKeys (os.map Prod.fst) := by
  unfold keyedKeysO keyedKeys
  induction os with
  | nil => rfl
  | cons o os ih => simp [List.filterMap_cons, ih]

theorem idxOfKeyN_none_iff (k : Nat) :
    ∀ ns : List KNode, idxOfKeyN k ns = none ↔ k ∉ keyedKeys ns := by
  intro ns
  induction ns with
  | nil => simp [idxOfKeyN, keyedKeys]
  | cons n rest ih =>
    have hmem : k ∈ keyedKeys (n :: rest) ↔
        (n.key = some k ∨ k ∈ keyedKeys rest) := by
      rw [mem_keyedKeys]
      constructor
      · rintro ⟨x, hx, hxk⟩
        rcases List.mem_cons.mp hx with hx | hx
        · exact Or.inl (hx ▸ hxk)
        · exact Or.inr ((mem_keyedKeys rest k).mpr ⟨x, hx, hxk⟩)
      · rintro (h | h)
        · exact ⟨n, List.mem_cons_self n rest, h⟩
        · rcases (mem_keyedKeys rest k).mp h with ⟨x, hx, hxk⟩
          exact ⟨x, List.mem_cons_of_mem _ hx, hxk⟩
    by_cases h : n.key = some k
    · rw [idxOfKeyN, if_pos h]
      simp [hmem, h]
    · rw [idxOfKeyN, if_neg h, hmem]
      simp only [Option.map_eq_none', ih]
      simp [h]

theorem idxOfKeyN_some (k : Nat) :
    ∀ (ns : List KNode) (t : Nat), idxOfKeyN k ns = some t →
      t < ns.length ∧ (getK ns t).key = some k := by
  intro ns
  induction ns with
  | nil => intro t h; cases h
  | cons n rest ih =>
    intro t h
    by_cases hk : n.key = some k
    · rw [idxOfKeyN, if_pos hk] at h
      cases h
      exact ⟨Nat.succ_pos _, hk⟩
    · rw [idxOfKeyN, if_neg hk] at h
      rcases Option.map_eq_some.mp h with ⟨t', ht', rfl⟩
      rcases ih t' ht' with ⟨h1, h2⟩
      exact ⟨by simpa using Nat.succ_lt_succ h1, by rw [getK_cons_succ]; exact h2⟩

theorem idxOfKeyN_at (k : Nat) :
    ∀ (ns : List KNode) (t : Nat), (keyedKeys ns).Nodup → t < ns.length →
      (getK ns t).key = some k → idxOfKeyN k ns = some t := by
  intro ns
  induction ns with
  | nil => intro t _ h; simp at h
  | cons n rest ih =>
    intro t hnd ht hkey
    cases t with
    | zero =>
      have : n.key = some k := hkey
      rw [idxOfKeyN, if_pos this]
    | succ t' =>
      rw [getK_cons_succ] at hkey
      have ht' : t' < rest.length := by simpa using ht
      have hkrest : k ∈ keyedKeys rest :=
        (mem_keyedKeys rest k).mpr ⟨getK rest t', getK_mem rest t' ht', hkey⟩
      have hne : n.key ≠ some k := by
        intro hc
        have : keyedKeys (n :: rest) = k :: keyedKeys rest := by
          simp [keyedKeys, hc]
        rw [this, List.nodup_cons] at hnd
        exact hnd.1 hkrest
      have hndrest : (keyedKeys rest).Nodup := by
        cases hnk : n.key with
        | none =>
          have : keyedKeys (n :: rest) = keyedKeys rest := by
            simp [keyedKeys, hnk]
          rwa [this] at hnd
        | some k' =>
          have : keyedKeys (n :: rest) = k' :: keyedKeys rest := by
            simp [keyedKeys, hnk]
          rw [this, List.nodup_cons] at hnd
          exact hnd.2
      rw [idxOfKeyN, if_neg hne, ih t' hndrest ht' hkey]
      rfl

/-- With distinct keys, a key determines its position in the new list. -/
theorem keyedKeys_pos_inj (ns : List KNode) (k q q' : Nat)
    (hnd : (keyedKeys ns).Nodup) (hq : q < ns.length) (hq' : q' < ns.length)
    (h1 : (getK ns q).key = some k) (h2 : (getK ns q').key = some k) :
    q = q' := by
  have e1 := idxOfKeyN_at k ns q hnd hq h1
  have e2 := idxOfKeyN_at k ns q' hnd hq' h2
  rw [e1] at e2
  exact Option.some.inj e2

theorem idxOfKeyO_none_iff (k : Nat) :
    ∀ os : List (KNode × Nat), idxOfKeyO k os = none ↔ k ∉ keyedKeysO os := by
  intro os
  induction os with
  | nil => simp [idxOfKeyO, keyedKeysO]
  | cons o rest ih =>
    have hmem : k ∈ keyedKeysO (o :: rest) ↔
        (o.1.key = some k ∨ k ∈ keyedKeysO rest) := by
      rw [mem_keyedKeysO]
      constructor
      · rintro ⟨x, hx, hxk⟩
        rcases List.mem_cons.mp hx with hx | hx
        · exact Or.inl (hx ▸ hxk)
        · exact Or.inr ((mem_keyedKeysO rest k).mpr ⟨x, hx, hxk⟩)
      · rintro (h | h)
        · exact ⟨o, List.mem_cons_self o rest, h⟩
        · rcases (mem_keyedKeysO rest k).mp h with ⟨x, hx, hxk⟩
          exact ⟨x, List.mem_cons_of_mem _ hx, hxk⟩
    by_cases h : o.1.key = some k
    · rw [idxOfKeyO, if_pos h]
      simp [hmem, h]
    · rw [idxOfKeyO, if_neg h, hmem]
      simp only [Option.map_eq_none', ih]
      simp [h]

theorem idxOfKeyO_some (k : Nat) :
    ∀ (os : List (KNode × Nat)) (t : Nat), idxOfKeyO k os = some t →
      t < os.length := by
  intro os
  induction os with
  | nil => intro t h; cases h
  | cons o rest ih =>
    intro t h
    by_cases hk : o.1.key = some k
    · rw [idxOfKeyO, if_pos hk] at h
      cases h
      exact Nat.succ_pos _
    · rw [idxOfKeyO, if_neg hk] at h
      rcases Option.map_eq_some.mp h with ⟨t', ht', rfl⟩
      simpa using Nat.succ_lt_succ (ih t' ht')

/-- A key found in a prefix is found at the same index in any extension. -/
theorem idxOfKeyO_append_some (k : Nat) (ρ : List (KNode × Nat)) :
    ∀ (π : List (KNode × Nat)) (t : Nat), idxOfKeyO k π = some t →
      idxOfKeyO k (π ++ ρ) = some t := by
  intro π
  induction π with
  | nil => intro t h; cases h
  | cons o rest ih =>
    intro t h
    by_cases hk : o.1.key = some k
    · rw [idxOfKeyO, if_pos hk] at h
      cases h
      rw [List.cons_append, idxOfKeyO, if_pos hk]
    · rw [idxOfKeyO, if_neg hk] at h
      rcases Option.map_eq_some.mp h with ⟨t', ht', rfl⟩
      rw [List.cons_append, idxOfKeyO, if_neg hk, ih t' ht']
      rfl

/-- Appending one keyed entry to a prefix that misses the key makes it
found at the prefix length. -/
theorem idxOfKeyO_append_hit (k : Nat) (o : KNode × Nat)
    (ho : o.1.key = some k) :
    ∀ π : List (KNode × Nat), idxOfKeyO k π = none →
      idxOfKeyO k (π ++ [o]) = some π.length := by
  intro π
  induction π with
  | nil => intro _; simp [idxOfKeyO, ho]
  | cons o' rest ih =>
    intro h
    by_cases hk : o'.1.key = some k
    · rw [idxOfKeyO, if_pos hk] at h
      cases h
    · rw [idxOfKeyO, if_neg hk, Option.map_eq_none'] at h
      rw [List.cons_append, idxOfKeyO, if_neg hk, ih h]
      rfl

/-- Appending an entry with a different key leaves a miss a miss. -/
theorem idxOfKeyO_append_miss (k : Nat) (o : KNode × Nat)
    (ho : o.1.key ≠ some k) :
    ∀ π : List (KNode × Nat), idxOfKeyO k π = none →
      idxOfKeyO k (π ++ [o]) = none := by
  intro π
  induction π with
  | nil => intro _; simp [idxOfKeyO, ho]
  | cons o' rest ih =>
    intro h
    by_cases hk : o'.1.key = some k
    · rw [idxOfKeyO, if_pos hk] at h
      cases h
    · rw [idxOfKeyO, if_neg hk, Option.map_eq_none'] at h
      rw [List.cons_append, idxOfKeyO, if_neg hk, ih h]
      rfl

theorem keyedKeysO_append (π ρ : List (KNode × Nat)) :
    keyedKeysO (π ++ ρ) = keyedKeysO π ++ keyedKeysO ρ := by
  unfold keyedKeysO
  rw [List.filterMap_append]

/-- With distinct keys, the JS-`Map` shadowing is irrelevant and
`keyToNewIndexMap` sends each key to the index of its unique carrier. -/
theorem kmapGet_buildKeyMapGo (dev : Bool) :
    ∀ ns : List KNode, (keyedKeys ns).Nodup →
    ∀ (idx : Nat) (acc : List (Nat × Nat)) (w : List Nat) (k : Nat),
    kmapGet (buildKeyMapGo dev idx acc w ns).1 k =
      match idxOfKeyN k ns with
      | some t => some (idx + t)
      | none => kmapGet acc k := by
  intro ns
  induction ns with
  | nil =>
    intro _ idx acc w k
    simp [buildKeyMapGo, idxOfKeyN]
  | cons n rest ih =>
    intro hnd idx acc w k
    cases hnk : n.key with
    | none =>
      have hndrest : (keyedKeys rest).Nodup := by
        have : keyedKeys (n :: rest) = keyedKeys rest := by
          simp [keyedKeys, hnk]
        rwa [this] at hnd
      rw [buildKeyMapGo, hnk, ih hndrest (idx + 1) acc w k]
      have hne : ¬ n.key = some k := by rw [hnk]; intro h; cases h
      rw [idxOfKeyN, if_neg hne]
      cases h : idxOfKeyN k rest with
      | none => rfl
      | some t =>
        show some (idx + 1 + t) = some (idx + (t + 1))
        rw [Nat.add_assoc, Nat.add_comm 1 t]
    | some k' =>
      have hkeys : keyedKeys (n :: rest) = k' :: keyedKeys rest := by
        simp [keyedKeys, hnk]
      rw [hkeys, List.nodup_cons] at hnd
      rw [buildKeyMapGo, hnk, ih hnd.2 (idx + 1) ((k', idx) :: acc) _ k]
      by_cases hk : k' = k
      · subst hk
        have hrest : idxOfKeyN k' rest = none :=
          (idxOfKeyN_none_iff k' rest).mpr hnd.1
        have hself : n.key = some k' := hnk
        rw [idxOfKeyN, if_pos hself, hrest]
        show kmapGet ((k', idx) :: acc) k' = some (idx + 0)
        unfold kmapGet
        rw [List.find?_cons_of_pos _ (by simp)]
        rfl
      · have hne : ¬ n.key = some k := by
          rw [hnk]
          intro h
          exact hk (Option.some.inj h)
        rw [idxOfKeyN, if_neg hne]
        cases h : idxOfKeyN k rest with
        | none =>
          show kmapGet ((k', idx) :: acc) k = kmapGet acc k
          unfold kmapGet
          rw [List.find?_cons_of_neg _ (by simp [hk])]
        | some t =>
          show some (idx + 1 + t) = some (idx + (t + 1))
          rw [Nat.add_assoc, Nat.add_comm 1 t]

theorem kmapGet_buildKeyMap (dev : Bool) (s : Nat) (ns : List KNode)
    (hnd : (keyedKeys ns).Nodup) (k : Nat) :
    kmapGet (buildKeyMap dev s ns).1 k =
      (idxOfKeyN k ns).map (fun t => s + t) := by
  unfold buildKeyMap
  rw [kmapGet_buildKeyMapGo dev ns hnd s [] [] k]
  cases h : idxOfKeyN k ns with
  | none => rfl
  | some t => rfl

/-- New-index list (absolute, offset `s1`) of the matched old entries of
a prefix `π` of the old middle, in scan order. -/
def niList (s1 : Nat) (mid2 : List KNode) (π : List (KNode × Nat)) :
    List Nat :=
  π.filterMap (fun o => o.1.key.bind
    (fun k => (idxOfKeyN k mid2).map (fun q => s1 + q)))

/-- Expected `newIndexToOldIndexMap` entry at new slot `q` after the old
entries `π` have been scanned: `absoluteOldIndex + 1` for a matched
slot, `0` otherwise. -/
def mapSpec (s1 : Nat) (mid2 : List KNode) (π : List (KNode × Nat))
    (q : Nat) : Nat :=
  match (getK mid2 q).key with
  | none => 0
  | some k =>
    match idxOfKeyO k π with
    | none => 0
    | some t => s1 + t + 1

theorem niList_append_one (s1 : Nat) (mid2 : List KNode)
    (π : List (KNode × Nat)) (o : KNode × Nat) (k q : Nat)
    (hk : o.1.key = some k) (hq : idxOfKeyN k mid2 = some q) :
    niList s1 mid2 (π ++ [o]) = niList s1 mid2 π ++ [s1 + q] := by
  unfold niList
  rw [List.filterMap_append]
  simp [hk, hq, Option.bind]

theorem mem_niList (s1 : Nat) (mid2 : List KNode) (π : List (KNode × Nat))
    (x : Nat) :
    x ∈ niList s1 mid2 π ↔
      ∃ o ∈ π, ∃ k q, o.1.key = some k ∧ idxOfKeyN k mid2 = some q ∧
        x = s1 + q := by
  unfold niList
  rw [List.mem_filterMap]
  constructor
  · rintro ⟨o, ho, hbind⟩
    rcases Option.bind_eq_some.mp hbind with ⟨k, hk, hmap⟩
    rcases Option.map_eq_some.mp hmap with ⟨q, hq, hx⟩
    exact ⟨o, ho, k, q, hk, hq, hx.symm⟩
  · rintro ⟨o, ho, k, q, hk, hq, rfl⟩
    exact ⟨o, ho, by rw [hk]; simp [hq]⟩

theorem foldl_max_le_acc (l : List Nat) :
    ∀ a : Nat, a ≤ l.foldl max a := by
  induction l with
  | nil => intro a; exact Nat.le_refl a
  | cons x l ih =>
    intro a
    exact Nat.le_trans (Nat.le_max_left a x) (ih (max a x))

theorem foldl_max_mem_le (l : List Nat) :
    ∀ (a x : Nat), x ∈ l → x ≤ l.foldl max a := by
  induction l with
  | nil => intro a x h; cases h
  | cons y l ih =>
    intro a x h
    rcases List.mem_cons.mp h with h | h
    · subst h
      exact Nat.le_trans (Nat.le_max_right a x) (foldl_max_le_acc l _)
    · exact ih _ x h

theorem foldl_max_append_one (l : List Nat) (a x : Nat) :
    (l ++ [x]).foldl max a = max (l.foldl max a) x := by
  rw [List.foldl_append]
  rfl

theorem step52_matched (s1 m : Nat) (km : List (Nat × Nat))
    (mid2 : List KNode) (st : S52) (i : Nat) (o : KNode × Nat)
    (k ni : Nat) (hguard : st.patched < m) (hk : o.1.key = some k)
    (hkm : kmapGet km k = some ni) :
    step52 s1 m km mid2 st i o =
      { map := st.map.set (ni - s1) (i + 1),
        newEls := st.newEls.set (ni - s1) (some o.2),
        moved := if st.maxNew ≤ ni then st.moved else true,
        maxNew := if st.maxNew ≤ ni then ni else st.maxNew,
        patched := st.patched + 1,
        container := st.container,
        unmounts := st.unmounts } := by
  unfold step52
  rw [if_neg (by omega)]
  simp only [hk, hkm]

/-- Bounds-defaulted indexing into an old-children list. -/
def getO (os : List (KNode × Nat)) (t : Nat) : KNode × Nat :=
  os.getD t (⟨0, none⟩, 0)

theorem getO_mem (os : List (KNode × Nat)) (t : Nat) (h : t < os.length) :
    getO os t ∈ os := by
  unfold getO
  rw [List.getD_eq_getElem?_getD, List.getElem?_eq_getElem h]
  exact List.getElem_mem h

theorem getO_cons_succ (o : KNode × Nat) (os : List (KNode × Nat))
    (t : Nat) : getO (o :: os) (t + 1) = getO os t := rfl

theorem getO_eq_getElem (os : List (KNode × Nat)) (t : Nat)
    (h : t < os.length) : getO os t = os[t] := by
  unfold getO
  rw [List.getD_eq_getElem?_getD, List.getElem?_eq_getElem h]
  rfl

/-- Expected `newElements` entry at new slot `q` after the old entries
`π` have been scanned: the matched old child's host handle. -/
def elsSpec (mid2 : List KNode) (π : List (KNode × Nat)) (q : Nat) :
    Option Nat :=
  match (getK mid2 q).key with
  | none => none
  | some k => (idxOfKeyO k π).map (fun t => (getO π t).2)

theorem getD_set_self_opt (l : List (Option Nat)) (i : Nat)
    (w : Option Nat) (h : i < l.length) : (l.set i w).getD i none = w := by
  rw [List.getD_eq_getElem?_getD, List.getElem?_set_self]
  · rfl
  · exact h

theorem getD_set_ne_opt (l : List (Option Nat)) (i x : Nat)
    (w : Option Nat) (h : x ≠ i) :
    (l.set i w).getD x none = l.getD x none := by
  rw [List.getD_eq_getElem?_getD, List.getD_eq_getElem?_getD,
    List.getElem?_set_ne (Ne.symm h)]

theorem getD_replicate_none (n q : Nat) :
    (List.replicate n (none : Option Nat)).getD q none = none := by
  rw [List.getD_eq_getElem?_getD, List.getElem?_replicate]
  split <;> rfl

theorem getO_append_lt (π ρ : List (KNode × Nat)) (t : Nat)
    (h : t < π.length) : getO (π ++ ρ) t = getO π t := by
  unfold getO
  rw [List.getD_eq_getElem?_getD, List.getD_eq_getElem?_getD,
    List.getElem?_append, if_pos h]

theorem getO_append_len (π : List (KNode × Nat)) (o : KNode × Nat) :
    getO (π ++ [o]) π.length = o := by
  unfold getO
  rw [List.getD_eq_getElem?_getD, List.getElem?_concat_length]
  rfl

/-- Invariant of the phase-5.2 scan in the matched-permutation setting:
after the prefix `π` of the old middle has been scanned, the state is
fully determined by key lookups, nothing has been unmounted, and
`moved` is still `false` only if the matched new indices came in
strictly increasing order. -/
structure Inv52 (s1 m : Nat) (mid2 : List KNode) (container : List Nat)
    (π : List (KNode × Nat)) (st : S52) : Prop where
  maplen : st.map.length = m
  mapq : ∀ q, q < m → getAt st.map q = mapSpec s1 mid2 π q
  elslen : st.newEls.length = m
  elsq : ∀ q, q < m → st.newEls.getD q none = elsSpec mid2 π q
  pat : st.patched = π.length
  ctn : st.container = container
  unm : st.unmounts = 0
  mx : st.maxNew = (niList s1 mid2 π).foldl max 0
  mv : st.moved = false → (niList s1 mid2 π).Pairwise (· < ·)

theorem inv52_step (s1 m : Nat) (mid2 : List KNode) (container : List Nat)
    (km : List (Nat × Nat))
    (hkm : ∀ k, kmapGet km k = (idxOfKeyN k mid2).map (fun q => s1 + q))
    (hm : mid2.length = m) (hnd2 : (keyedKeys mid2).Nodup)
    (π ρ : List (KNode × Nat)) (o : KNode × Nat)
    (hlen : π.length + (o :: ρ).length = m)
    (hks : ∀ o' ∈ π ++ o :: ρ, (o'.1.key).isSome = true)
    (hnd1 : (keyedKeysO (π ++ o :: ρ)).Nodup)
    (hsub : ∀ k, k ∈ keyedKeysO (π ++ o :: ρ) → k ∈ keyedKeys mid2)
    (st : S52) (inv : Inv52 s1 m mid2 container π st) :
    Inv52 s1 m mid2 container (π ++ [o])
      (step52 s1 m km mid2 st (s1 + π.length) o) := by
  rcases Option.isSome_iff_exists.mp
    (hks o (by simp)) with ⟨k, hk⟩
  have hkmem2 : k ∈ keyedKeys mid2 := by
    refine hsub k ?_
    rw [mem_keyedKeysO]
    exact ⟨o, by simp, hk⟩
  have hqex : idxOfKeyN k mid2 ≠ none :=
    fun h => ((idxOfKeyN_none_iff k mid2).mp h) hkmem2
  rcases Option.ne_none_iff_exists'.mp hqex with ⟨q, hq⟩
  have hqlt : q < m := hm ▸ (idxOfKeyN_some k mid2 q hq).1
  have hq2key : (getK mid2 q).key = some k := (idxOfKeyN_some k mid2 q hq).2
  have hknotin : k ∉ keyedKeysO π := by
    intro hkin
    have hsplit : keyedKeysO (π ++ o :: ρ) =
        keyedKeysO π ++ (k :: keyedKeysO ρ) := by
      rw [keyedKeysO_append]
      congr 1
      unfold keyedKeysO
      rw [List.filterMap_cons, hk]
    rw [hsplit, List.nodup_append] at hnd1
    exact hnd1.2.2 hkin (List.mem_cons_self k _)
  have hguard : st.patched < m := by
    rw [inv.pat]
    simp only [List.length_cons] at hlen
    omega
  rw [step52_matched s1 m km mid2 st (s1 + π.length) o k (s1 + q) hguard hk
    (by rw [hkm k, hq]; rfl)]
  have hni : s1 + q - s1 = q := by omega
  have hnil : niList s1 mid2 (π ++ [o]) = niList s1 mid2 π ++ [s1 + q] :=
    niList_append_one s1 mid2 π o k q hk hq
  have hxne : ∀ x ∈ niList s1 mid2 π, x ≠ s1 + q := by
    intro x hx
    rcases (mem_niList s1 mid2 π x).mp hx with ⟨o', ho', k', q', hk', hq', rfl⟩
    intro hxx
    have hqq : q' = q := by omega
    have hkeq : k' = k := by
      have h1 := (idxOfKeyN_some k' mid2 q' hq').2
      rw [hqq, hq2key] at h1
      exact (Option.some.inj h1).symm
    refine hknotin ?_
    rw [mem_keyedKeysO]
    exact ⟨o', ho', hkeq ▸ hk'⟩
  have hxle : ∀ x ∈ niList s1 mid2 π, x ≤ st.maxNew := by
    intro x hx
    rw [inv.mx]
    exact foldl_max_mem_le _ 0 x hx
  refine ⟨?_, ?_, ?_, ?_, ?_, ?_, ?_, ?_, ?_⟩
  · show (st.map.set (s1 + q - s1) (s1 + π.length + 1)).length = m
    rw [List.length_set, inv.maplen]
  · intro q' hq'
    by_cases hqq : q' = q
    · subst hqq
      rw [hni, getAt_set_self _ _ _ (by rw [inv.maplen]; exact hqlt)]
      unfold mapSpec
      rw [hq2key]
      have hmiss : idxOfKeyO k π = none := (idxOfKeyO_none_iff k π).mpr hknotin
      have hhit := idxOfKeyO_append_hit k o hk π hmiss
      simp [hhit]
    · rw [hni, getAt_set_ne _ _ _ _ hqq, inv.mapq q' hq']
      unfold mapSpec
      cases hq2k : (getK mid2 q').key with
      | none => rfl
      | some k' =>
        cases hfind : idxOfKeyO k' π with
        | some t =>
          have hsame := idxOfKeyO_append_some k' [o] π t hfind
          simp [hfind, hsame]
        | none =>
          have hone : o.1.key ≠ some k' := by
            rw [hk]
            intro h
            have hkeq : k = k' := Option.some.inj h
            exact hqq (keyedKeys_pos_inj mid2 k q' q hnd2 (hm ▸ hq')
              (hm ▸ hqlt) (hkeq ▸ hq2k) hq2key)
          have hmiss2 := idxOfKeyO_append_miss k' o hone π hfind
          simp [hfind, hmiss2]
  · show (st.newEls.set (s1 + q - s1) (some o.2)).length = m
    rw [List.length_set, inv.elslen]
  · intro q' hq'
    by_cases hqq : q' = q
    · subst hqq
      rw [hni, getD_set_self_opt _ _ _ (by rw [inv.elslen]; exact hqlt)]
      unfold elsSpec
      rw [hq2key]
      have hmiss : idxOfKeyO k π = none := (idxOfKeyO_none_iff k π).mpr hknotin
      have hhit := idxOfKeyO_append_hit k o hk π hmiss
      simp [hhit, getO_append_len]
    · rw [hni, getD_set_ne_opt _ _ _ _ hqq, inv.elsq q' hq']
      unfold elsSpec
      cases hq2k : (getK mid2 q').key with
      | none => rfl
      | some k' =>
        cases hfind : idxOfKeyO k' π with
        | some t =>
          have hsame := idxOfKeyO_append_some k' [o] π t hfind
          have htlt : t < π.length := idxOfKeyO_some k' π t hfind
          have hgo := getO_append_lt π [o] t htlt
          simp [hfind, hsame, hgo]
        | none =>
          have hone : o.1.key ≠ some k' := by
            rw [hk]
            intro h
            have hkeq : k = k' := Option.some.inj h
            exact hqq (keyedKeys_pos_inj mid2 k q' q hnd2 (hm ▸ hq')
              (hm ▸ hqlt) (hkeq ▸ hq2k) hq2key)
          have hmiss2 := idxOfKeyO_append_miss k' o hone π hfind
          simp [hfind, hmiss2]
  · show st.patched + 1 = (π ++ [o]).length
    rw [inv.pat, List.length_append, List.length_cons, List.length_nil]
  · exact inv.ctn
  · exact inv.unm
  · show (if st.maxNew ≤ s1 + q then s1 + q else st.maxNew) =
      (niList s1 mid2 (π ++ [o])).foldl max 0
    rw [hnil, foldl_max_append_one, ← inv.mx, Nat.max_def]
  · intro hmv
    show (niList s1 mid2 (π ++ [o])).Pairwise (· < ·)
    by_cases hcmp : st.maxNew ≤ s1 + q
    · rw [if_pos hcmp] at hmv
      rw [hnil, List.pairwise_append]
      refine ⟨inv.mv hmv, List.pairwise_singleton _ _, ?_⟩
      intro x hx y hy
      rw [List.mem_singleton.mp hy]
      have h1 := hxle x hx
      have h2 := hxne x hx
      omega
    · rw [if_neg hcmp] at hmv
      cases hmv

theorem getAt_replicate_zero (n q : Nat) :
    getAt (List.replicate n 0) q = 0 := by
  unfold getAt
  rw [List.getD_eq_getElem?_getD, List.getElem?_replicate]
  split <;> rfl

theorem inv52_run (s1 m : Nat) (mid2 : List KNode) (container : List Nat)
    (km : List (Nat × Nat))
    (hkm : ∀ k, kmapGet km k = (idxOfKeyN k mid2).map (fun q => s1 + q))
    (hm : mid2.length = m) (hnd2 : (keyedKeys mid2).Nodup)
    (mid1 : List (KNode × Nat)) (hm1 : mid1.length = m)
    (hks : ∀ o' ∈ mid1, (o'.1.key).isSome = true)
    (hnd1 : (keyedKeysO mid1).Nodup)
    (hsub : ∀ k, k ∈ keyedKeysO mid1 → k ∈ keyedKeys mid2) :
    ∀ (ρ π : List (KNode × Nat)), π ++ ρ = mid1 → ∀ st : S52,
      Inv52 s1 m mid2 container π st →
      Inv52 s1 m mid2 container mid1
        ((List.enumFrom (s1 + π.length) ρ).foldl
          (fun st p => step52 s1 m km mid2 st p.1 p.2) st) := by
  intro ρ
  induction ρ with
  | nil =>
    intro π heq st hinv
    rw [List.append_nil] at heq
    subst heq
    simpa using hinv
  | cons o ρ' ih =>
    intro π heq st hinv
    have hks' : ∀ o' ∈ π ++ o :: ρ', (o'.1.key).isSome = true := by
      rw [heq]
      exact hks
    have hnd1' : (keyedKeysO (π ++ o :: ρ')).Nodup := by
      rw [heq]
      exact hnd1
    have hsub' : ∀ k, k ∈ keyedKeysO (π ++ o :: ρ') → k ∈ keyedKeys mid2 := by
      rw [heq]
      exact hsub
    have hlen' : π.length + (o :: ρ').length = m := by
      rw [← hm1, ← heq, List.length_append]
    have hstep := inv52_step s1 m mid2 container km hkm hm hnd2 π ρ' o
      hlen' hks' hnd1' hsub' st hinv
    have heq' : (π ++ [o]) ++ ρ' = mid1 := by
      rw [List.append_assoc]
      simpa using heq
    have hlast := ih (π ++ [o]) heq' _ hstep
    simpa [List.enumFrom_cons, Nat.add_assoc] using hlast

theorem run52_spec (dev : Bool) (s1 : Nat) (mid1 : List (KNode × Nat))
    (mid2 : List KNode) (container : List Nat)
    (hm1 : mid1.length = mid2.length)
    (hks : ∀ o' ∈ mid1, (o'.1.key).isSome = true)
    (hnd1 : (keyedKeysO mid1).Nodup)
    (hnd2 : (keyedKeys mid2).Nodup)
    (hsub : ∀ k, k ∈ keyedKeysO mid1 → k ∈ keyedKeys mid2) :
    Inv52 s1 mid2.length mid2 container mid1
      (run52 s1 mid2.length (buildKeyMap dev s1 mid2).1 mid1 mid2
        container) := by
  have hkm : ∀ k, kmapGet (buildKeyMap dev s1 mid2).1 k =
      (idxOfKeyN k mid2).map (fun q => s1 + q) :=
    fun k => kmapGet_buildKeyMap dev s1 mid2 hnd2 k
  have hinit : Inv52 s1 mid2.length mid2 container []
      { map := List.replicate mid2.length 0,
        newEls := List.replicate mid2.length none,
        moved := false, maxNew := 0, patched := 0,
        container := container, unmounts := 0 } := by
    refine ⟨List.length_replicate _ _, ?_, List.length_replicate _ _, ?_,
      rfl, rfl, rfl, rfl, ?_⟩
    · intro q hq
      show getAt (List.replicate mid2.length 0) q = mapSpec s1 mid2 [] q
      rw [getAt_replicate_zero]
      unfold mapSpec
      cases (getK mid2 q).key with
      | none => rfl
      | some k => simp [idxOfKeyO]
    · intro q hq
      show (List.replicate mid2.length (none : Option Nat)).getD q none =
        elsSpec mid2 [] q
      rw [getD_replicate_none]
      unfold elsSpec
      cases (getK mid2 q).key with
      | none => rfl
      | some k => simp [idxOfKeyO]
    · intro _
      exact List.Pairwise.nil
  have h := inv52_run s1 mid2.length mid2 container _ hkm rfl hnd2 mid1
    hm1 hks hnd1 hsub mid1 [] rfl _ hinit
  simpa [run52] using h

theorem idxOfKeyO_at (k : Nat) :
    ∀ (os : List (KNode × Nat)) (t : Nat), (keyedKeysO os).Nodup →
      t < os.length → (getO os t).1.key = some k →
      idxOfKeyO k os = some t := by
  intro os
  induction os with
  | nil => intro t _ h; simp at h
  | cons o rest ih =>
    intro t hnd ht hkey
    cases t with
    | zero =>
      have : o.1.key = some k := hkey
      rw [idxOfKeyO, if_pos this]
    | succ t' =>
      rw [getO_cons_succ] at hkey
      have ht' : t' < rest.length := by simpa using ht
      have hkrest : k ∈ keyedKeysO rest :=
        (mem_keyedKeysO rest k).mpr ⟨getO rest t', getO_mem rest t' ht', hkey⟩
      have hne : o.1.key ≠ some k := by
        intro hc
        have : keyedKeysO (o :: rest) = k :: keyedKeysO rest := by
          simp [keyedKeysO, hc]
        rw [this, List.nodup_cons] at hnd
        exact hnd.1 hkrest
      have hndrest : (keyedKeysO rest).Nodup := by
        cases hnk : o.1.key with
        | none =>
          have : keyedKeysO (o :: rest) = keyedKeysO rest := by
            simp [keyedKeysO, hnk]
          rwa [this] at hnd
        | some k' =>
          have : keyedKeysO (o :: rest) = k' :: keyedKeysO rest := by
            simp [keyedKeysO, hnk]
          rw [this, List.nodup_cons] at hnd
          exact hnd.2
      rw [idxOfKeyO, if_neg hne, ih t' hndrest ht' hkey]
      rfl

/-- When every entry of `π` is matched, `niList` is a plain `map`. -/
theorem niList_eq_map_of_matched (s1 : Nat) (mid2 : List KNode) :
    ∀ π : List (KNode × Nat),
    (∀ o ∈ π, ((o.1.key).bind (fun k => idxOfKeyN k mid2)).isSome = true) →
    niList s1 mid2 π =
      π.map (fun o =>
        s1 + (((o.1.key).bind (fun k => idxOfKeyN k mid2)).getD 0)) := by
  intro π
  induction π with
  | nil => intro _; rfl
  | cons o rest ih =>
    intro hall
    have ho := hall o (List.mem_cons_self o rest)
    rcases Option.isSome_iff_exists.mp ho with ⟨q, hq⟩
    unfold niList
    rw [List.filterMap_cons, List.map_cons]
    have hbind : (o.1.key).bind (fun k => (idxOfKeyN k mid2).map
        (fun q => s1 + q)) = some (s1 + q) := by
      rcases Option.bind_eq_some.mp hq with ⟨k, hk, hkq⟩
      rw [hk]
      simp [hkq]
    rw [hbind]
    have hrest := ih (fun o' ho' => hall o' (List.mem_cons_of_mem _ ho'))
    unfold niList at hrest
    rw [hrest, hq]
    rfl

/-- A strictly monotone self-map of `{0, …, m−1}` is the identity. -/
theorem strictmono_bounded_id (f : Nat → Nat) (m : Nat)
    (hmono : ∀ t t', t < t' → t' < m → f t < f t')
    (hbd : ∀ t, t < m → f t < m) :
    ∀ t, t < m → f t = t := by
  have hge : ∀ t, t < m → t ≤ f t := by
    intro t
    induction t with
    | zero => intro _; exact Nat.zero_le _
    | succ t ihh =>
      intro ht
      have h1 := ihh (by omega)
      have h2 := hmono t (t + 1) (by omega) ht
      omega
  have hchain : ∀ d t, t + d < m → f t + d ≤ f (t + d) := by
    intro d
    induction d with
    | zero =>
      intro t _
      rw [Nat.add_zero, Nat.add_zero]
    | succ d ihh =>
      intro t ht
      have h1 := ihh t (by omega)
      have h2 := hmono (t + d) (t + d + 1) (by omega) (by omega)
      have h3 : t + (d + 1) = t + d + 1 := rfl
      rw [h3]
      omega
  intro t ht
  have h1 := hge t ht
  rcases Nat.eq_zero_or_pos m with hm | hm
  · omega
  · have h2 := hchain (m - 1 - t) t (by omega)
    have h3 := hbd (t + (m - 1 - t)) (by omega)
    omega

/-- In the permutation setting every slot of the final
`newIndexToOldIndexMap` is matched: it holds `oldIndex + 1` for a
(unique) old index. -/
theorem run52_map_matched (s1 : Nat) (mid1 : List (KNode × Nat))
    (mid2 : List KNode) (container : List Nat) (st : S52)
    (inv : Inv52 s1 mid2.length mid2 container mid1 st)
    (hk2 : ∀ n ∈ mid2, (n.key).isSome = true)
    (hsup : ∀ k, k ∈ keyedKeys mid2 → k ∈ keyedKeysO mid1) :
    ∀ q, q < mid2.length → ∃ t, t < mid1.length ∧
      getAt st.map q = s1 + t + 1 := by
  intro q hq
  rcases Option.isSome_iff_exists.mp
    (hk2 (getK mid2 q) (getK_mem mid2 q hq)) with ⟨kq, hkq⟩
  have hmem : kq ∈ keyedKeysO mid1 := by
    refine hsup kq ?_
    rw [mem_keyedKeys]
    exact ⟨getK mid2 q, getK_mem mid2 q hq, hkq⟩
  have hne : idxOfKeyO kq mid1 ≠ none :=
    fun h => ((idxOfKeyO_none_iff kq mid1).mp h) hmem
  rcases Option.ne_none_iff_exists'.mp hne with ⟨t, ht⟩
  refine ⟨t, idxOfKeyO_some kq mid1 t ht, ?_⟩
  rw [inv.mapq q hq]
  unfold mapSpec
  simp [hkq, ht]

/-- If the 5.2 scan never saw an out-of-order new index
(`moved = false`), then in the permutation setting the key assignment is
the identity and the final map is the strictly increasing
`[s1+1, s1+2, …]`. -/
theorem run52_map_incr (s1 : Nat) (mid1 : List (KNode × Nat))
    (mid2 : List KNode) (container : List Nat) (st : S52)
    (inv : Inv52 s1 mid2.length mid2 container mid1 st)
    (hm1 : mid1.length = mid2.length)
    (hnd1 : (keyedKeysO mid1).Nodup)
    (hnd2 : (keyedKeys mid2).Nodup)
    (hk1 : ∀ o ∈ mid1, (o.1.key).isSome = true)
    (hk2 : ∀ n ∈ mid2, (n.key).isSome = true)
    (hsub : ∀ k, k ∈ keyedKeysO mid1 → k ∈ keyedKeys mid2)
    (hmoved : st.moved = false) :
    ∀ q, q < mid2.length → getAt st.map q = s1 + q + 1 := by
  have hall : ∀ o ∈ mid1,
      ((o.1.key).bind (fun k => idxOfKeyN k mid2)).isSome = true := by
    intro o ho
    rcases Option.isSome_iff_exists.mp (hk1 o ho) with ⟨k, hk⟩
    have hmem : k ∈ keyedKeys mid2 := by
      refine hsub k ?_
      rw [mem_keyedKeysO]
      exact ⟨o, ho, hk⟩
    have hne : idxOfKeyN k mid2 ≠ none :=
      fun h => ((idxOfKeyN_none_iff k mid2).mp h) hmem
    rw [hk]
    simpa [Option.isSome_iff_exists] using Option.ne_none_iff_exists'.mp hne
  have hPW : (mid1.map (fun o =>
      s1 + (((o.1.key).bind (fun k => idxOfKeyN k mid2)).getD 0))).Pairwise
      (· < ·) := by
    rw [← niList_eq_map_of_matched s1 mid2 mid1 hall]
    exact inv.mv hmoved
  have hmono : ∀ t t', t < t' → t' < mid2.length →
      (((getO mid1 t).1.key.bind (fun k => idxOfKeyN k mid2)).getD 0) <
      (((getO mid1 t').1.key.bind (fun k => idxOfKeyN k mid2)).getD 0) := by
    intro t t' htt ht'
    have hlen : (mid1.map (fun o =>
        s1 + (((o.1.key).bind (fun k => idxOfKeyN k mid2)).getD 0))).length =
        mid1.length := List.length_map _ _
    have ht'1 : t' < mid1.length := by omega
    have ht1 : t < mid1.length := by omega
    have h := (List.pairwise_iff_getElem.mp hPW) t t'
      (by rw [hlen]; exact ht1) (by rw [hlen]; exact ht'1) htt
    rw [List.getElem_map, List.getElem_map] at h
    rw [getO_eq_getElem mid1 t ht1, getO_eq_getElem mid1 t' ht'1]
    omega
  have hbd : ∀ t, t < mid2.length →
      (((getO mid1 t).1.key.bind (fun k => idxOfKeyN k mid2)).getD 0) <
        mid2.length := by
    intro t ht
    have ht1 : t < mid1.length := by omega
    have h := hall (getO mid1 t) (getO_mem mid1 t ht1)
    rcases Option.isSome_iff_exists.mp h with ⟨q', hq'⟩
    rcases Option.bind_eq_some.mp hq' with ⟨k, hk, hkq⟩
    rw [hq']
    simpa using (idxOfKeyN_some k mid2 q' hkq).1
  have hid := strictmono_bounded_id _ mid2.length hmono hbd
  intro q hq
  have hq1 : q < mid1.length := by omega
  rcases Option.isSome_iff_exists.mp
    (hk1 (getO mid1 q) (getO_mem mid1 q hq1)) with ⟨k', hk'⟩
  have hfq := hid q hq
  rw [hk'] at hfq
  simp only [Option.some_bind] at hfq
  have hsome : (idxOfKeyN k' mid2).isSome = true := by
    have h := hall (getO mid1 q) (getO_mem mid1 q hq1)
    rwa [hk'] at h
  rcases Option.isSome_iff_exists.mp hsome with ⟨q', hq'⟩
  have hqq : q' = q := by
    rw [hq'] at hfq
    simpa using hfq
  subst hqq
  have hkey2 : (getK mid2 q').key = some k' := (idxOfKeyN_some k' mid2 q' hq').2
  have hidx : idxOfKeyO k' mid1 = some q' :=
    idxOfKeyO_at k' mid1 q' hnd1 hq1 hk'
  rw [inv.mapq q' hq]
  unfold mapSpec
  simp [hkey2, hidx]

theorem isNZChain_length_le (arr c : List Nat) (hc : IsNZChain arr c) :
    c.length ≤ arr.length := by
  have hnd : c.Nodup := List.Pairwise.imp (fun h => Nat.ne_of_lt h) hc.1
  have hsub : c.toFinset ⊆ Finset.range arr.length := by
    intro x hx
    rw [List.mem_toFinset] at hx
    rw [Finset.mem_range]
    exact (hc.2.1 x hx).1
  have hcard := Finset.card_le_card hsub
  rw [Finset.card_range] at hcard
  rw [← List.toFinset_card_of_nodup hnd]
  exact hcard

/-- A strictly increasing map admits the full position range as a
non-zero chain. -/
theorem range_isNZChain (arr : List Nat) (s1 : Nat)
    (hval : ∀ q, q < arr.length → getAt arr q = s1 + q + 1) :
    IsNZChain arr (List.range arr.length) := by
  refine ⟨List.pairwise_lt_range _, ?_, ?_⟩
  · intro i hi
    rw [List.mem_range] at hi
    refine ⟨hi, ?_⟩
    rw [hval i hi]
    omega
  · rw [List.pairwise_iff_getElem]
    intro i j hi hj hij
    rw [List.length_range] at hi hj
    rw [List.getElem_range, List.getElem_range, hval i hi, hval j hj]
    omega

theorem sorted_countP_bound (seq : List Nat) :
    ∀ n t : Nat, seq.Pairwise (· < ·) →
      t < seq.countP (fun x => decide (x < n)) →
      t < seq.length ∧ getAt seq t < n := by
  induction seq with
  | nil =>
    intro n t _ h
    simp [List.countP_nil] at h
  | cons y l ih =>
    intro n t hs ht
    rw [List.countP_cons] at ht
    have hcons := List.pairwise_cons.mp hs
    by_cases hy : y < n
    · rw [if_pos (decide_eq_true hy)] at ht
      cases t with
      | zero => exact ⟨Nat.succ_pos _, hy⟩
      | succ t' =>
        have h := ih n t' hcons.2 (by omega)
        refine ⟨by simpa using Nat.succ_lt_succ h.1, ?_⟩
        show getAt l t' < n
        exact h.2
    · rw [if_neg (by simpa using hy)] at ht
      have hl0 : l.countP (fun x => decide (x < n)) = 0 := by
        rw [List.countP_eq_zero]
        intro a ha
        have hya := hcons.1 a ha
        simp only [decide_eq_true_eq]
        omega
      rw [hl0] at ht
      omega

theorem sorted_countP_mem (seq : List Nat) (hs : seq.Pairwise (· < ·))
    (i : Nat) (hmem : i ∈ seq) :
    seq.countP (fun x => decide (x < i + 1)) =
      seq.countP (fun x => decide (x < i)) + 1 ∧
    getAt seq (seq.countP (fun x => decide (x < i))) = i := by
  induction seq with
  | nil => cases hmem
  | cons y l ih =>
    have hcons := List.pairwise_cons.mp hs
    rcases List.mem_cons.mp hmem with hy | hy
    · subst hy
      have hl1 : l.countP (fun x => decide (x < i + 1)) = 0 := by
        rw [List.countP_eq_zero]
        intro a ha
        have := hcons.1 a ha
        simp only [decide_eq_true_eq]
        omega
      have hl0 : l.countP (fun x => decide (x < i)) = 0 := by
        rw [List.countP_eq_zero]
        intro a ha
        have := hcons.1 a ha
        simp only [decide_eq_true_eq]
        omega
      rw [List.countP_cons, List.countP_cons, hl1, hl0,
        if_pos (decide_eq_true (by omega : i < i + 1)),
        if_neg (by simp : ¬ (decide (i < i) = true))]
      exact ⟨rfl, rfl⟩
    · have hyi : y < i := hcons.1 i hy
      have h := ih hcons.2 hy
      rw [List.countP_cons, List.countP_cons,
        if_pos (decide_eq_true (by omega : y < i + 1)),
        if_pos (decide_eq_true hyi)]
      refine ⟨by omega, ?_⟩
      show getAt l (l.countP (fun x => decide (x < i))) = i
      exact h.2

theorem sorted_countP_not_mem (seq : List Nat) (i : Nat)
    (hnm : i ∉ seq) :
    seq.countP (fun x => decide (x < i + 1)) =
      seq.countP (fun x => decide (x < i)) := by
  induction seq with
  | nil => rfl
  | cons y l ih =>
    have hyne : y ≠ i := fun h => hnm (h ▸ List.mem_cons_self y l)
    have hns : i ∉ l := fun h => hnm (List.mem_cons_of_mem _ h)
    rw [List.countP_cons, List.countP_cons, ih hns]
    have : (decide (y < i + 1)) = (decide (y < i)) :=
      decide_eq_decide.mpr (by omega)
    rw [this]

theorem sorted_getAt_lower (l : List Nat) :
    ∀ (b : Nat), l.Pairwise (· < ·) → (∀ x ∈ l, b ≤ x) →
      ∀ t, t < l.length → b + t ≤ getAt l t := by
  induction l with
  | nil =>
    intro b _ _ t ht
    simp at ht
  | cons y l ih =>
    intro b hs hb t ht
    have hcons := List.pairwise_cons.mp hs
    cases t with
    | zero => simpa using hb y (List.mem_cons_self y l)
    | succ t' =>
      have h := ih (y + 1) hcons.2 (fun x hx => hcons.1 x hx) t'
        (by simpa using ht)
      have hby : b ≤ y := hb y (List.mem_cons_self y l)
      show b + (t' + 1) ≤ getAt l t'
      omega

theorem sorted_countP_le (seq : List Nat) (hs : seq.Pairwise (· < ·))
    (i : Nat) : seq.countP (fun x => decide (x < i)) ≤ i := by
  by_contra h
  push_neg at h
  have hb := sorted_countP_bound seq i i hs h
  have hl := sorted_getAt_lower seq 0 hs (fun x _ => Nat.zero_le x) i hb.1
  omega

/-- The backwards loop of phase 5.3 with `moved` set performs one move
per processed index that is matched but not on the stable sequence:
`i − countP(<i)` moves for the indices below `i`, and no mounts, when
every map entry is non-zero. -/
theorem step53_count (seq map : List Nat) (m : Nat) (aa : Option Nat)
    (hs : seq.Pairwise (· < ·)) (hbd : ∀ x ∈ seq, x < m)
    (hnz : ∀ q, q < m → getAt map q ≠ 0) :
    ∀ i, i ≤ m → ∀ st : S53,
      (step53 true seq map m aa i
        ((seq.countP (fun x => decide (x < i)) : Int) - 1) st).moves =
        st.moves + (i - seq.countP (fun x => decide (x < i))) ∧
      (step53 true seq map m aa i
        ((seq.countP (fun x => decide (x < i)) : Int) - 1) st).mounts =
        st.mounts := by
  intro i
  induction i with
  | zero =>
    intro _ st
    have h0 : seq.countP (fun x => decide (x < 0)) = 0 := by
      rw [List.countP_eq_zero]
      intro a _
      simp
    rw [h0]
    exact ⟨by show st.moves = st.moves + (0 - 0); rfl, rfl⟩
  | succ i ih =>
    intro hi st
    have hil : i < m := by omega
    have hnz_i := hnz i hil
    by_cases hmem : i ∈ seq
    · rcases sorted_countP_mem seq hs i hmem with ⟨hcnt, hat⟩
      have hc1 : 0 < seq.countP (fun x => decide (x < i + 1)) := by omega
      have hcond : ¬ (((seq.countP (fun x => decide (x < i + 1)) : Int) - 1)
          < 0 ∨ i ≠ getAt seq
            ((seq.countP (fun x => decide (x < i + 1)) : Int) - 1).toNat) := by
        rw [not_or]
        constructor
        · omega
        · rw [not_not]
          have htn : ((seq.countP (fun x => decide (x < i + 1)) : Int)
              - 1).toNat = seq.countP (fun x => decide (x < i)) := by omega
          rw [htn, hat]
      have hj : ((seq.countP (fun x => decide (x < i + 1)) : Int) - 1) - 1 =
          (seq.countP (fun x => decide (x < i)) : Int) - 1 := by
        rw [hcnt]
        push_cast
        ring
      have hred : step53 true seq map m aa (i + 1)
          ((seq.countP (fun x => decide (x < i + 1)) : Int) - 1) st =
          step53 true seq map m aa i
          ((seq.countP (fun x => decide (x < i)) : Int) - 1) st := by
        rw [show step53 true seq map m aa (i + 1)
            ((seq.countP (fun x => decide (x < i + 1)) : Int) - 1) st =
            step53 true seq map m aa i
            (((seq.countP (fun x => decide (x < i + 1)) : Int) - 1) - 1) st
          from by simp only [step53]; rw [if_neg hnz_i, if_pos trivial,
            if_neg hcond], hj]
      rw [hred]
      rcases ih (by omega) st with ⟨h1, h2⟩
      refine ⟨?_, h2⟩
      rw [h1]
      have hle := sorted_countP_le seq hs i
      omega
    · have hcnt := sorted_countP_not_mem seq i hmem
      have hcle := sorted_countP_le seq hs i
      have hcond : (((seq.countP (fun x => decide (x < i + 1)) : Int) - 1)
          < 0 ∨ i ≠ getAt seq
            ((seq.countP (fun x => decide (x < i + 1)) : Int) - 1).toNat) := by
        rw [hcnt]
        rcases Nat.eq_zero_or_pos (seq.countP (fun x => decide (x < i)))
          with h0 | hpos
        · left
          omega
        · right
          have htn : ((seq.countP (fun x => decide (x < i)) : Int) - 1).toNat
              = seq.countP (fun x => decide (x < i)) - 1 := by omega
          rw [htn]
          have hb := sorted_countP_bound seq i
            (seq.countP (fun x => decide (x < i)) - 1) hs (by omega)
          intro hcontra
          exact hmem (hcontra ▸ getAt_mem seq _ hb.1)
      have hred : step53 true seq map m aa (i + 1)
          ((seq.countP (fun x => decide (x < i + 1)) : Int) - 1) st =
          step53 true seq map m aa i
          ((seq.countP (fun x => decide (x < i)) : Int) - 1)
          { st with
            container := hostInsert st.container
              ((st.newEls.getD i none).getD 0)
              (if i + 1 < m then st.newEls.getD (i + 1) none else aa),
            moves := st.moves + 1 } := by
        rw [show step53 true seq map m aa (i + 1)
            ((seq.countP (fun x => decide (x < i + 1)) : Int) - 1) st =
            step53 true seq map m aa i
            ((seq.countP (fun x => decide (x < i + 1)) : Int) - 1)
            { st with
              container := hostInsert st.container
                ((st.newEls.getD i none).getD 0)
                (if i + 1 < m then st.newEls.getD (i + 1) none else aa),
              moves := st.moves + 1 }
          from by simp only [step53]; rw [if_neg hnz_i, if_pos trivial,
            if_pos hcond], hcnt]
      rw [hred]
      rcases ih (by omega)
        { st with
          container := hostInsert st.container
            ((st.newEls.getD i none).getD 0)
            (if i + 1 < m then st.newEls.getD (i + 1) none else aa),
          moves := st.moves + 1 } with ⟨h1, h2⟩
      refine ⟨?_, ?_⟩
      · rw [h1, hcnt]
        show st.moves + 1 + (i - seq.countP (fun x => decide (x < i))) =
          st.moves + (i + 1 - seq.countP (fun x => decide (x < i)))
        omega
      · rw [h2]

/-- With `moved` unset and every map entry non-zero, the backwards loop
does nothing at all. -/
theorem step53_unmoved (seq map : List Nat) (m : Nat) (aa : Option Nat)
    (hnz : ∀ q, q < m → getAt map q ≠ 0) :
    ∀ i, i ≤ m → ∀ (j : Int) (st : S53),
      step53 false seq map m aa i j st = st := by
  intro i
  induction i with
  | zero =>
    intro _ j st
    rfl
  | succ i ih =>
    intro hi j st
    have hnz_i := hnz i (by omega)
    rw [show step53 false seq map m aa (i + 1) j st =
        step53 false seq map m aa i j st
      from by simp only [step53]; rw [if_neg hnz_i]; simp]
    exact ih (by omega) j st

theorem syncLen_nil_left (ns : List KNode) : syncLen [] ns = 0 := by
  cases ns <;> rfl

theorem syncLen_nil_right (o : KNode × Nat) (os : List (KNode × Nat)) :
    syncLen (o :: os) [] = 0 := rfl

theorem syncLen_cons (o : KNode × Nat) (os : List (KNode × Nat))
    (n : KNode) (ns : List KNode) :
    syncLen (o :: os) (n :: ns) =
      if sameK o.1 n then syncLen os ns + 1 else 0 := rfl

theorem syncLen_le_left (os : List (KNode × Nat)) :
    ∀ ns : List KNode, syncLen os ns ≤ os.length := by
  induction os with
  | nil =>
    intro ns
    rw [syncLen_nil_left]
    exact Nat.zero_le _
  | cons o os ih =>
    intro ns
    cases ns with
    | nil => rw [syncLen_nil_right]; exact Nat.zero_le _
    | cons n ns =>
      rw [syncLen_cons]
      by_cases h : sameK o.1 n
      · rw [if_pos h, List.length_cons]
        exact Nat.succ_le_succ (ih ns)
      · rw [if_neg h]
        exact Nat.zero_le _

theorem syncLen_le_right (os : List (KNode × Nat)) :
    ∀ ns : List KNode, syncLen os ns ≤ ns.length := by
  induction os with
  | nil =>
    intro ns
    rw [syncLen_nil_left]
    exact Nat.zero_le _
  | cons o os ih =>
    intro ns
    cases ns with
    | nil => rw [syncLen_nil_right]; exact Nat.zero_le _
    | cons n ns =>
      rw [syncLen_cons]
      by_cases h : sameK o.1 n
      · rw [if_pos h, List.length_cons]
        exact Nat.succ_le_succ (ih ns)
      · rw [if_neg h]
        exact Nat.zero_le _

/-- The head-synced prefixes are equal node lists. -/
theorem syncLen_take_map (os : List (KNode × Nat)) :
    ∀ ns : List KNode,
      (os.take (syncLen os ns)).map Prod.fst = ns.take (syncLen os ns) := by
  induction os with
  | nil =>
    intro ns
    rw [syncLen_nil_left]
    rfl
  | cons o os ih =>
    intro ns
    cases ns with
    | nil => rw [syncLen_nil_right]; rfl
    | cons n ns =>
      rw [syncLen_cons]
      by_cases h : sameK o.1 n
      · rw [if_pos h]
        have ho : o.1 = n := (sameK_iff_eq o.1 n).mp h
        show (o :: os.take (syncLen os ns)).map Prod.fst =
          n :: ns.take (syncLen os ns)
        rw [List.map_cons, ih ns, ho]
      · rw [if_neg h]
        rfl

/-- Dropping the equal synced prefix preserves the permutation. -/
theorem perm_drop_sync (c1 : List (KNode × Nat)) (c2 : List KNode)
    (hperm : (c1.map Prod.fst).Perm c2) :
    ((c1.drop (syncLen c1 c2)).map Prod.fst).Perm
      (c2.drop (syncLen c1 c2)) := by
  have htake := syncLen_take_map c1 c2
  have hperm2 : ((c2.take (syncLen c1 c2)) ++
      (c1.drop (syncLen c1 c2)).map Prod.fst).Perm
      ((c2.take (syncLen c1 c2)) ++ c2.drop (syncLen c1 c2)) := by
    have e1 : (c2.take (syncLen c1 c2)) ++
        (c1.drop (syncLen c1 c2)).map Prod.fst = c1.map Prod.fst := by
      rw [← htake, ← List.map_append, List.take_append_drop]
    have e2 : (c2.take (syncLen c1 c2)) ++ c2.drop (syncLen c1 c2) = c2 :=
      List.take_append_drop _ _
    rw [e1, e2]
    exact hperm
  exact (List.perm_append_left_iff _).mp hperm2

/-- Cutting the equal tail-synced suffix preserves the permutation. -/
theorem perm_take_front (d1 : List (KNode × Nat)) (d2 : List KNode)
    (hd : (d1.map Prod.fst).Perm d2) :
    ((d1.take (d1.length - syncLen d1.reverse d2.reverse)).map
      Prod.fst).Perm
      (d2.take (d2.length - syncLen d1.reverse d2.reverse)) := by
  have htk := syncLen_take_map d1.reverse d2.reverse
  rw [List.take_reverse, List.take_reverse, List.map_reverse] at htk
  have hsuf : ((d1.drop (d1.length - syncLen d1.reverse d2.reverse)).map
      Prod.fst) = d2.drop (d2.length - syncLen d1.reverse d2.reverse) :=
    List.reverse_inj.mp htk
  have hperm2 : (((d1.take (d1.length - syncLen d1.reverse d2.reverse)).map
      Prod.fst) ++
      (d2.drop (d2.length - syncLen d1.reverse d2.reverse))).Perm
      ((d2.take (d2.length - syncLen d1.reverse d2.reverse)) ++
      (d2.drop (d2.length - syncLen d1.reverse d2.reverse))) := by
    have e1 : ((d1.take (d1.length - syncLen d1.reverse d2.reverse)).map
        Prod.fst) ++
        (d2.drop (d2.length - syncLen d1.reverse d2.reverse)) =
        d1.map Prod.fst := by
      rw [← hsuf, ← List.map_append, List.take_append_drop]
    have e2 : (d2.take (d2.length - syncLen d1.reverse d2.reverse)) ++
        (d2.drop (d2.length - syncLen d1.reverse d2.reverse)) = d2 :=
      List.take_append_drop _ _
    rw [e1, e2]
    exact hd
  exact (List.perm_append_right_iff _).mp hperm2

/-- C1 (amended): for every keyed-children diff where the new list is a
permutation of the old (all nodes keyed, distinct keys), no mounts or
unmounts occur and the number of host move operations equals the length
of `newIndexToOldIndexMap` minus the length of the longest increasing
subsequence `getSequence` extracts from it — the map covers only the
unsynced middle, so the base of the subtraction is the length of the
mapping array, not the length of the child list.  When the middle is
empty, no move occurs. -/
theorem keyed_permutation_moves (dev : Bool) (c1 : List (KNode × Nat))
    (c2 : List KNode) (container : List Nat) (pa : Option Nat) (ne : Nat)
    (hperm : (c1.map Prod.fst).Perm c2)
    (hkey : ∀ n ∈ c2, (n.key).isSome = true)
    (hnd : (keyedKeys c2).Nodup) :
    (patchKeyedChildren dev c1 c2 container pa ne).mounts = 0 ∧
    (patchKeyedChildren dev c1 c2 container pa ne).unmounts = 0 ∧
    ((patchKeyedChildren dev c1 c2 container pa ne).map = [] →
      (patchKeyedChildren dev c1 c2 container pa ne).moves = 0) ∧
    ((patchKeyedChildren dev c1 c2 container pa ne).map ≠ [] →
      IsNZChain (patchKeyedChildren dev c1 c2 container pa ne).map
        (getSequence (patchKeyedChildren dev c1 c2 container pa ne).map) ∧
      (∀ c, IsNZChain (patchKeyedChildren dev c1 c2 container pa ne).map
        c → c.length ≤
        (getSequence (patchKeyedChildren dev c1 c2 container pa
          ne).map).length) ∧
      (patchKeyedChildren dev c1 c2 container pa ne).moves =
        (patchKeyedChildren dev c1 c2 container pa ne).map.length -
        (getSequence (patchKeyedChildren dev c1 c2 container pa
          ne).map).length) := by
  have hpermd := perm_drop_sync c1 c2 hperm
  have hpermm := perm_take_front (c1.drop (syncLen c1 c2))
    (c2.drop (syncLen c1 c2)) hpermd
  rw [List.length_drop, List.length_drop] at hpermm
  obtain ⟨r, hr⟩ : ∃ r, patchKeyedChildren dev c1 c2 container pa ne = r :=
    ⟨_, rfl⟩
  rw [hr]
  simp only [patchKeyedChildren] at hr
  set i := syncLen c1 c2 with hidef
  set s := syncLen ((c1.drop i).reverse) ((c2.drop i).reverse) with hsdef
  set mid1 := (c1.drop i).take (c1.length - i - s) with hm1def
  set mid2 := (c2.drop i).take (c2.length - i - s) with hm2def
  by_cases hE1 : mid1.isEmpty = true
  · rw [if_pos hE1] at hr
    have hmid1nil : mid1 = [] := List.isEmpty_iff.mp hE1
    have hmid2nil : mid2 = [] := by
      rw [hmid1nil] at hpermm
      exact hpermm.symm.eq_nil
    subst hr
    refine ⟨?_, rfl, fun _ => rfl, fun h => absurd rfl h⟩
    show mid2.length = 0
    rw [hmid2nil]
    rfl
  · rw [if_neg hE1] at hr
    by_cases hE2 : mid2.isEmpty = true
    · exfalso
      have hmid2nil : mid2 = [] := List.isEmpty_iff.mp hE2
      rw [hmid2nil] at hpermm
      have := List.map_eq_nil_iff.mp hpermm.eq_nil
      exact hE1 (by rw [this]; rfl)
    · rw [if_neg hE2] at hr
      set st52 := run52 i mid2.length (buildKeyMap dev i mid2).1 mid1 mid2
        container with h52def
      -- middle-level hypotheses
      have hm12 : mid1.length = mid2.length := by
        have h := hpermm.length_eq
        rwa [List.length_map] at h
      have hsub2 : mid2.Sublist c2 :=
        (List.take_sublist _ _).trans (List.drop_sublist _ _)
      have hk2M : ∀ n ∈ mid2, (n.key).isSome = true :=
        fun n hn => hkey n (hsub2.subset hn)
      have hnd2M : (keyedKeys mid2).Nodup := by
        have hkk : (keyedKeys mid2).Sublist (keyedKeys c2) :=
          List.Sublist.filterMap _ hsub2
        exact List.Nodup.sublist hkk hnd
      have hkeysPerm : (keyedKeysO mid1).Perm (keyedKeys mid2) := by
        rw [keyedKeysO_eq]
        exact hpermm.filterMap (fun n => n.key)
      have hnd1M : (keyedKeysO mid1).Nodup := hkeysPerm.nodup_iff.mpr hnd2M
      have hk1M : ∀ o ∈ mid1, (o.1.key).isSome = true := by
        intro o ho
        refine hk2M o.1 (hpermm.mem_iff.mp ?_)
        exact List.mem_map.mpr ⟨o, ho, rfl⟩
      have hsubM : ∀ k, k ∈ keyedKeysO mid1 → k ∈ keyedKeys mid2 :=
        fun k hk => hkeysPerm.mem_iff.mp hk
      have hsupM : ∀ k, k ∈ keyedKeys mid2 → k ∈ keyedKeysO mid1 :=
        fun k hk => hkeysPerm.mem_iff.mpr hk
      have inv : Inv52 i mid2.length mid2 container mid1 st52 := by
        rw [h52def]
        exact run52_spec dev i mid1 mid2 container hm12 hk1M hnd1M hnd2M
          hsubM
      have hne2 : mid2 ≠ [] := fun h => by rw [h] at hE2; exact hE2 rfl
      have hm : 0 < mid2.length := List.length_pos.mpr hne2
      have hmatched := run52_map_matched i mid1 mid2 container st52 inv
        hk2M hsupM
      have hnz : ∀ q, q < mid2.length → getAt st52.map q ≠ 0 := by
        intro q hq
        rcases hmatched q hq with ⟨t, _, hval⟩
        omega
      have maplen : st52.map.length = mid2.length := inv.maplen
      have hmapne : st52.map ≠ [] := by
        intro h
        rw [h] at maplen
        simp at maplen
        omega
      have h0 : getAt st52.map 0 ≠ 0 := hnz 0 hm
      have hNZ := getSequence_isNZChain st52.map hmapne h0
      have hmax := getSequence_maximal st52.map hmapne
      have hnzmap : ∀ q, q < st52.map.length → getAt st52.map q ≠ 0 := by
        intro q hq
        rw [maplen] at hq
        exact hnz q hq
      cases hmv : st52.moved with
      | true =>
        simp only [hmv, eq_self_iff_true, if_true] at hr
        have hbounds : ∀ x ∈ getSequence st52.map, x < mid2.length := by
          intro x hx
          have := (hNZ.2.1 x hx).1
          omega
        have hcp : (getSequence st52.map).countP
            (fun x => decide (x < mid2.length)) =
            (getSequence st52.map).length :=
          List.countP_eq_length.mpr
            (fun x hx => decide_eq_true (hbounds x hx))
        have hcount := step53_count (getSequence st52.map) st52.map
          mid2.length
          ((((c1.drop (c1.length - s)).map (fun o => some o.2)).headD pa))
          hNZ.1 hbounds hnz mid2.length (Nat.le_refl _)
          ⟨st52.container, st52.newEls, ne, 0, 0⟩
        rw [hcp] at hcount
        subst hr
        refine ⟨hcount.2, inv.unm, fun h => absurd h hmapne, fun _ =>
          ⟨hNZ, hmax, ?_⟩⟩
        show (step53 true (getSequence st52.map) st52.map mid2.length
          _ mid2.length _ _).moves = st52.map.length -
          (getSequence st52.map).length
        rw [hcount.1, maplen]
        exact Nat.zero_add _
      | false =>
        simp only [hmv, Bool.false_eq_true, if_false] at hr
        have hstep := step53_unmoved [] st52.map mid2.length
          ((((c1.drop (c1.length - s)).map (fun o => some o.2)).headD pa))
          hnz mid2.length (Nat.le_refl _)
          ((([] : List Nat).length : Int) - 1)
          ⟨st52.container, st52.newEls, ne, 0, 0⟩
        rw [hstep] at hr
        have hincr := run52_map_incr i mid1 mid2 container st52 inv hm12
          hnd1M hnd2M hk1M hk2M hsubM hmv
        have hchain := range_isNZChain st52.map i (fun q hq => by
          rw [maplen] at hq
          exact hincr q hq)
        have hge := hmax (List.range st52.map.length) hchain
        rw [List.length_range] at hge
        have hle := isNZChain_length_le st52.map (getSequence st52.map) hNZ
        subst hr
        refine ⟨rfl, inv.unm, fun h => absurd h hmapne, fun _ =>
          ⟨hNZ, hmax, ?_⟩⟩
        show (0 : Nat) = st52.map.length - (getSequence st52.map).length
        omega

/-- C1 counterexample to the full-list reading: for old `[a,b,c]` and
new `[a,c,b]` the head sync leaves a two-slot middle; exactly one move
is performed, but `length(list) − length(LIS of the mapping array)`
computed with the full list length is `3 − 1 = 2`.  The correct base is
the length of `newIndexToOldIndexMap` itself (`2 − 1 = 1`). -/
theorem keyed_moves_not_list_length :
    (patchKeyedChildren true
      [(⟨0, some 1⟩, 10), (⟨0, some 2⟩, 11), (⟨0, some 3⟩, 12)]
      [⟨0, some 1⟩, ⟨0, some 3⟩, ⟨0, some 2⟩]
      [10, 11, 12] none 13).moves = 1 ∧
    (patchKeyedChildren true
      [(⟨0, some 1⟩, 10), (⟨0, some 2⟩, 11), (⟨0, some 3⟩, 12)]
      [⟨0, some 1⟩, ⟨0, some 3⟩, ⟨0, some 2⟩]
      [10, 11, 12] none 13).map = [3, 2] ∧
    ([⟨0, some 1⟩, ⟨0, some 3⟩, ⟨0, some 2⟩] : List KNode).length -
      (getSequence (patchKeyedChildren true
        [(⟨0, some 1⟩, 10), (⟨0, some 2⟩, 11), (⟨0, some 3⟩, 12)]
        [⟨0, some 1⟩, ⟨0, some 3⟩, ⟨0, some 2⟩]
        [10, 11, 12] none 13).map).length = 2 := by decide

/-- Closed instance of `keyed_permutation_moves` at Scenario 1 (old
`[a,b,c]`, new `[c,a,b]`): the move count obeys the LIS formula and
equals 1, with no mounts or unmounts. -/
theorem keyed_permutation_moves_witness :
    (patchKeyedChildren true
      [(⟨0, some 1⟩, 10), (⟨0, some 2⟩, 11), (⟨0, some 3⟩, 12)]
      [⟨0, some 3⟩, ⟨0, some 1⟩, ⟨0, some 2⟩]
      [10, 11, 12] none 13).mounts = 0 ∧
    (patchKeyedChildren true
      [(⟨0, some 1⟩, 10), (⟨0, some 2⟩, 11), (⟨0, some 3⟩, 12)]
      [⟨0, some 3⟩, ⟨0, some 1⟩, ⟨0, some 2⟩]
      [10, 11, 12] none 13).unmounts = 0 ∧
    (patchKeyedChildren true
      [(⟨0, some 1⟩, 10), (⟨0, some 2⟩, 11), (⟨0, some 3⟩, 12)]
      [⟨0, some 3⟩, ⟨0, some 1⟩, ⟨0, some 2⟩]
      [10, 11, 12] none 13).moves =
      (patchKeyedChildren true
        [(⟨0, some 1⟩, 10), (⟨0, some 2⟩, 11), (⟨0, some 3⟩, 12)]
        [⟨0, some 3⟩, ⟨0, some 1⟩, ⟨0, some 2⟩]
        [10, 11, 12] none 13).map.length -
      (getSequence (patchKeyedChildren true
        [(⟨0, some 1⟩, 10), (⟨0, some 2⟩, 11), (⟨0, some 3⟩, 12)]
        [⟨0, some 3⟩, ⟨0, some 1⟩, ⟨0, some 2⟩]
        [10, 11, 12] none 13).map).length ∧
    (patchKeyedChildren true
      [(⟨0, some 1⟩, 10), (⟨0, some 2⟩, 11), (⟨0, some 3⟩, 12)]
      [⟨0, some 3⟩, ⟨0, some 1⟩, ⟨0, some 2⟩]
      [10, 11, 12] none 13).moves = 1 := by
  have h := keyed_permutation_moves true
    [(⟨0, some 1⟩, 10), (⟨0, some 2⟩, 11), (⟨0, some 3⟩, 12)]
    [⟨0, some 3⟩, ⟨0, some 1⟩, ⟨0, some 2⟩]
    [10, 11, 12] none 13 (by decide) (by decide) (by decide)
  exact ⟨h.1, h.2.1, (h.2.2.2 (by decide)).2.2, by decide⟩

/-!
## C3: list surgery lemmas for the backwards loop

The phase-5.3 proof tracks the container as `prefix ++ middle ++ suffix`
and reasons about `erase`/`insBefore` surgery inside the middle.
-/

theorem sublist_erase_of_not_mem (a : Nat) :
    ∀ (y l : List Nat), l.Sublist y → a ∉ l → l.Sublist (y.erase a) := by
  intro y
  induction y with
  | nil =>
    intro l h _
    simpa using h
  | cons b y ih =>
    intro l h ha
    rw [List.erase_cons]
    simp only [beq_iff_eq]
    rcases List.sublist_cons_iff.mp h with h | ⟨t, rfl, ht⟩
    · by_cases hb : b = a
      · rw [if_pos hb]
        exact h
      · rw [if_neg hb]
        exact (ih l h ha).cons b
    · have hb : b ≠ a := fun hc => ha (hc ▸ List.mem_cons_self b t)
      rw [if_neg hb]
      exact (ih t ht (fun hc => ha (List.mem_cons_of_mem _ hc))).cons₂ b

/-- Erasing the marked element of an embedded `l₁ ++ a :: l₂`. -/
theorem sublist_erase_mid (y l₁ l₂ : List Nat) (a : Nat)
    (h : (l₁ ++ a :: l₂).Sublist y) (hnd : y.Nodup) :
    (l₁ ++ l₂).Sublist (y.erase a) := by
  rcases List.append_sublist_iff.mp h with ⟨r₁, r₂, rfl, h₁, h₂⟩
  rcases List.cons_sublist_iff.mp h₂ with ⟨s₁, s₂, rfl, hmem, h₃⟩
  have hnr₁ : a ∉ r₁ := by
    rw [List.nodup_append] at hnd
    exact fun hc => hnd.2.2 hc (List.mem_append_left _ hmem)
  rw [List.erase_append_right _ hnr₁, List.erase_append_left _ hmem]
  exact List.Sublist.append h₁
    (h₃.trans (List.sublist_append_right _ _))

theorem cons_sublist_right (x : Nat) (l : List Nat) :
    ∀ (w₁ w₂ : List Nat), (x :: l).Sublist (w₁ ++ w₂) → x ∉ w₁ →
      (x :: l).Sublist w₂ := by
  intro w₁
  induction w₁ with
  | nil =>
    intro w₂ h _
    exact h
  | cons b w₁ ih =>
    intro w₂ h hx
    rcases List.sublist_cons_iff.mp h with h | ⟨t, heq, ht⟩
    · exact ih w₂ h (fun hc => hx (List.mem_cons_of_mem _ hc))
    · exfalso
      have : x = b := by
        have := congrArg (fun l => l.headD 0) heq
        simpa using this
      exact hx (this ▸ List.mem_cons_self b w₁)

theorem insBefore_not_mem (a e : Nat) :
    ∀ l : List Nat, a ∉ l → insBefore l e a = l ++ [e] := by
  intro l
  induction l with
  | nil => intro _; rfl
  | cons x xs ih =>
    intro h
    have hx : x ≠ a := fun hh => h (hh ▸ List.mem_cons_self x xs)
    show (if x = a then e :: x :: xs else x :: insBefore xs e a) = _
    rw [if_neg hx, ih (fun hh => h (List.mem_cons_of_mem _ hh))]
    rfl

/-- Host handles of the already-processed slots `c … m−1`, new order. -/
def procEls (E : Nat → Nat) (m c : Nat) : List Nat :=
  (List.range (m - c)).map (fun j => E (c + j))

/-- Host handles of the stable (sequence) slots below `c`, slot order. -/
def stableEls (seq : List Nat) (E : Nat → Nat) (c : Nat) : List Nat :=
  (seq.filter (fun q => decide (q < c))).map E

theorem procEls_top (E : Nat → Nat) (m : Nat) : procEls E m m = [] := by
  unfold procEls
  rw [Nat.sub_self]
  rfl

theorem procEls_cons (E : Nat → Nat) (m c : Nat) (h : c < m) :
    procEls E m c = E c :: procEls E m (c + 1) := by
  unfold procEls
  rw [show m - c = (m - (c + 1)) + 1 from by omega, List.range_succ_eq_map,
    List.map_cons, List.map_map]
  refine congrArg (fun l => E (c + 0) :: l) ?_
  refine List.map_congr_left ?_
  intro j _
  show E (c + (j + 1)) = E (c + 1 + j)
  rw [show c + (j + 1) = c + 1 + j from by omega]

theorem mem_procEls (E : Nat → Nat) (m c x : Nat) :
    x ∈ procEls E m c ↔ ∃ q, c ≤ q ∧ q < m ∧ x = E q := by
  unfold procEls
  rw [List.mem_map]
  constructor
  · rintro ⟨j, hj, rfl⟩
    rw [List.mem_range] at hj
    exact ⟨c + j, by omega, by omega, rfl⟩
  · rintro ⟨q, hq1, hq2, rfl⟩
    refine ⟨q - c, ?_, ?_⟩
    · rw [List.mem_range]
      omega
    · rw [show c + (q - c) = q from by omega]

theorem mem_stableEls (seq : List Nat) (E : Nat → Nat) (c x : Nat) :
    x ∈ stableEls seq E c ↔ ∃ q ∈ seq, q < c ∧ x = E q := by
  unfold stableEls
  rw [List.mem_map]
  constructor
  · rintro ⟨q, hq, rfl⟩
    rw [List.mem_filter] at hq
    exact ⟨q, hq.1, by simpa using hq.2, rfl⟩
  · rintro ⟨q, hq1, hq2, rfl⟩
    exact ⟨q, List.mem_filter.mpr ⟨hq1, by simpa using hq2⟩, rfl⟩

theorem stableEls_zero (seq : List Nat) (E : Nat → Nat) :
    stableEls seq E 0 = [] := by
  unfold stableEls
  rw [List.filter_eq_nil_iff.mpr]
  · rfl
  · intro q _
    simp

theorem stableEls_succ_not_mem (seq : List Nat) (E : Nat → Nat) (c : Nat)
    (hc : c ∉ seq) : stableEls seq E (c + 1) = stableEls seq E c := by
  unfold stableEls
  refine congrArg (List.map E) ?_
  refine List.filter_congr ?_
  intro q hq
  have : q ≠ c := fun hh => hc (hh ▸ hq)
  simp only [decide_eq_decide]
  omega

theorem filter_lt_succ_mem :
    ∀ (seq : List Nat) (c : Nat), seq.Pairwise (· < ·) → c ∈ seq →
      seq.filter (fun q => decide (q < c + 1)) =
        seq.filter (fun q => decide (q < c)) ++ [c] := by
  intro seq
  induction seq with
  | nil => intro c _ hc; cases hc
  | cons y t ih =>
    intro c hs hc
    have hcons := List.pairwise_cons.mp hs
    rcases List.mem_cons.mp hc with hy | hy
    · subst hy
      have ht1 : t.filter (fun q => decide (q < c + 1)) = [] := by
        rw [List.filter_eq_nil_iff]
        intro q hq
        have := hcons.1 q hq
        simp only [decide_eq_true_eq]
        omega
      have ht0 : t.filter (fun q => decide (q < c)) = [] := by
        rw [List.filter_eq_nil_iff]
        intro q hq
        have := hcons.1 q hq
        simp only [decide_eq_true_eq]
        omega
      rw [List.filter_cons, List.filter_cons, ht1, ht0,
        if_pos (decide_eq_true (by omega : c < c + 1)),
        if_neg (by simp : ¬ (decide (c < c) = true))]
      rfl
    · have hyc : y < c := hcons.1 c hy
      rw [List.filter_cons, List.filter_cons,
        if_pos (decide_eq_true (by omega : y < c + 1)),
        if_pos (decide_eq_true hyc), ih c hcons.2 hy]
      rfl

theorem stableEls_succ_mem (seq : List Nat) (E : Nat → Nat) (c : Nat)
    (hs : seq.Pairwise (· < ·)) (hc : c ∈ seq) :
    stableEls seq E (c + 1) = stableEls seq E c ++ [E c] := by
  unfold stableEls
  rw [filter_lt_succ_mem seq c hs hc, List.map_append]
  rfl

theorem stableEls_top (seq : List Nat) (E : Nat → Nat) (m : Nat)
    (hbd : ∀ x ∈ seq, x < m) : stableEls seq E m = seq.map E := by
  unfold stableEls
  refine congrArg (List.map E) ?_
  rw [List.filter_eq_self]
  intro q hq
  exact decide_eq_true (hbd q hq)

/-- Handles read off a strictly increasing position list form a
sublist. -/
theorem map_getAt_sublist :
    ∀ (L ps : List Nat), ps.Pairwise (· < ·) →
      (∀ p ∈ ps, p < L.length) →
      (ps.map (fun p => getAt L p)).Sublist L := by
  intro L
  induction L with
  | nil =>
    intro ps _ hbd
    cases ps with
    | nil => exact List.Sublist.refl []
    | cons p ps =>
      have := hbd p (List.mem_cons_self p ps)
      simp at this
  | cons b L ih =>
    intro ps hs hbd
    have hmapshift : ∀ (qs : List Nat), (∀ x ∈ qs, 1 ≤ x) →
        qs.map (fun p => getAt (b :: L) p) =
        (qs.map (fun p => p - 1)).map (fun p => getAt L p) := by
      intro qs hqs
      rw [List.map_map]
      refine List.map_congr_left ?_
      intro x hx
      have hx1 := hqs x hx
      show getAt (b :: L) x = getAt L (x - 1)
      cases x with
      | zero => omega
      | succ x' =>
        show getAt L x' = getAt L (x' + 1 - 1)
        rw [Nat.add_sub_cancel]
    have hpred : ∀ (qs : List Nat), qs.Pairwise (· < ·) →
        (∀ x ∈ qs, 1 ≤ x) → (∀ x ∈ qs, x < L.length + 1) →
        ((qs.map (fun p => p - 1)).map (fun p => getAt L p)).Sublist L := by
      intro qs hqs h1 h2
      refine ih _ ?_ ?_
      · rw [List.pairwise_map]
        refine List.Pairwise.imp_of_mem ?_ hqs
        intro a c ha hc hac
        have := h1 a ha
        have := h1 c hc
        omega
      · intro x hx
        rcases List.mem_map.mp hx with ⟨x', hx', rfl⟩
        have := h2 x' hx'
        have := h1 x' hx'
        omega
    cases ps with
    | nil => exact List.nil_sublist _
    | cons p ps =>
      have hcons := List.pairwise_cons.mp hs
      have hbd' : ∀ x ∈ p :: ps, x < L.length + 1 := by
        intro x hx
        simpa using hbd x hx
      by_cases hp : p = 0
      · subst hp
        have hshift : ∀ x ∈ ps, 1 ≤ x := by
          intro x hx
          have := hcons.1 x hx
          omega
        rw [List.map_cons]
        show List.Sublist
          (getAt (b :: L) 0 :: ps.map (fun p => getAt (b :: L) p)) (b :: L)
        rw [hmapshift ps hshift]
        exact List.Sublist.cons₂ b (hpred ps hcons.2 hshift
          (fun x hx => hbd' x (List.mem_cons_of_mem _ hx)))
      · have hshift : ∀ x ∈ p :: ps, 1 ≤ x := by
          intro x hx
          rcases List.mem_cons.mp hx with hx | hx
          · subst hx
            omega
          · have := hcons.1 x hx
            omega
        rw [hmapshift (p :: ps) hshift]
        exact (hpred (p :: ps) hs hshift hbd').cons b

/-- Invariant of the backwards loop (phase 5.3) in the permutation
setting, at counter `c` (slots `c … m−1` processed): the handles of the
processed slots appear in the middle in new order after all
still-unprocessed stable handles, the unprocessed handles keep their
old order, and the middle is exactly the union of the two. -/
def Inv53 (P S seq : List Nat) (m : Nat) (E : Nat → Nat)
    (UE : Nat → List Nat) (nels : List (Option Nat)) (ne : Nat)
    (c : Nat) (st : S53) : Prop :=
  st.newEls = nels ∧ st.nextEl = ne ∧
  ∃ Y₁ Y₂ : List Nat,
    st.container = P ++ (Y₁ ++ Y₂) ++ S ∧
    (UE c).Sublist (Y₁ ++ Y₂) ∧
    (stableEls seq E c).Sublist Y₁ ∧
    (procEls E m c).Sublist Y₂ ∧
    (Y₁ ++ Y₂).length = (UE c).length + (procEls E m c).length ∧
    (∀ e ∈ Y₁ ++ Y₂, e ∈ UE c ∨ e ∈ procEls E m c) ∧
    (Y₁ ++ Y₂).Nodup

theorem inv53_stable_step (P S seq : List Nat) (m : Nat) (E : Nat → Nat)
    (UE : Nat → List Nat) (nels : List (Option Nat)) (ne : Nat)
    (c : Nat) (hcm : c < m)
    (hs : seq.Pairwise (· < ·)) (hmem : c ∈ seq)
    (hUEd : ∃ U₁ U₂, UE (c + 1) = U₁ ++ E c :: U₂ ∧ UE c = U₁ ++ U₂)
    (st : S53) (hinv : Inv53 P S seq m E UE nels ne (c + 1) st) :
    Inv53 P S seq m E UE nels ne c st := by
  obtain ⟨hnels, hne, Y₁, Y₂, hcont, hUE, hSE, hPE, hlen, hset, hnd⟩ := hinv
  obtain ⟨U₁, U₂, hU1, hU0⟩ := hUEd
  rw [stableEls_succ_mem seq E c hs hmem] at hSE
  rcases List.append_sublist_iff.mp hSE with ⟨A, B, rfl, hA, hB⟩
  have hEcB : E c ∈ B := hB.subset (List.mem_singleton_self _)
  rcases List.append_of_mem hEcB with ⟨W₁, W₂, rfl⟩
  have hLL : (A ++ (W₁ ++ E c :: W₂)) ++ Y₂ =
      (A ++ W₁) ++ (E c :: (W₂ ++ Y₂)) := by
    simp [List.append_assoc]
  refine ⟨hnels, hne, A ++ W₁, E c :: (W₂ ++ Y₂), ?_, ?_, ?_, ?_, ?_, ?_,
    ?_⟩
  · rw [hcont, hLL]
  · rw [← hLL]
    refine List.Sublist.trans ?_ hUE
    rw [hU0, hU1]
    exact List.Sublist.append (List.Sublist.refl U₁)
      (List.sublist_cons_self _ _)
  · exact hA.trans (List.sublist_append_left A W₁)
  · rw [procEls_cons E m c hcm]
    exact List.Sublist.cons₂ _
      (hPE.trans (List.sublist_append_right W₂ Y₂))
  · rw [← hLL, hlen, hU1, hU0, procEls_cons E m c hcm]
    simp [List.length_append]
    omega
  · intro e he
    rw [← hLL] at he
    rcases hset e he with hu | hp
    · rw [hU1] at hu
      rcases List.mem_append.mp hu with hu | hu
      · left
        rw [hU0]
        exact List.mem_append_left _ hu
      · rcases List.mem_cons.mp hu with hu | hu
        · right
          rw [procEls_cons E m c hcm, hu]
          exact List.mem_cons_self _ _
        · left
          rw [hU0]
          exact List.mem_append_right _ hu
    · right
      rw [procEls_cons E m c hcm]
      exact List.mem_cons_of_mem _ hp
  · rw [← hLL]
    exact hnd

theorem inv53_move_step (P S seq : List Nat) (m : Nat) (E : Nat → Nat)
    (UE : Nat → List Nat) (nels : List (Option Nat)) (ne : Nat)
    (Y0 : List Nat) (aa : Option Nat) (c : Nat) (hcm : c < m)
    (hmem : c ∉ seq)
    (hEinj : ∀ q q', q < m → q' < m → E q = E q' → q = q')
    (hnels : ∀ q, q < m → nels.getD q none = some (E q))
    (hUEdc : ∃ U₁ U₂, UE (c + 1) = U₁ ++ E c :: U₂ ∧ UE c = U₁ ++ U₂)
    (hUEmem : ∀ e, e ∈ UE (c + 1) → e ∈ Y0)
    (hEY0 : ∀ q, q < m → E q ∈ Y0)
    (hPd : ∀ e ∈ Y0, e ∉ P) (hSd : ∀ e ∈ Y0, e ∉ S)
    (hPS : ∀ e ∈ S, e ∉ P)
    (haa : aa = (S.map (fun e => some e)).headD none)
    (st : S53) (hinv : Inv53 P S seq m E UE nels ne (c + 1) st) :
    Inv53 P S seq m E UE nels ne c
      { st with
        container := hostInsert st.container
          ((st.newEls.getD c none).getD 0)
          (if c + 1 < m then st.newEls.getD (c + 1) none else aa),
        moves := st.moves + 1 } := by
  obtain ⟨hnelsEq, hne, Y₁, Y₂, hcont, hUE, hSE, hPE, hlen, hset, hnd⟩ :=
    hinv
  obtain ⟨U₁, U₂, hU1, hU0⟩ := hUEdc
  have hmel : (st.newEls.getD c none).getD 0 = E c := by
    rw [hnelsEq, hnels c hcm]
    rfl
  have hEcY : E c ∈ Y₁ ++ Y₂ := hUE.subset (by
    rw [hU1]
    exact List.mem_append_right _ (List.mem_cons_self _ _))
  have hYinY0 : ∀ e ∈ Y₁ ++ Y₂, e ∈ Y0 := by
    intro e he
    rcases hset e he with hu | hp
    · exact hUEmem e hu
    · rcases (mem_procEls E m (c + 1) e).mp hp with ⟨q, _, hq2, rfl⟩
      exact hEY0 q hq2
  have hEcP : E c ∉ P := hPd _ (hEY0 c hcm)
  have herase : st.container.erase (E c) =
      P ++ ((Y₁ ++ Y₂).erase (E c)) ++ S := by
    rw [hcont, List.erase_append_left S (List.mem_append_right P hEcY),
      List.erase_append_right (Y₁ ++ Y₂) hEcP]
  have hndZ : ((Y₁ ++ Y₂).erase (E c)).Nodup := hnd.erase _
  have hEcZ : E c ∉ (Y₁ ++ Y₂).erase (E c) := hnd.not_mem_erase
  have hUEZ : (UE c).Sublist ((Y₁ ++ Y₂).erase (E c)) := by
    rw [hU0]
    exact sublist_erase_mid _ U₁ U₂ (E c) (by rw [← hU1]; exact hUE) hnd
  have hEcStable : E c ∉ stableEls seq E (c + 1) := by
    intro hc
    rcases (mem_stableEls seq E (c + 1) (E c)).mp hc with ⟨q, hq1, hq2, hq3⟩
    have hqm : q < m := by omega
    have := hEinj q c hqm hcm hq3.symm
    exact hmem (this ▸ hq1)
  have hEcProc : E c ∉ procEls E m (c + 1) := by
    intro hc
    rcases (mem_procEls E m (c + 1) (E c)).mp hc with ⟨q, hq1, hq2, hq3⟩
    have := hEinj q c hq2 hcm hq3.symm
    omega
  have hsplitZ : ∃ Z₁ Z₂, (Y₁ ++ Y₂).erase (E c) = Z₁ ++ Z₂ ∧
      (stableEls seq E (c + 1)).Sublist Z₁ ∧
      (procEls E m (c + 1)).Sublist Z₂ := by
    by_cases hY1 : E c ∈ Y₁
    · refine ⟨Y₁.erase (E c), Y₂, ?_, ?_, hPE⟩
      · exact List.erase_append_left Y₂ hY1
      · exact sublist_erase_of_not_mem _ _ _ hSE hEcStable
    · have hY2 : E c ∈ Y₂ := (List.mem_append.mp hEcY).resolve_left hY1
      refine ⟨Y₁, Y₂.erase (E c), ?_, hSE, ?_⟩
      · exact List.erase_append_right Y₂ hY1
      · exact sublist_erase_of_not_mem _ _ _ hPE hEcProc
  obtain ⟨Z₁, Z₂, hZeq, hstZ, hprZ⟩ := hsplitZ
  have hUlen : (UE (c + 1)).length = (UE c).length + 1 := by
    rw [hU1, hU0]
    simp
    omega
  have hZlen : ((Y₁ ++ Y₂).erase (E c)).length + 1 = (Y₁ ++ Y₂).length := by
    rw [List.length_erase_of_mem hEcY]
    have := List.length_pos_of_mem hEcY
    omega
  by_cases hc1 : c + 1 < m
  · have hanch : (if c + 1 < m then st.newEls.getD (c + 1) none else aa) =
        some (E (c + 1)) := by
      rw [if_pos hc1, hnelsEq, hnels (c + 1) hc1]
    have hEc1Z₂ : E (c + 1) ∈ Z₂ := hprZ.subset (by
      rw [procEls_cons E m (c + 1) hc1]
      exact List.mem_cons_self _ _)
    rcases List.append_of_mem hEc1Z₂ with ⟨W₁, W₂, rfl⟩
    have hndZ2 : (Z₁ ++ (W₁ ++ E (c + 1) :: W₂)).Nodup := hZeq ▸ hndZ
    have hEc1W₁ : E (c + 1) ∉ W₁ := by
      have h2 : (W₁ ++ E (c + 1) :: W₂).Nodup :=
        (List.nodup_append.mp hndZ2).2.1
      have h3 := List.nodup_middle.mp h2
      rw [List.nodup_cons] at h3
      exact fun hc => h3.1 (List.mem_append_left _ hc)
    have hEc1Z₁ : E (c + 1) ∉ Z₁ := by
      rcases List.nodup_append.mp hndZ2 with ⟨_, _, hdisj⟩
      exact fun hc => hdisj hc
        (List.mem_append_right _ (List.mem_cons_self _ _))
    have hprW₂ : (procEls E m (c + 2)).Sublist W₂ := by
      have h1 : (E (c + 1) :: procEls E m (c + 2)).Sublist
          (W₁ ++ E (c + 1) :: W₂) := by
        rw [← procEls_cons E m (c + 1) hc1]
        exact hprZ
      exact List.cons_sublist_cons.mp
        (cons_sublist_right _ _ W₁ (E (c + 1) :: W₂) h1 hEc1W₁)
    have hEc1P : E (c + 1) ∉ P := hPd _ (hEY0 _ hc1)
    have hnm : E (c + 1) ∉ (P ++ Z₁) ++ W₁ := by
      intro hcmem
      rcases List.mem_append.mp hcmem with h | h
      · rcases List.mem_append.mp h with h | h
        · exact hEc1P h
        · exact hEc1Z₁ h
      · exact hEc1W₁ h
    have hinsert : hostInsert st.container (E c) (some (E (c + 1))) =
        P ++ (Z₁ ++ (W₁ ++ E c :: E (c + 1) :: W₂)) ++ S := by
      show insBefore (st.container.erase (E c)) (E c) (E (c + 1)) = _
      rw [herase, hZeq,
        show P ++ (Z₁ ++ (W₁ ++ E (c + 1) :: W₂)) ++ S =
          ((P ++ Z₁) ++ W₁) ++ E (c + 1) :: (W₂ ++ S) from by
          simp [List.append_assoc],
        insBefore_eq_append _ hnm _ _]
      simp [List.append_assoc]
    refine ⟨hnelsEq, hne, Z₁, W₁ ++ E c :: E (c + 1) :: W₂, ?_, ?_, ?_, ?_,
      ?_, ?_, ?_⟩
    · show hostInsert st.container ((st.newEls.getD c none).getD 0) _ = _
      rw [hmel, hanch, hinsert]
    · rw [hZeq] at hUEZ
      refine hUEZ.trans ?_
      refine List.Sublist.append_left ?_ Z₁
      refine List.Sublist.append_left ?_ W₁
      exact List.sublist_cons_self _ _
    · rw [← stableEls_succ_not_mem seq E c hmem]
      exact hstZ
    · rw [procEls_cons E m c hcm, procEls_cons E m (c + 1) hc1]
      exact List.sublist_append_of_sublist_right
        (List.Sublist.cons₂ _ (List.Sublist.cons₂ _ hprW₂))
    · have hplen : (procEls E m c).length =
          (procEls E m (c + 1)).length + 1 := by
        rw [procEls_cons E m c hcm]
        rfl
      have hZeqlen := congrArg List.length hZeq
      have hgoal : (Z₁ ++ (W₁ ++ E c :: E (c + 1) :: W₂)).length =
          ((Y₁ ++ Y₂).erase (E c)).length + 1 := by
        rw [hZeqlen]
        simp only [List.length_append, List.length_cons]
        omega
      rw [hgoal]
      omega
    · intro e he
      have hsplit : e = E c ∨ e ∈ Z₁ ++ (W₁ ++ E (c + 1) :: W₂) := by
        simp only [List.mem_append, List.mem_cons] at he ⊢
        tauto
      rcases hsplit with rfl | heZ
      · right
        rw [procEls_cons E m c hcm]
        exact List.mem_cons_self _ _
      · have heY : e ∈ Y₁ ++ Y₂ := List.mem_of_mem_erase (hZeq ▸ heZ)
        rcases hset e heY with hu | hp
        · rw [hU1] at hu
          rcases List.mem_append.mp hu with hu | hu
          · left
            rw [hU0]
            exact List.mem_append_left _ hu
          · rcases List.mem_cons.mp hu with hu | hu
            · right
              rw [procEls_cons E m c hcm, hu]
              exact List.mem_cons_self _ _
            · left
              rw [hU0]
              exact List.mem_append_right _ hu
        · right
          rw [procEls_cons E m c hcm]
          exact List.mem_cons_of_mem _ hp
    · have hEcZ' : E c ∉ Z₁ ++ (W₁ ++ E (c + 1) :: W₂) := hZeq ▸ hEcZ
      rw [show Z₁ ++ (W₁ ++ E c :: E (c + 1) :: W₂) =
          (Z₁ ++ W₁) ++ E c :: (E (c + 1) :: W₂) from by
        simp [List.append_assoc]]
      rw [List.nodup_middle, List.nodup_cons]
      constructor
      · intro hcmem
        refine hEcZ' ?_
        simp only [List.mem_append, List.mem_cons] at hcmem ⊢
        tauto
      · rw [show (Z₁ ++ W₁) ++ E (c + 1) :: W₂ =
            Z₁ ++ (W₁ ++ E (c + 1) :: W₂) from by simp [List.append_assoc]]
        exact hZeq ▸ hndZ
  · have hc1m : c + 1 = m := by omega
    have hanchaa : (if c + 1 < m then st.newEls.getD (c + 1) none else aa)
        = aa := if_neg hc1
    have hprnil : procEls E m (c + 1) = [] := by
      rw [hc1m]
      exact procEls_top E m
    have hstY : (stableEls seq E c).Sublist ((Y₁ ++ Y₂).erase (E c)) := by
      rw [← stableEls_succ_not_mem seq E c hmem]
      exact sublist_erase_of_not_mem _ _ _
        (hSE.trans (List.sublist_append_left Y₁ Y₂)) hEcStable
    have hcommon : ∀ hins : hostInsert st.container (E c) aa =
        P ++ (((Y₁ ++ Y₂).erase (E c)) ++ [E c]) ++ S,
        Inv53 P S seq m E UE nels ne c
          { st with
            container := hostInsert st.container
              ((st.newEls.getD c none).getD 0)
              (if c + 1 < m then st.newEls.getD (c + 1) none else aa),
            moves := st.moves + 1 } := by
      intro hins
      refine ⟨hnelsEq, hne, (Y₁ ++ Y₂).erase (E c), [E c], ?_, ?_, ?_, ?_,
        ?_, ?_, ?_⟩
      · show hostInsert st.container ((st.newEls.getD c none).getD 0) _ = _
        rw [hmel, hanchaa, hins]
      · exact hUEZ.trans (List.sublist_append_left _ _)
      · exact hstY
      · rw [procEls_cons E m c hcm, hprnil]
      · have hplen2 : (procEls E m c).length = 1 := by
          simp [procEls_cons E m c hcm, hprnil]
        have hgoal : (((Y₁ ++ Y₂).erase (E c)) ++ [E c]).length =
            ((Y₁ ++ Y₂).erase (E c)).length + 1 := by
          simp
        rw [hgoal, hplen2]
        rw [hprnil] at hlen
        simp only [List.length_nil] at hlen
        omega
      · intro e he
        rcases List.mem_append.mp he with h | h
        · have heY : e ∈ Y₁ ++ Y₂ := List.mem_of_mem_erase h
          rcases hset e heY with hu | hp
          · rw [hU1] at hu
            rcases List.mem_append.mp hu with hu | hu
            · left
              rw [hU0]
              exact List.mem_append_left _ hu
            · rcases List.mem_cons.mp hu with hu | hu
              · right
                rw [procEls_cons E m c hcm, hu]
                exact List.mem_cons_self _ _
              · left
                rw [hU0]
                exact List.mem_append_right _ hu
          · rw [hprnil] at hp
            cases hp
        · rcases List.mem_cons.mp h with rfl | h
          · right
            rw [procEls_cons E m c hcm]
            exact List.mem_cons_self _ _
          · cases h
      · rw [List.nodup_append]
        refine ⟨hndZ, List.nodup_singleton _, ?_⟩
        intro x hx
        rw [List.mem_singleton]
        intro hxe
        exact hEcZ (hxe ▸ hx)
    cases hS : S with
    | nil =>
      subst hS
      have haan : aa = none := by rw [haa]; rfl
      refine hcommon ?_
      rw [haan]
      show (st.container.erase (E c)) ++ [E c] = _
      rw [herase]
      simp [List.append_assoc]
    | cons s0 S' =>
      subst hS
      have haas : aa = some s0 := by rw [haa]; rfl
      have hs0P : s0 ∉ P := hPS s0 (List.mem_cons_self _ _)
      have hs0Z : s0 ∉ P ++ ((Y₁ ++ Y₂).erase (E c)) := by
        intro hc
        rcases List.mem_append.mp hc with h | h
        · exact hs0P h
        · exact hSd s0 (hYinY0 _ (List.mem_of_mem_erase h))
            (List.mem_cons_self _ _)
      refine hcommon ?_
      rw [haas]
      show insBefore (st.container.erase (E c)) (E c) s0 = _
      rw [herase,
        show P ++ ((Y₁ ++ Y₂).erase (E c)) ++ (s0 :: S') =
          (P ++ ((Y₁ ++ Y₂).erase (E c))) ++ s0 :: S' from by
          simp [List.append_assoc],
        insBefore_eq_append _ hs0Z _ _]
      simp [List.append_assoc]

theorem inv53_loop (P S seq map : List Nat) (m : Nat) (E : Nat → Nat)
    (UE : Nat → List Nat) (nels : List (Option Nat)) (ne : Nat)
    (Y0 : List Nat) (aa : Option Nat)
    (hnz : ∀ q, q < m → getAt map q ≠ 0)
    (hs : seq.Pairwise (· < ·)) (hbd : ∀ x ∈ seq, x < m)
    (hnels : ∀ q, q < m → nels.getD q none = some (E q))
    (hEinj : ∀ q q', q < m → q' < m → E q = E q' → q = q')
    (hUEd : ∀ c, c < m → ∃ U₁ U₂, UE (c + 1) = U₁ ++ E c :: U₂ ∧
      UE c = U₁ ++ U₂)
    (hUEmem : ∀ c e, e ∈ UE c → e ∈ Y0)
    (hEY0 : ∀ q, q < m → E q ∈ Y0)
    (hPd : ∀ e ∈ Y0, e ∉ P) (hSd : ∀ e ∈ Y0, e ∉ S)
    (hPS : ∀ e ∈ S, e ∉ P)
    (haa : aa = (S.map (fun e => some e)).headD none) :
    ∀ c, c ≤ m → ∀ st : S53,
      Inv53 P S seq m E UE nels ne c st →
      Inv53 P S seq m E UE nels ne 0
        (step53 true seq map m aa c
          ((seq.countP (fun x => decide (x < c)) : Int) - 1) st) := by
  intro c
  induction c with
  | zero =>
    intro _ st hinv
    exact hinv
  | succ c ih =>
    intro hc st hinv
    have hcm : c < m := by omega
    have hnz_c := hnz c hcm
    by_cases hmem : c ∈ seq
    · rcases sorted_countP_mem seq hs c hmem with ⟨hcnt, hat⟩
      have hc1 : 0 < seq.countP (fun x => decide (x < c + 1)) := by omega
      have hcond : ¬ ((((seq.countP (fun x => decide (x < c + 1)) : Int)
          - 1) < 0) ∨ c ≠ getAt seq
            ((seq.countP (fun x => decide (x < c + 1)) : Int)
              - 1).toNat) := by
        rw [not_or]
        refine ⟨by omega, ?_⟩
        rw [not_not]
        have htn : ((seq.countP (fun x => decide (x < c + 1)) : Int)
            - 1).toNat = seq.countP (fun x => decide (x < c)) := by omega
        rw [htn, hat]
      have hj : ((seq.countP (fun x => decide (x < c + 1)) : Int) - 1) - 1
          = (seq.countP (fun x => decide (x < c)) : Int) - 1 := by
        rw [hcnt]
        push_cast
        ring
      have hred : step53 true seq map m aa (c + 1)
          ((seq.countP (fun x => decide (x < c + 1)) : Int) - 1) st =
          step53 true seq map m aa c
          ((seq.countP (fun x => decide (x < c)) : Int) - 1) st := by
        rw [show step53 true seq map m aa (c + 1)
            ((seq.countP (fun x => decide (x < c + 1)) : Int) - 1) st =
            step53 true seq map m aa c
            (((seq.countP (fun x => decide (x < c + 1)) : Int) - 1) - 1) st
          from by simp only [step53]; rw [if_neg hnz_c, if_pos trivial,
            if_neg hcond], hj]
      rw [hred]
      exact ih (by omega) st
        (inv53_stable_step P S seq m E UE nels ne c hcm hs hmem
          (hUEd c hcm) st hinv)
    · have hcnt := sorted_countP_not_mem seq c hmem
      have hcond : ((((seq.countP (fun x => decide (x < c + 1)) : Int)
          - 1) < 0) ∨ c ≠ getAt seq
            ((seq.countP (fun x => decide (x < c + 1)) : Int)
              - 1).toNat) := by
        rw [hcnt]
        rcases Nat.eq_zero_or_pos (seq.countP (fun x => decide (x < c)))
          with h0 | hpos
        · left
          omega
        · right
          have htn : ((seq.countP (fun x => decide (x < c)) : Int)
              - 1).toNat = seq.countP (fun x => decide (x < c)) - 1 := by
            omega
          rw [htn]
          have hb := sorted_countP_bound seq c
            (seq.countP (fun x => decide (x < c)) - 1) hs (by omega)
          intro hcontra
          exact hmem (hcontra ▸ getAt_mem seq _ hb.1)
      have hred : step53 true seq map m aa (c + 1)
          ((seq.countP (fun x => decide (x < c + 1)) : Int) - 1) st =
          step53 true seq map m aa c
          ((seq.countP (fun x => decide (x < c)) : Int) - 1)
          { st with
            container := hostInsert st.container
              ((st.newEls.getD c none).getD 0)
              (if c + 1 < m then st.newEls.getD (c + 1) none else aa),
            moves := st.moves + 1 } := by
        rw [show step53 true seq map m aa (c + 1)
            ((seq.countP (fun x => decide (x < c + 1)) : Int) - 1) st =
            step53 true seq map m aa c
            ((seq.countP (fun x => decide (x < c + 1)) : Int) - 1)
            { st with
              container := hostInsert st.container
                ((st.newEls.getD c none).getD 0)
                (if c + 1 < m then st.newEls.getD (c + 1) none else aa),
              moves := st.moves + 1 }
          from by simp only [step53]; rw [if_neg hnz_c, if_pos trivial,
            if_pos hcond], hcnt]
      rw [hred]
      exact ih (by omega) _
        (inv53_move_step P S seq m E UE nels ne Y0 aa c hcm hmem hEinj
          hnels (hUEd c hcm) (fun e he => hUEmem (c + 1) e he) hEY0 hPd
          hSd hPS haa st hinv)

theorem inv53_final (P S seq : List Nat) (m : Nat) (E : Nat → Nat)
    (UE : Nat → List Nat) (nels : List (Option Nat)) (ne : Nat)
    (hUE0 : UE 0 = []) (st : S53)
    (hinv : Inv53 P S seq m E UE nels ne 0 st) :
    st.container = P ++ procEls E m 0 ++ S ∧ st.newEls = nels ∧
      st.nextEl = ne := by
  obtain ⟨hnels, hne, Y₁, Y₂, hcont, hUE, hSE, hPE, hlen, hset, hnd⟩ :=
    hinv
  have hPY : (procEls E m 0).Sublist (Y₁ ++ Y₂) :=
    hPE.trans (List.sublist_append_right Y₁ Y₂)
  have hleneq : (procEls E m 0).length = (Y₁ ++ Y₂).length := by
    rw [hlen, hUE0]
    simp
  have heq := hPY.eq_of_length hleneq
  exact ⟨by rw [hcont, ← heq], hnels, hne⟩

/-- Old-middle index of the (unique) carrier of new slot `q`'s key. -/
def tOf (mid1 : List (KNode × Nat)) (mid2 : List KNode) (q : Nat) : Nat :=
  (((getK mid2 q).key).bind (fun k => idxOfKeyO k mid1)).getD 0

/-- Host handle assigned to new slot `q` in the permutation setting. -/
def elOf (mid1 : List (KNode × Nat)) (mid2 : List KNode) (q : Nat) : Nat :=
  (getO mid1 (tOf mid1 mid2 q)).2

/-- Handles of the old-middle entries whose key's new slot is below `c`,
in old order (the not-yet-processed matched handles). -/
def unprocEls (mid1 : List (KNode × Nat)) (mid2 : List KNode) (c : Nat) :
    List Nat :=
  mid1.filterMap (fun o =>
    if ((o.1.key.bind (fun k => idxOfKeyN k mid2)).getD 0) < c then
      some o.2
    else none)

theorem idxOfKeyO_some_key (k : Nat) :
    ∀ (os : List (KNode × Nat)) (t : Nat), idxOfKeyO k os = some t →
      (getO os t).1.key = some k := by
  intro os
  induction os with
  | nil => intro t h; cases h
  | cons o rest ih =>
    intro t h
    by_cases hk : o.1.key = some k
    · rw [idxOfKeyO, if_pos hk] at h
      cases h
      exact hk
    · rw [idxOfKeyO, if_neg hk] at h
      rcases Option.map_eq_some.mp h with ⟨t', ht', rfl⟩
      rw [getO_cons_succ]
      exact ih t' ht'

/-- `idxOfKeyO` finds the first carrier: earlier entries miss the key. -/
theorem idxOfKeyO_first (k : Nat) :
    ∀ (os : List (KNode × Nat)) (t : Nat), idxOfKeyO k os = some t →
      ∀ o ∈ os.take t, o.1.key ≠ some k := by
  intro os
  induction os with
  | nil => intro t h; cases h
  | cons o' rest ih =>
    intro t h o ho
    by_cases hk : o'.1.key = some k
    · rw [idxOfKeyO, if_pos hk] at h
      cases h
      simp at ho
    · rw [idxOfKeyO, if_neg hk] at h
      rcases Option.map_eq_some.mp h with ⟨t', ht', rfl⟩
      rcases List.mem_cons.mp (by simpa using ho) with rfl | ho'
      · exact hk
      · exact ih t' ht' o ho'

theorem getAt_map_snd (os : List (KNode × Nat)) (t : Nat)
    (h : t < os.length) :
    getAt (os.map Prod.snd) t = (getO os t).2 := by
  rw [getAt_eq_getElem _ _ (by simpa using h), List.getElem_map,
    getO_eq_getElem os t h]

/-- Two pairwise relations on a sorted list transfer to any ordered pair
of members. -/
theorem pairwise_mem_rel (seq : List Nat) (R : Nat → Nat → Prop) :
    seq.Pairwise (· < ·) → seq.Pairwise R →
    ∀ q ∈ seq, ∀ q' ∈ seq, q < q' → R q q' := by
  induction seq with
  | nil =>
    intro _ _ q hq
    cases hq
  | cons x t ih =>
    intro hs hR q hq q' hq' hlt
    have hcx := List.pairwise_cons.mp hs
    have hcR := List.pairwise_cons.mp hR
    rcases List.mem_cons.mp hq with hqx | hq
    · rcases List.mem_cons.mp hq' with hqx' | hq'
      · omega
      · rw [hqx]
        exact hcR.1 q' hq'
    · rcases List.mem_cons.mp hq' with hqx' | hq'
      · have h1 := hcx.1 q hq
        omega
      · exact ih hcx.2 hcR.2 q hq q' hq' hlt

theorem run52_map_val (s1 : Nat) (mid1 : List (KNode × Nat))
    (mid2 : List KNode) (container : List Nat) (st : S52)
    (inv : Inv52 s1 mid2.length mid2 container mid1 st)
    (hk2 : ∀ n ∈ mid2, (n.key).isSome = true)
    (hsup : ∀ k, k ∈ keyedKeys mid2 → k ∈ keyedKeysO mid1) :
    ∀ q, q < mid2.length →
      tOf mid1 mid2 q < mid1.length ∧
      getAt st.map q = s1 + tOf mid1 mid2 q + 1 ∧
      st.newEls.getD q none = some (elOf mid1 mid2 q) ∧
      ∃ kq, (getK mid2 q).key = some kq ∧
        idxOfKeyO kq mid1 = some (tOf mid1 mid2 q) ∧
        (getO mid1 (tOf mid1 mid2 q)).1.key = some kq := by
  intro q hq
  rcases Option.isSome_iff_exists.mp
    (hk2 (getK mid2 q) (getK_mem mid2 q hq)) with ⟨kq, hkq⟩
  have hmem : kq ∈ keyedKeysO mid1 := hsup kq
    ((mem_keyedKeys mid2 kq).mpr ⟨getK mid2 q, getK_mem mid2 q hq, hkq⟩)
  have hne : idxOfKeyO kq mid1 ≠ none :=
    fun h => ((idxOfKeyO_none_iff kq mid1).mp h) hmem
  rcases Option.ne_none_iff_exists'.mp hne with ⟨t, ht⟩
  have htof : tOf mid1 mid2 q = t := by
    unfold tOf
    rw [hkq]
    simp [ht]
  refine ⟨?_, ?_, ?_, kq, hkq, ?_, ?_⟩
  · rw [htof]
    exact idxOfKeyO_some kq mid1 t ht
  · rw [inv.mapq q hq]
    unfold mapSpec
    rw [htof]
    simp [hkq, ht]
  · rw [inv.elsq q hq]
    unfold elsSpec elOf
    rw [htof]
    simp [hkq, ht]
  · rw [htof]
    exact ht
  · rw [htof]
    exact idxOfKeyO_some_key kq mid1 t ht

/-- With `moved = false` the key assignment is the identity (old index
of each slot's carrier equals the slot). -/
theorem run52_identity (s1 : Nat) (mid1 : List (KNode × Nat))
    (mid2 : List KNode) (container : List Nat) (st : S52)
    (inv : Inv52 s1 mid2.length mid2 container mid1 st)
    (hm1 : mid1.length = mid2.length)
    (hnd1 : (keyedKeysO mid1).Nodup) (hnd2 : (keyedKeys mid2).Nodup)
    (hk1 : ∀ o ∈ mid1, (o.1.key).isSome = true)
    (hk2 : ∀ n ∈ mid2, (n.key).isSome = true)
    (hsub : ∀ k, k ∈ keyedKeysO mid1 → k ∈ keyedKeys mid2)
    (hmoved : st.moved = false) :
    ∀ q, q < mid2.length → tOf mid1 mid2 q = q := by
  have hall : ∀ o ∈ mid1,
      ((o.1.key).bind (fun k => idxOfKeyN k mid2)).isSome = true := by
    intro o ho
    rcases Option.isSome_iff_exists.mp (hk1 o ho) with ⟨k, hk⟩
    have hmem : k ∈ keyedKeys mid2 := by
      refine hsub k ?_
      rw [mem_keyedKeysO]
      exact ⟨o, ho, hk⟩
    have hne : idxOfKeyN k mid2 ≠ none :=
      fun h => ((idxOfKeyN_none_iff k mid2).mp h) hmem
    rw [hk]
    simpa [Option.isSome_iff_exists] using Option.ne_none_iff_exists'.mp hne
  have hPW : (mid1.map (fun o =>
      s1 + (((o.1.key).bind (fun k => idxOfKeyN k mid2)).getD 0))).Pairwise
      (· < ·) := by
    rw [← niList_eq_map_of_matched s1 mid2 mid1 hall]
    exact inv.mv hmoved
  have hmono : ∀ t t', t < t' → t' < mid2.length →
      (((getO mid1 t).1.key.bind (fun k => idxOfKeyN k mid2)).getD 0) <
      (((getO mid1 t').1.key.bind (fun k => idxOfKeyN k mid2)).getD 0) := by
    intro t t' htt ht'
    have hlen : (mid1.map (fun o =>
        s1 + (((o.1.key).bind (fun k => idxOfKeyN k mid2)).getD 0))).length
        = mid1.length := List.length_map _ _
    have ht'1 : t' < mid1.length := by omega
    have ht1 : t < mid1.length := by omega
    have h := (List.pairwise_iff_getElem.mp hPW) t t'
      (by rw [hlen]; exact ht1) (by rw [hlen]; exact ht'1) htt
    rw [List.getElem_map, List.getElem_map] at h
    rw [getO_eq_getElem mid1 t ht1, getO_eq_getElem mid1 t' ht'1]
    omega
  have hbd : ∀ t, t < mid2.length →
      (((getO mid1 t).1.key.bind (fun k => idxOfKeyN k mid2)).getD 0) <
        mid2.length := by
    intro t ht
    have ht1 : t < mid1.length := by omega
    have h := hall (getO mid1 t) (getO_mem mid1 t ht1)
    rcases Option.isSome_iff_exists.mp h with ⟨q', hq'⟩
    rcases Option.bind_eq_some.mp hq' with ⟨k, hk, hkq⟩
    rw [hq']
    simpa using (idxOfKeyN_some k mid2 q' hkq).1
  have hid := strictmono_bounded_id _ mid2.length hmono hbd
  intro q hq
  have hq1 : q < mid1.length := by omega
  rcases Option.isSome_iff_exists.mp
    (hk1 (getO mid1 q) (getO_mem mid1 q hq1)) with ⟨k', hk'⟩
  have hfq := hid q hq
  rw [hk'] at hfq
  simp only [Option.some_bind] at hfq
  have hsome : (idxOfKeyN k' mid2).isSome = true := by
    have h := hall (getO mid1 q) (getO_mem mid1 q hq1)
    rw [hk'] at h
    simpa using h
  rcases Option.isSome_iff_exists.mp hsome with ⟨q', hq'⟩
  have hqq : q' = q := by
    rw [hq'] at hfq
    simpa using hfq
  have hkey2 : (getK mid2 q).key = some k' := by
    rw [← hqq]
    exact (idxOfKeyN_some k' mid2 q' hq').2
  have hidx : idxOfKeyO k' mid1 = some q :=
    idxOfKeyO_at k' mid1 q hnd1 hq1 hk'
  unfold tOf
  rw [hkey2]
  simp [hidx]

/-- The carrier of new slot `q`'s key: position, key and key-agreement
facts, derived from matchedness and distinct keys alone. -/
theorem carrier_spec (mid1 : List (KNode × Nat)) (mid2 : List KNode)
    (q : Nat) (hq : q < mid2.length)
    (hk2 : ∀ n ∈ mid2, (n.key).isSome = true)
    (hsup : ∀ k, k ∈ keyedKeys mid2 → k ∈ keyedKeysO mid1) :
    tOf mid1 mid2 q < mid1.length ∧
    ∃ kq, (getK mid2 q).key = some kq ∧
      idxOfKeyO kq mid1 = some (tOf mid1 mid2 q) ∧
      (getO mid1 (tOf mid1 mid2 q)).1.key = some kq := by
  rcases Option.isSome_iff_exists.mp
    (hk2 (getK mid2 q) (getK_mem mid2 q hq)) with ⟨kq, hkq⟩
  have hmem : kq ∈ keyedKeysO mid1 := hsup kq
    ((mem_keyedKeys mid2 kq).mpr ⟨getK mid2 q, getK_mem mid2 q hq, hkq⟩)
  have hne : idxOfKeyO kq mid1 ≠ none :=
    fun h => ((idxOfKeyO_none_iff kq mid1).mp h) hmem
  rcases Option.ne_none_iff_exists'.mp hne with ⟨t, ht⟩
  have htof : tOf mid1 mid2 q = t := by
    unfold tOf
    rw [hkq]
    simp [ht]
  rw [htof]
  exact ⟨idxOfKeyO_some kq mid1 t ht, kq, hkq, ht,
    idxOfKeyO_some_key kq mid1 t ht⟩

theorem mem_unprocEls (mid1 : List (KNode × Nat)) (mid2 : List KNode)
    (c e : Nat) (h : e ∈ unprocEls mid1 mid2 c) :
    e ∈ mid1.map Prod.snd := by
  unfold unprocEls at h
  rcases List.mem_filterMap.mp h with ⟨o, ho, hcond⟩
  rw [List.mem_map]
  refine ⟨o, ho, ?_⟩
  by_cases hlt : ((o.1.key.bind (fun k => idxOfKeyN k mid2)).getD 0) < c
  · rw [if_pos hlt] at hcond
    exact Option.some.inj hcond
  · rw [if_neg hlt] at hcond
    cases hcond

theorem unprocEls_zero (mid1 : List (KNode × Nat)) (mid2 : List KNode) :
    unprocEls mid1 mid2 0 = [] := by
  unfold unprocEls
  induction mid1 with
  | nil => rfl
  | cons o os ih =>
    rw [List.filterMap_cons, if_neg (by omega)]
    exact ih

theorem unprocEls_all (mid1 : List (KNode × Nat)) (mid2 : List KNode)
    (c : Nat) :
    (∀ o ∈ mid1,
      ((o.1.key.bind (fun k => idxOfKeyN k mid2)).getD 0) < c) →
    unprocEls mid1 mid2 c = mid1.map Prod.snd := by
  unfold unprocEls
  induction mid1 with
  | nil => intro _; rfl
  | cons o os ih =>
    intro hbd
    rw [List.filterMap_cons, if_pos (hbd o (List.mem_cons_self o os)),
      List.map_cons, ih (fun o' ho' => hbd o' (List.mem_cons_of_mem _ ho'))]

/-- Scanning one more slot moves exactly the carrier of that slot from
the unprocessed list (keeping the order of the rest). -/
theorem unprocEls_diff (mid1 : List (KNode × Nat)) (mid2 : List KNode)
    (c : Nat) (hc : c < mid2.length)
    (hnd1 : (keyedKeysO mid1).Nodup) (hnd2 : (keyedKeys mid2).Nodup)
    (hk1 : ∀ o ∈ mid1, (o.1.key).isSome = true)
    (hk2 : ∀ n ∈ mid2, (n.key).isSome = true)
    (hsub : ∀ k, k ∈ keyedKeysO mid1 → k ∈ keyedKeys mid2)
    (hsup : ∀ k, k ∈ keyedKeys mid2 → k ∈ keyedKeysO mid1) :
    ∃ U₁ U₂,
      unprocEls mid1 mid2 (c + 1) = U₁ ++ elOf mid1 mid2 c :: U₂ ∧
      unprocEls mid1 mid2 c = U₁ ++ U₂ := by
  obtain ⟨htlen, kq, hkq, ht, hckey⟩ :=
    carrier_spec mid1 mid2 c hc hk2 hsup
  have hqidx : idxOfKeyN kq mid2 = some c :=
    idxOfKeyN_at kq mid2 c hnd2 hc hkq
  have hsplit1 : mid1 = mid1.take (tOf mid1 mid2 c) ++
      getO mid1 (tOf mid1 mid2 c) :: mid1.drop (tOf mid1 mid2 c + 1) := by
    rw [getO_eq_getElem mid1 _ htlen, ← List.drop_eq_getElem_cons,
      List.take_append_drop]
  have hnocar : ∀ o, o ∈ mid1.take (tOf mid1 mid2 c) ∨
      o ∈ mid1.drop (tOf mid1 mid2 c + 1) → o ∈ mid1 →
      ((o.1.key.bind (fun k => idxOfKeyN k mid2)).getD 0) ≠ c := by
    intro o hor homem hqof
    rcases Option.isSome_iff_exists.mp (hk1 o homem) with ⟨ko, hko⟩
    have hkomem : ko ∈ keyedKeys mid2 := by
      refine hsub ko ?_
      rw [mem_keyedKeysO]
      exact ⟨o, homem, hko⟩
    have hkone : idxOfKeyN ko mid2 ≠ none :=
      fun h => ((idxOfKeyN_none_iff ko mid2).mp h) hkomem
    rcases Option.ne_none_iff_exists'.mp hkone with ⟨qo, hqo⟩
    have hqoc : qo = c := by
      rw [hko] at hqof
      simp only [Option.some_bind, hqo] at hqof
      simpa using hqof
    have hkoq : ko = kq := by
      have h1 := (idxOfKeyN_some ko mid2 qo hqo).2
      rw [hqoc, hkq] at h1
      exact (Option.some.inj h1).symm
    have hko' : o.1.key = some kq := hkoq ▸ hko
    rcases hor with hto | hto
    · exact idxOfKeyO_first kq mid1 (tOf mid1 mid2 c) ht o hto hko'
    · have hsp : keyedKeysO mid1 =
          keyedKeysO (mid1.take (tOf mid1 mid2 c + 1)) ++
          keyedKeysO (mid1.drop (tOf mid1 mid2 c + 1)) := by
        rw [← keyedKeysO_append, List.take_append_drop]
      have hleft : kq ∈ keyedKeysO (mid1.take (tOf mid1 mid2 c + 1)) := by
        rw [mem_keyedKeysO]
        refine ⟨getO mid1 (tOf mid1 mid2 c), ?_, hckey⟩
        rw [List.take_succ, List.getElem?_eq_getElem htlen]
        refine List.mem_append_right _ ?_
        rw [getO_eq_getElem mid1 _ htlen]
        exact List.mem_singleton_self _
      have hright : kq ∈
          keyedKeysO (mid1.drop (tOf mid1 mid2 c + 1)) := by
        rw [mem_keyedKeysO]
        exact ⟨o, hto, hko'⟩
      rw [hsp, List.nodup_append] at hnd1
      exact hnd1.2.2 hleft hright
  have hcong : ∀ (seg : List (KNode × Nat)),
      (∀ o ∈ seg, o ∈ mid1.take (tOf mid1 mid2 c) ∨
        o ∈ mid1.drop (tOf mid1 mid2 c + 1)) →
      (∀ o ∈ seg, o ∈ mid1) →
      seg.filterMap (fun o =>
        if ((o.1.key.bind (fun k => idxOfKeyN k mid2)).getD 0) < c + 1 then
          some o.2
        else none) =
      seg.filterMap (fun o =>
        if ((o.1.key.bind (fun k => idxOfKeyN k mid2)).getD 0) < c then
          some o.2
        else none) := by
    intro seg hseg hsegm
    refine List.filterMap_congr ?_
    intro o ho
    have hne := hnocar o (hseg o ho) (hsegm o ho)
    by_cases hlt : ((o.1.key.bind (fun k => idxOfKeyN k mid2)).getD 0) < c
    · rw [if_pos (by omega), if_pos hlt]
    · rw [if_neg (by omega), if_neg hlt]
  have hqofcar : ((getO mid1 (tOf mid1 mid2 c)).1.key.bind
      (fun k => idxOfKeyN k mid2)).getD 0 = c := by
    rw [hckey]
    simp [hqidx]
  refine ⟨(mid1.take (tOf mid1 mid2 c)).filterMap (fun o =>
      if ((o.1.key.bind (fun k => idxOfKeyN k mid2)).getD 0) < c then
        some o.2
      else none),
    (mid1.drop (tOf mid1 mid2 c + 1)).filterMap (fun o =>
      if ((o.1.key.bind (fun k => idxOfKeyN k mid2)).getD 0) < c then
        some o.2
      else none), ?_, ?_⟩
  · show unprocEls mid1 mid2 (c + 1) = _
    unfold unprocEls
    conv =>
      lhs
      rw [hsplit1]
    rw [List.filterMap_append, List.filterMap_cons, if_pos (by omega),
      hcong _ (fun o ho => Or.inl ho)
        (fun o ho => List.take_subset _ _ ho),
      hcong _ (fun o ho => Or.inr ho)
        (fun o ho => List.drop_subset _ _ ho)]
    rfl
  · show unprocEls mid1 mid2 c = _
    unfold unprocEls
    conv =>
      lhs
      rw [hsplit1]
    rw [List.filterMap_append, List.filterMap_cons, if_neg (by omega)]

/-- Nodup-list indexing is injective (getD form). -/
theorem nodup_getAt_inj (l : List Nat) (hnd : l.Nodup) (t t' : Nat)
    (ht : t < l.length) (ht' : t' < l.length)
    (he : getAt l t = getAt l t') : t = t' := by
  rw [getAt_eq_getElem l t ht, getAt_eq_getElem l t' ht'] at he
  exact (List.Nodup.getElem_inj_iff hnd).mp he

/-- The handle assignment of a permutation middle is injective. -/
theorem elOf_inj (mid1 : List (KNode × Nat)) (mid2 : List KNode)
    (hnd2 : (keyedKeys mid2).Nodup)
    (hndOL : (mid1.map Prod.snd).Nodup)
    (hk2 : ∀ n ∈ mid2, (n.key).isSome = true)
    (hsup : ∀ k, k ∈ keyedKeys mid2 → k ∈ keyedKeysO mid1) :
    ∀ q q', q < mid2.length → q' < mid2.length →
      elOf mid1 mid2 q = elOf mid1 mid2 q' → q = q' := by
  intro q q' hq hq' he
  obtain ⟨htq, kq, hkq, _, hck⟩ := carrier_spec mid1 mid2 q hq hk2 hsup
  obtain ⟨htq', kq', hkq', _, hck'⟩ :=
    carrier_spec mid1 mid2 q' hq' hk2 hsup
  have htt : tOf mid1 mid2 q = tOf mid1 mid2 q' := by
    refine nodup_getAt_inj _ hndOL _ _ (by simpa using htq)
      (by simpa using htq') ?_
    rw [getAt_map_snd mid1 _ htq, getAt_map_snd mid1 _ htq']
    exact he
  have hkk : kq = kq' := by
    rw [htt] at hck
    rw [hck] at hck'
    exact Option.some.inj hck'
  exact keyedKeys_pos_inj mid2 kq q q' hnd2 hq hq' hkq (hkk ▸ hkq')

/-- Combined phases 5.1–5.3 on a permutation middle: the loop rewrites
the middle of the container to the new key order, reusing every handle,
mounting and unmounting nothing. -/
theorem keyed_mid_master (dev : Bool) (s1 : Nat)
    (mid1 : List (KNode × Nat)) (mid2 : List KNode)
    (P S container : List Nat) (ne : Nat)
    (hcont : container = P ++ mid1.map Prod.snd ++ S)
    (hm1 : mid1.length = mid2.length)
    (hnd1 : (keyedKeysO mid1).Nodup) (hnd2 : (keyedKeys mid2).Nodup)
    (hk1 : ∀ o ∈ mid1, (o.1.key).isSome = true)
    (hk2 : ∀ n ∈ mid2, (n.key).isSome = true)
    (hsub : ∀ k, k ∈ keyedKeysO mid1 → k ∈ keyedKeys mid2)
    (hsup : ∀ k, k ∈ keyedKeys mid2 → k ∈ keyedKeysO mid1)
    (hndOL : (mid1.map Prod.snd).Nodup)
    (hPd : ∀ e ∈ mid1.map Prod.snd, e ∉ P)
    (hSd : ∀ e ∈ mid1.map Prod.snd, e ∉ S)
    (hPS : ∀ e ∈ S, e ∉ P) (hne2 : mid2 ≠ [])
    (aa : Option Nat) (haa : aa = (S.map (fun e => some e)).headD none)
    (st52 : S52) (seq : List Nat) (st53 : S53)
    (h52 : st52 = run52 s1 mid2.length (buildKeyMap dev s1 mid2).1 mid1
      mid2 container)
    (hseq : seq = (if st52.moved then getSequence st52.map else []))
    (h53 : st53 = step53 st52.moved seq st52.map mid2.length aa
      mid2.length ((seq.length : Int) - 1)
      ⟨st52.container, st52.newEls, ne, 0, 0⟩) :
    st53.container =
      P ++ procEls (elOf mid1 mid2) mid2.length 0 ++ S ∧
    st53.newEls = st52.newEls ∧ st53.nextEl = ne ∧
    (∀ q, q < mid2.length →
      st52.newEls.getD q none = some (elOf mid1 mid2 q)) ∧
    st52.unmounts = 0 := by
  have inv : Inv52 s1 mid2.length mid2 container mid1 st52 := by
    rw [h52]
    exact run52_spec dev s1 mid1 mid2 container hm1 hk1 hnd1 hnd2 hsub
  have hval := run52_map_val s1 mid1 mid2 container st52 inv hk2 hsup
  have hm0 : 0 < mid2.length := List.length_pos.mpr hne2
  have hnz : ∀ q, q < mid2.length → getAt st52.map q ≠ 0 := by
    intro q hq
    have := (hval q hq).2.1
    omega
  have maplen : st52.map.length = mid2.length := inv.maplen
  have hmapne : st52.map ≠ [] := by
    intro h
    rw [h] at maplen
    simp at maplen
    omega
  have hnels : ∀ q, q < mid2.length →
      st52.newEls.getD q none = some (elOf mid1 mid2 q) :=
    fun q hq => (hval q hq).2.2.1
  have hEinj := elOf_inj mid1 mid2 hnd2 hndOL hk2 hsup
  have hEY0 : ∀ q, q < mid2.length →
      elOf mid1 mid2 q ∈ mid1.map Prod.snd := by
    intro q hq
    have htq := (hval q hq).1
    unfold elOf
    rw [← getAt_map_snd mid1 _ htq]
    exact getAt_mem _ _ (by simpa using htq)
  have hUEd : ∀ c, c < mid2.length → ∃ U₁ U₂,
      unprocEls mid1 mid2 (c + 1) = U₁ ++ elOf mid1 mid2 c :: U₂ ∧
      unprocEls mid1 mid2 c = U₁ ++ U₂ :=
    fun c hc => unprocEls_diff mid1 mid2 c hc hnd1 hnd2 hk1 hk2 hsub hsup
  have hUEmem : ∀ c e, e ∈ unprocEls mid1 mid2 c →
      e ∈ mid1.map Prod.snd :=
    fun c e he => mem_unprocEls mid1 mid2 c e he
  have hUEm : unprocEls mid1 mid2 mid2.length = mid1.map Prod.snd := by
    refine unprocEls_all mid1 mid2 mid2.length ?_
    intro o ho
    rcases Option.isSome_iff_exists.mp (hk1 o ho) with ⟨ko, hko⟩
    have hkomem : ko ∈ keyedKeys mid2 := by
      refine hsub ko ?_
      rw [mem_keyedKeysO]
      exact ⟨o, ho, hko⟩
    have hkone : idxOfKeyN ko mid2 ≠ none :=
      fun h => ((idxOfKeyN_none_iff ko mid2).mp h) hkomem
    rcases Option.ne_none_iff_exists'.mp hkone with ⟨qo, hqo⟩
    rw [hko]
    simp only [Option.some_bind, hqo]
    simpa using (idxOfKeyN_some ko mid2 qo hqo).1
  have hmain : st53.container =
      P ++ procEls (elOf mid1 mid2) mid2.length 0 ++ S ∧
      st53.newEls = st52.newEls ∧ st53.nextEl = ne := by
    cases hmv : st52.moved with
    | false =>
      have hst53 : st53 = ⟨st52.container, st52.newEls, ne, 0, 0⟩ := by
        rw [h53, hmv]
        exact step53_unmoved seq st52.map mid2.length aa hnz mid2.length
          (Nat.le_refl _) _ _
      have hid := run52_identity s1 mid1 mid2 container st52 inv hm1 hnd1
        hnd2 hk1 hk2 hsub hmv
      have hOL : procEls (elOf mid1 mid2) mid2.length 0 =
          mid1.map Prod.snd := by
        unfold procEls
        refine List.ext_getElem ?_ ?_
        · simp [hm1]
        · intro i h1 h2
          simp only [List.getElem_map, List.getElem_range]
          have him : i < mid2.length := by
            simp only [List.length_map, List.length_range] at h1
            omega
          rw [Nat.zero_add]
          unfold elOf
          rw [hid i him, getO_eq_getElem mid1 i (by omega)]
      rw [hst53]
      refine ⟨?_, rfl, rfl⟩
      show st52.container = _
      rw [inv.ctn, hcont, hOL]
    | true =>
      have hseqT : seq = getSequence st52.map := by
        rw [hseq, hmv, if_pos rfl]
      have hchain : IsNZChain st52.map seq := by
        rw [hseqT]
        exact getSequence_isNZChain st52.map hmapne (hnz 0 hm0)
      obtain ⟨hsP, hsB, hsV⟩ := hchain
      have hbd : ∀ x ∈ seq, x < mid2.length := by
        intro x hx
        have h1 := (hsB x hx).1
        omega
      have hmapInc : (seq.map (tOf mid1 mid2)).Pairwise (· < ·) := by
        rw [List.pairwise_map]
        refine List.Pairwise.imp_of_mem ?_ hsP
        intro a b ha hb hab
        have hv := pairwise_mem_rel seq _ hsP hsV a ha b hb hab
        have h1 := (hval a (hbd a ha)).2.1
        have h2 := (hval b (hbd b hb)).2.1
        rw [h1, h2] at hv
        omega
      have hstable : (stableEls seq (elOf mid1 mid2)
          mid2.length).Sublist (mid1.map Prod.snd) := by
        rw [stableEls_top seq _ mid2.length hbd]
        have hrw : seq.map (elOf mid1 mid2) =
            (seq.map (tOf mid1 mid2)).map
              (fun p => getAt (mid1.map Prod.snd) p) := by
          rw [List.map_map]
          refine List.map_congr_left ?_
          intro q hq
          show elOf mid1 mid2 q =
            getAt (mid1.map Prod.snd) (tOf mid1 mid2 q)
          rw [getAt_map_snd mid1 _ (hval q (hbd q hq)).1]
          rfl
        rw [hrw]
        refine map_getAt_sublist _ _ hmapInc ?_
        intro p hp
        rcases List.mem_map.mp hp with ⟨q, hq, rfl⟩
        have := (hval q (hbd q hq)).1
        simpa using this
      have hinit : Inv53 P S seq mid2.length (elOf mid1 mid2)
          (unprocEls mid1 mid2) st52.newEls ne mid2.length
          ⟨st52.container, st52.newEls, ne, 0, 0⟩ := by
        refine ⟨rfl, rfl, mid1.map Prod.snd, [], ?_, ?_, ?_, ?_, ?_, ?_,
          ?_⟩
        · show st52.container = P ++ (mid1.map Prod.snd ++ []) ++ S
          rw [inv.ctn, hcont, List.append_nil]
        · rw [hUEm, List.append_nil]
        · exact hstable
        · rw [procEls_top]
        · rw [hUEm, procEls_top, List.append_nil]
          simp
        · intro e he
          left
          rw [hUEm]
          simpa using he
        · rw [List.append_nil]
          exact hndOL
      have hloop := inv53_loop P S seq st52.map mid2.length
        (elOf mid1 mid2) (unprocEls mid1 mid2) st52.newEls ne
        (mid1.map Prod.snd) aa hnz hsP hbd hnels hEinj hUEd hUEmem hEY0
        hPd hSd hPS haa mid2.length (Nat.le_refl _) _ hinit
      have hcnt : seq.countP (fun x => decide (x < mid2.length)) =
          seq.length := by
        rw [List.countP_eq_length]
        intro x hx
        exact decide_eq_true (hbd x hx)
      have hst53 : st53 = step53 true seq st52.map mid2.length aa
          mid2.length
          ((seq.countP (fun x => decide (x < mid2.length)) : Int) - 1)
          ⟨st52.container, st52.newEls, ne, 0, 0⟩ := by
        rw [h53, hmv, hcnt]
      rw [hst53]
      exact inv53_final P S seq mid2.length (elOf mid1 mid2)
        (unprocEls mid1 mid2) st52.newEls ne (unprocEls_zero mid1 mid2)
        _ hloop
  exact ⟨hmain.1, hmain.2.1, hmain.2.2, hnels, inv.unm⟩

theorem getK_eq_getElem (ns : List KNode) (t : Nat) (h : t < ns.length) :
    getK ns t = ns[t] := by
  unfold getK
  rw [List.getD_eq_getElem?_getD, List.getElem?_eq_getElem h]
  rfl

theorem getO_append_add (π ρ : List (KNode × Nat)) :
    ∀ t, getO (π ++ ρ) (π.length + t) = getO ρ t := by
  induction π with
  | nil =>
    intro t
    rw [List.nil_append]
    show getO ρ (0 + t) = getO ρ t
    rw [Nat.zero_add]
  | cons o os ih =>
    intro t
    have hidx : (o :: os).length + t = (os.length + t) + 1 := by
      rw [List.length_cons]
      omega
    rw [List.cons_append, hidx, getO_cons_succ]
    exact ih t

/-- The host element the diff hands to a keyed new node: the handle of
the first old entry carrying the node's key. -/
def keyEl (os : List (KNode × Nat)) (n : KNode) : Nat :=
  (getO os ((n.key.bind (fun k => idxOfKeyO k os)).getD 0)).2

theorem keyEl_of_carrier (os : List (KNode × Nat))
    (hnd : (keyedKeysO os).Nodup) (p : Nat) (hp : p < os.length)
    (n : KNode) (k : Nat) (hn : n.key = some k)
    (hck : (getO os p).1.key = some k) :
    keyEl os n = (getO os p).2 := by
  unfold keyEl
  rw [hn]
  simp only [Option.some_bind]
  rw [idxOfKeyO_at k os p hnd hp hck]
  rfl

/-- With distinct keys, a keyed old entry is its own key's carrier. -/
theorem keyEl_self (os : List (KNode × Nat))
    (hnd : (keyedKeysO os).Nodup) (o : KNode × Nat) (ho : o ∈ os)
    (hk : (o.1.key).isSome = true) : keyEl os o.1 = o.2 := by
  rcases Option.isSome_iff_exists.mp hk with ⟨k, hko⟩
  rcases List.getElem_of_mem ho with ⟨p, hp, hpe⟩
  have hgo : getO os p = o := by
    rw [getO_eq_getElem os p hp, hpe]
  have := keyEl_of_carrier os hnd p hp o.1 k hko (by rw [hgo]; exact hko)
  rw [hgo] at this
  exact this

theorem list_trisplit {α : Type} (l : List α) (i s : Nat)
    (hi : i ≤ l.length) (hs : s ≤ l.length - i) :
    l = l.take i ++ ((l.drop i).take (l.length - i - s) ++
      l.drop (l.length - s)) := by
  have h3 : (l.drop i).drop (l.length - i - s) = l.drop (l.length - s) := by
    rw [List.drop_drop]
    congr 1
    omega
  calc l = l.take i ++ l.drop i := (List.take_append_drop i l).symm
    _ = l.take i ++ ((l.drop i).take (l.length - i - s) ++
        (l.drop i).drop (l.length - i - s)) := by
      rw [List.take_append_drop (l.length - i - s) (l.drop i)]
    _ = l.take i ++ ((l.drop i).take (l.length - i - s) ++
        l.drop (l.length - s)) := by
      rw [h3]

/-- The tail-synced suffixes are equal node lists. -/
theorem sync_suffix_map (c1 : List (KNode × Nat)) (c2 : List KNode)
    (i s : Nat)
    (hs : s = syncLen (c1.drop i).reverse (c2.drop i).reverse)
    (hi1 : i ≤ c1.length) (hi2 : i ≤ c2.length) :
    (c1.drop (c1.length - s)).map Prod.fst = c2.drop (c2.length - s) := by
  have hsl1 : s ≤ c1.length - i := by
    rw [hs]
    have h := syncLen_le_left (c1.drop i).reverse (c2.drop i).reverse
    simpa using h
  have hsl2 : s ≤ c2.length - i := by
    rw [hs]
    have h := syncLen_le_right (c1.drop i).reverse (c2.drop i).reverse
    simpa using h
  have htk := syncLen_take_map (c1.drop i).reverse (c2.drop i).reverse
  rw [← hs] at htk
  rw [List.take_reverse, List.take_reverse, List.map_reverse] at htk
  have hsuf := List.reverse_inj.mp htk
  rw [List.length_drop, List.length_drop, List.drop_drop,
    List.drop_drop] at hsuf
  rw [show i + (c1.length - i - s) = c1.length - s from by omega,
    show i + (c2.length - i - s) = c2.length - s from by omega] at hsuf
  exact hsuf

/-- Full-list permutation diff: the container is rewritten to the new
key order (each new node over the handle its key carried in the old
list) and the per-slot element assignment records exactly those
handles. -/
theorem keyed_perm_container (dev : Bool) (c1 : List (KNode × Nat))
    (c2 : List KNode) (ne : Nat)
    (hperm : (c1.map Prod.fst).Perm c2)
    (hkey : ∀ n ∈ c2, (n.key).isSome = true)
    (hnd : (keyedKeys c2).Nodup)
    (hndh : (c1.map Prod.snd).Nodup) :
    (patchKeyedChildren dev c1 c2 (c1.map Prod.snd) none ne).container =
      c2.map (keyEl c1) ∧
    (patchKeyedChildren dev c1 c2 (c1.map Prod.snd) none ne).newEls =
      c2.map (fun n => some (keyEl c1 n)) := by
  have hpermd := perm_drop_sync c1 c2 hperm
  have hpermm := perm_take_front (c1.drop (syncLen c1 c2))
    (c2.drop (syncLen c1 c2)) hpermd
  rw [List.length_drop, List.length_drop] at hpermm
  obtain ⟨r, hr⟩ : ∃ r, patchKeyedChildren dev c1 c2 (c1.map Prod.snd)
      none ne = r := ⟨_, rfl⟩
  rw [hr]
  simp only [patchKeyedChildren] at hr
  set i := syncLen c1 c2 with hidef
  set s := syncLen ((c1.drop i).reverse) ((c2.drop i).reverse) with hsdef
  set mid1 := (c1.drop i).take (c1.length - i - s) with hm1def
  set mid2 := (c2.drop i).take (c2.length - i - s) with hm2def
  -- bounds and the three-way splits of both lists
  have hi1 : i ≤ c1.length := syncLen_le_left c1 c2
  have hi2 : i ≤ c2.length := syncLen_le_right c1 c2
  have hsl1 : s ≤ c1.length - i := by
    rw [hsdef]
    have h := syncLen_le_left (c1.drop i).reverse (c2.drop i).reverse
    simpa using h
  have hsl2 : s ≤ c2.length - i := by
    rw [hsdef]
    have h := syncLen_le_right (c1.drop i).reverse (c2.drop i).reverse
    simpa using h
  have hsplit1 : c1 = c1.take i ++ (mid1 ++ c1.drop (c1.length - s)) :=
    list_trisplit c1 i s hi1 hsl1
  have hsplit2 : c2 = c2.take i ++ (mid2 ++ c2.drop (c2.length - s)) :=
    list_trisplit c2 i s hi2 hsl2
  have hm1len : mid1.length = c1.length - i - s := by
    rw [hm1def, List.length_take, List.length_drop,
      Nat.min_eq_left (by omega)]
  have hm2len : mid2.length = c2.length - i - s := by
    rw [hm2def, List.length_take, List.length_drop,
      Nat.min_eq_left (by omega)]
  have hplen : (c1.take i).length = i := by
    rw [List.length_take, Nat.min_eq_left hi1]
  -- synced prefix and suffix are equal node lists
  have hpre : (c1.take i).map Prod.fst = c2.take i := syncLen_take_map c1 c2
  have hsufeq : (c1.drop (c1.length - s)).map Prod.fst =
      c2.drop (c2.length - s) := sync_suffix_map c1 c2 i s hsdef hi1 hi2
  -- full-list key facts
  have hk1full : ∀ o ∈ c1, (o.1.key).isSome = true := by
    intro o ho
    refine hkey o.1 (hperm.mem_iff.mp ?_)
    exact List.mem_map.mpr ⟨o, ho, rfl⟩
  have hkeysPermF : (keyedKeysO c1).Perm (keyedKeys c2) := by
    rw [keyedKeysO_eq]
    exact hperm.filterMap (fun n => n.key)
  have hnd1full : (keyedKeysO c1).Nodup := hkeysPermF.nodup_iff.mpr hnd
  -- synced-part handle images
  have hprefC : (c2.take i).map (keyEl c1) = (c1.take i).map Prod.snd := by
    rw [← hpre, List.map_map]
    refine List.map_congr_left ?_
    intro o ho
    have ho1 : o ∈ c1 := List.take_subset i c1 ho
    exact keyEl_self c1 hnd1full o ho1 (hk1full o ho1)
  have hsufC : (c2.drop (c2.length - s)).map (keyEl c1) =
      (c1.drop (c1.length - s)).map Prod.snd := by
    rw [← hsufeq, List.map_map]
    refine List.map_congr_left ?_
    intro o ho
    have ho1 : o ∈ c1 := List.drop_subset _ c1 ho
    exact keyEl_self c1 hnd1full o ho1 (hk1full o ho1)
  have hprefN : (c2.take i).map (fun n => some (keyEl c1 n)) =
      (c1.take i).map (fun o => some o.2) := by
    rw [← hpre, List.map_map]
    refine List.map_congr_left ?_
    intro o ho
    have ho1 : o ∈ c1 := List.take_subset i c1 ho
    show some (keyEl c1 o.1) = some o.2
    rw [keyEl_self c1 hnd1full o ho1 (hk1full o ho1)]
  have hsufN : (c2.drop (c2.length - s)).map (fun n => some (keyEl c1 n)) =
      (c1.drop (c1.length - s)).map (fun o => some o.2) := by
    rw [← hsufeq, List.map_map]
    refine List.map_congr_left ?_
    intro o ho
    have ho1 : o ∈ c1 := List.drop_subset _ c1 ho
    show some (keyEl c1 o.1) = some o.2
    rw [keyEl_self c1 hnd1full o ho1 (hk1full o ho1)]
  by_cases hE1 : mid1.isEmpty = true
  · rw [if_pos hE1] at hr
    have hmid1nil : mid1 = [] := List.isEmpty_iff.mp hE1
    have hmid2nil : mid2 = [] := by
      rw [hmid1nil] at hpermm
      exact hpermm.symm.eq_nil
    rw [hmid2nil] at hr
    simp only [mountRun] at hr
    subst hr
    constructor
    · show c1.map Prod.snd = c2.map (keyEl c1)
      conv_rhs => rw [hsplit2]
      conv_lhs => rw [hsplit1]
      rw [hmid1nil, hmid2nil, List.nil_append, List.nil_append,
        List.map_append, List.map_append, hprefC, hsufC]
    · show (c1.take i).map (fun o => some o.2) ++ [] ++
        (c1.drop (c1.length - s)).map (fun o => some o.2) =
        c2.map (fun n => some (keyEl c1 n))
      conv_rhs => rw [hsplit2]
      rw [hmid2nil, List.nil_append, List.map_append, hprefN, hsufN,
        List.append_nil]
  · rw [if_neg hE1] at hr
    by_cases hE2 : mid2.isEmpty = true
    · exfalso
      have hmid2nil : mid2 = [] := List.isEmpty_iff.mp hE2
      rw [hmid2nil] at hpermm
      have := List.map_eq_nil_iff.mp hpermm.eq_nil
      exact hE1 (by rw [this]; rfl)
    · rw [if_neg hE2] at hr
      set st52 := run52 i mid2.length (buildKeyMap dev i mid2).1 mid1 mid2
        (c1.map Prod.snd) with h52def
      -- middle-level hypotheses
      have hm12 : mid1.length = mid2.length := by
        have h := hpermm.length_eq
        rwa [List.length_map] at h
      have hsub2 : mid2.Sublist c2 :=
        (List.take_sublist _ _).trans (List.drop_sublist _ _)
      have hk2M : ∀ n ∈ mid2, (n.key).isSome = true :=
        fun n hn => hkey n (hsub2.subset hn)
      have hnd2M : (keyedKeys mid2).Nodup := by
        have hkk : (keyedKeys mid2).Sublist (keyedKeys c2) :=
          List.Sublist.filterMap _ hsub2
        exact List.Nodup.sublist hkk hnd
      have hkeysPerm : (keyedKeysO mid1).Perm (keyedKeys mid2) := by
        rw [keyedKeysO_eq]
        exact hpermm.filterMap (fun n => n.key)
      have hnd1M : (keyedKeysO mid1).Nodup := hkeysPerm.nodup_iff.mpr hnd2M
      have hk1M : ∀ o ∈ mid1, (o.1.key).isSome = true := by
        intro o ho
        refine hk2M o.1 (hpermm.mem_iff.mp ?_)
        exact List.mem_map.mpr ⟨o, ho, rfl⟩
      have hsubM : ∀ k, k ∈ keyedKeysO mid1 → k ∈ keyedKeys mid2 :=
        fun k hk => hkeysPerm.mem_iff.mp hk
      have hsupM : ∀ k, k ∈ keyedKeys mid2 → k ∈ keyedKeysO mid1 :=
        fun k hk => hkeysPerm.mem_iff.mpr hk
      have hne2 : mid2 ≠ [] := fun h => by rw [h] at hE2; exact hE2 rfl
      -- segment handle lists and their disjointness
      have hcontEq : c1.map Prod.snd = (c1.take i).map Prod.snd ++
          mid1.map Prod.snd ++ (c1.drop (c1.length - s)).map Prod.snd := by
        conv_lhs => rw [hsplit1]
        rw [List.map_append, List.map_append, List.append_assoc]
      have hndh3 : ((c1.take i).map Prod.snd ++ (mid1.map Prod.snd ++
          (c1.drop (c1.length - s)).map Prod.snd)).Nodup := by
        rw [← List.append_assoc, ← hcontEq]
        exact hndh
      rcases List.nodup_append.mp hndh3 with ⟨hndP, hndMS, hdisjP⟩
      rcases List.nodup_append.mp hndMS with ⟨hndOL, hndS, hSdj⟩
      have hPd : ∀ e ∈ mid1.map Prod.snd,
          e ∉ (c1.take i).map Prod.snd := by
        intro e he hP
        exact hdisjP hP (List.mem_append_left _ he)
      have hPS : ∀ e ∈ (c1.drop (c1.length - s)).map Prod.snd,
          e ∉ (c1.take i).map Prod.snd := by
        intro e he hP
        exact hdisjP hP (List.mem_append_right _ he)
      have haa : ((c1.drop (c1.length - s)).map
          (fun o => some o.2)).headD none =
          (((c1.drop (c1.length - s)).map Prod.snd).map
            (fun e => some e)).headD none := by
        rw [List.map_map]
        rfl
      -- the middle-level master theorem
      have hmaster := keyed_mid_master dev i mid1 mid2
        ((c1.take i).map Prod.snd) ((c1.drop (c1.length - s)).map Prod.snd)
        (c1.map Prod.snd) ne hcontEq hm12 hnd1M hnd2M hk1M hk2M hsubM
        hsupM hndOL hPd hSdj hPS hne2
        (((c1.drop (c1.length - s)).map (fun o => some o.2)).headD none)
        haa st52 (if st52.moved then getSequence st52.map else [])
        (step53 st52.moved
          (if st52.moved then getSequence st52.map else []) st52.map
          mid2.length
          (((c1.drop (c1.length - s)).map (fun o => some o.2)).headD none)
          mid2.length
          (((if st52.moved then getSequence st52.map
            else []).length : Int) - 1)
          ⟨st52.container, st52.newEls, ne, 0, 0⟩)
        h52def rfl rfl
      rcases hmaster with ⟨hC, hN, _, hq, _⟩
      have inv : Inv52 i mid2.length mid2 (c1.map Prod.snd) mid1 st52 := by
        rw [h52def]
        exact run52_spec dev i mid1 mid2 (c1.map Prod.snd) hm12 hk1M
          hnd1M hnd2M hsubM
      -- the per-slot handle is the key-carrier handle in the full list
      have hmidkeyEl : ∀ q, q < mid2.length →
          keyEl c1 (getK mid2 q) = elOf mid1 mid2 q := by
        intro q hqlt
        obtain ⟨htq, kq, hkq, ht, hck⟩ :=
          carrier_spec mid1 mid2 q hqlt hk2M hsupM
        have hpc1 : getO c1 (i + tOf mid1 mid2 q) =
            getO mid1 (tOf mid1 mid2 q) := by
          have h := getO_append_add (c1.take i)
            (mid1 ++ c1.drop (c1.length - s)) (tOf mid1 mid2 q)
          rw [hplen, ← hsplit1] at h
          rw [h, getO_append_lt _ _ _ htq]
        have hkc1 : (getO c1 (i + tOf mid1 mid2 q)).1.key = some kq := by
          rw [hpc1]
          exact hck
        have hplt : i + tOf mid1 mid2 q < c1.length := by
          have h1 := htq
          omega
        have h := keyEl_of_carrier c1 hnd1full (i + tOf mid1 mid2 q) hplt
          (getK mid2 q) kq hkq hkc1
        rw [hpc1] at h
        exact h
      have hmidC : mid2.map (keyEl c1) =
          procEls (elOf mid1 mid2) mid2.length 0 := by
        unfold procEls
        refine List.ext_getElem ?_ ?_
        · simp
        · intro q h1 h2
          simp only [List.getElem_map, List.getElem_range]
          have hqlt : q < mid2.length := by simpa using h1
          rw [Nat.zero_add, ← hmidkeyEl q hqlt, getK_eq_getElem mid2 q hqlt]
      have hmidN : st52.newEls = mid2.map (fun n => some (keyEl c1 n)) := by
        refine List.ext_getElem ?_ ?_
        · rw [inv.elslen, List.length_map]
        · intro q h1 h2
          have hqlt : q < mid2.length := by
            rw [inv.elslen] at h1
            exact h1
          have hgd : st52.newEls.getD q none = st52.newEls[q] := by
            rw [List.getD_eq_getElem?_getD, List.getElem?_eq_getElem h1]
            rfl
          rw [List.getElem_map, ← getK_eq_getElem mid2 q hqlt,
            hmidkeyEl q hqlt, ← hq q hqlt, hgd]
      subst hr
      constructor
      · show (step53 st52.moved
            (if st52.moved then getSequence st52.map else []) st52.map
            mid2.length
            (((c1.drop (c1.length - s)).map
              (fun o => some o.2)).headD none)
            mid2.length
            (((if st52.moved then getSequence st52.map
              else []).length : Int) - 1)
            ⟨st52.container, st52.newEls, ne, 0, 0⟩).container =
          c2.map (keyEl c1)
        rw [hC]
        conv_rhs => rw [hsplit2]
        rw [List.map_append, List.map_append, hprefC, hmidC, hsufC,
          List.append_assoc]
      · show (c1.take i).map (fun o => some o.2) ++
          (step53 st52.moved
            (if st52.moved then getSequence st52.map else []) st52.map
            mid2.length
            (((c1.drop (c1.length - s)).map
              (fun o => some o.2)).headD none)
            mid2.length
            (((if st52.moved then getSequence st52.map
              else []).length : Int) - 1)
            ⟨st52.container, st52.newEls, ne, 0, 0⟩).newEls ++
          (c1.drop (c1.length - s)).map (fun o => some o.2) =
          c2.map (fun n => some (keyEl c1 n))
        rw [hN, hmidN]
        conv_rhs => rw [hsplit2]
        rw [List.map_append, List.map_append, hprefN, hsufN,
          List.append_assoc]

/-- C3 (amended): diffing A→B and then B→A restores the container
verbatim when B is a permutation of A's nodes (all keyed, distinct
keys, distinct host handles).  The first diff leaves each new node over
the handle its key carried in A (`newEls`), the second diff — whose old
list is B paired with exactly those handles — rewrites the container
back to A's original handle order and reassigns every A node its
original handle.  Without the permutation requirement the round trip
does not restore the container: unmatched nodes are unmounted and
remounted on fresh host nodes (see the counterexample). -/
theorem keyed_round_trip (dev dev' : Bool) (c1 : List (KNode × Nat))
    (c2 : List KNode) (ne ne' : Nat)
    (hperm : (c1.map Prod.fst).Perm c2)
    (hkey : ∀ n ∈ c2, (n.key).isSome = true)
    (hnd : (keyedKeys c2).Nodup)
    (hndh : (c1.map Prod.snd).Nodup) :
    (patchKeyedChildren dev c1 c2 (c1.map Prod.snd) none ne).newEls =
      c2.map (fun n => some (keyEl c1 n)) ∧
    (patchKeyedChildren dev' (c2.map (fun n => (n, keyEl c1 n)))
        (c1.map Prod.fst)
        (patchKeyedChildren dev c1 c2 (c1.map Prod.snd) none ne).container
        none ne').container = c1.map Prod.snd ∧
    (patchKeyedChildren dev' (c2.map (fun n => (n, keyEl c1 n)))
        (c1.map Prod.fst)
        (patchKeyedChildren dev c1 c2 (c1.map Prod.snd) none ne).container
        none ne').newEls = c1.map (fun o => some o.2) := by
  obtain ⟨hC1, hN1⟩ := keyed_perm_container dev c1 c2 ne hperm hkey hnd
    hndh
  set c1' := c2.map (fun n => (n, keyEl c1 n)) with hc1pb
  have hfst : c1'.map Prod.fst = c2 := by
    rw [hc1pb, List.map_map]
    have h : (Prod.fst ∘ fun n => (n, keyEl c1 n)) =
        fun n : KNode => n := rfl
    rw [h, List.map_id']
  have hsnd : c1'.map Prod.snd = c2.map (keyEl c1) := by
    rw [hc1pb, List.map_map]
    rfl
  have hk1full : ∀ o ∈ c1, (o.1.key).isSome = true := by
    intro o ho
    refine hkey o.1 (hperm.mem_iff.mp ?_)
    exact List.mem_map.mpr ⟨o, ho, rfl⟩
  have hkeysPermF : (keyedKeysO c1).Perm (keyedKeys c2) := by
    rw [keyedKeysO_eq]
    exact hperm.filterMap (fun n => n.key)
  have hnd1full : (keyedKeysO c1).Nodup := hkeysPermF.nodup_iff.mpr hnd
  have hperm2 : (c1'.map Prod.fst).Perm (c1.map Prod.fst) := by
    rw [hfst]
    exact hperm.symm
  have hkey2 : ∀ n ∈ c1.map Prod.fst, (n.key).isSome = true := by
    intro n hn
    rcases List.mem_map.mp hn with ⟨o, ho, rfl⟩
    exact hk1full o ho
  have hnd2 : (keyedKeys (c1.map Prod.fst)).Nodup := by
    rw [← keyedKeysO_eq]
    exact hnd1full
  have hndc1' : (keyedKeysO c1').Nodup := by
    rw [keyedKeysO_eq, hfst]
    exact hnd
  have hkeyEl2 : ∀ o ∈ c1, keyEl c1' o.1 = o.2 := by
    intro o ho
    have ho2 : o.1 ∈ c2 :=
      hperm.mem_iff.mp (List.mem_map.mpr ⟨o, ho, rfl⟩)
    have hmem2 : (o.1, keyEl c1 o.1) ∈ c1' := by
      rw [hc1pb]
      exact List.mem_map.mpr ⟨o.1, ho2, rfl⟩
    have h1 : keyEl c1' o.1 = keyEl c1 o.1 :=
      keyEl_self c1' hndc1' (o.1, keyEl c1 o.1) hmem2 (hk1full o ho)
    rw [h1]
    exact keyEl_self c1 hnd1full o ho (hk1full o ho)
  have hndh2 : (c1'.map Prod.snd).Nodup := by
    rw [hsnd]
    have hp2 : (c2.map (keyEl c1)).Perm
        ((c1.map Prod.fst).map (keyEl c1)) := (hperm.map _).symm
    have hp3 : (c2.map (keyEl c1)).Perm (c1.map Prod.snd) := by
      refine hp2.trans ?_
      rw [List.map_map]
      have he : c1.map (keyEl c1 ∘ Prod.fst) = c1.map Prod.snd :=
        List.map_congr_left
          (fun o ho => keyEl_self c1 hnd1full o ho (hk1full o ho))
      rw [he]
    exact hp3.nodup_iff.mpr hndh
  obtain ⟨hC2, hN2⟩ := keyed_perm_container dev' c1' (c1.map Prod.fst)
    ne' hperm2 hkey2 hnd2 hndh2
  rw [hC1, ← hsnd]
  refine ⟨hN1, ?_, ?_⟩
  · rw [hC2, List.map_map]
    exact List.map_congr_left (fun o ho => hkeyEl2 o ho)
  · rw [hN2, List.map_map]
    refine List.map_congr_left ?_
    intro o ho
    show some (keyEl c1' o.1) = some o.2
    rw [hkeyEl2 o ho]

/-- C3 counterexample to the unrestricted reading: for A = `[a]` and
B = `[b]` with different keys, the A→B diff unmounts `a`'s host node 10
and mounts `b` on a fresh node 11; the B→A diff then mounts `a` again
on another fresh node 12, so the round trip ends with container `[12]`,
not the original `[10]` — host identity is not restored when the lists
are not permutations of each other. -/
theorem keyed_round_trip_not_universal :
    (patchKeyedChildren true
      [(⟨0, some 2⟩, 11)] [⟨0, some 1⟩]
      (patchKeyedChildren true [(⟨0, some 1⟩, 10)] [⟨0, some 2⟩]
        [10] none 11).container
      none
      (patchKeyedChildren true [(⟨0, some 1⟩, 10)] [⟨0, some 2⟩]
        [10] none 11).nextEl).container = [12] ∧
    (patchKeyedChildren true [(⟨0, some 1⟩, 10)] [⟨0, some 2⟩]
      [10] none 11).newEls = [some 11] ∧
    ([12] : List Nat) ≠ [10] := by decide

theorem keyed_round_trip_witness :
    (patchKeyedChildren false
      ([⟨0, some 3⟩, ⟨0, some 1⟩, ⟨0, some 2⟩].map
        (fun n => (n, keyEl [(⟨0, some 1⟩, 10), (⟨0, some 2⟩, 11),
          (⟨0, some 3⟩, 12)] n)))
      (([(⟨0, some 1⟩, 10), (⟨0, some 2⟩, 11),
        (⟨0, some 3⟩, 12)] : List (KNode × Nat)).map Prod.fst)
      (patchKeyedChildren false
        [(⟨0, some 1⟩, 10), (⟨0, some 2⟩, 11), (⟨0, some 3⟩, 12)]
        [⟨0, some 3⟩, ⟨0, some 1⟩, ⟨0, some 2⟩]
        (([(⟨0, some 1⟩, 10), (⟨0, some 2⟩, 11),
          (⟨0, some 3⟩, 12)] : List (KNode × Nat)).map Prod.snd)
        none 13).container
      none 20).container =
      ([(⟨0, some 1⟩, 10), (⟨0, some 2⟩, 11),
        (⟨0, some 3⟩, 12)] : List (KNode × Nat)).map Prod.snd :=
  (keyed_round_trip false false
    [(⟨0, some 1⟩, 10), (⟨0, some 2⟩, 11), (⟨0, some 3⟩, 12)]
    [⟨0, some 3⟩, ⟨0, some 1⟩, ⟨0, some 2⟩] 13 20
    (by decide) (by decide) (by decide) (by decide)).2.1

end Renderer
